import Mathlib

/-!
Verification of the CIFTI-2 axis module (`nibabel/cifti2/cifti2_axes.py`).

The Python module is shallowly embedded: numpy arrays become Lean lists,
Python dicts become association lists (with Python dict equality modelled by
key-lookup agreement in both directions), floating point scalars become exact
rationals, and code that raises exceptions returns `Except String`.
The on-disk mapping containers (`Cifti2MatrixIndicesMap` and its children)
are external collaborators of the module; they are modelled as plain records
whose fields are exactly the accessors the module reads and writes.
-/

set_option maxRecDepth 10000

deriving instance DecidableEq for Except

namespace Cifti

/-- A voxel index triple, as one row of the `(N, 3)` voxel arrays. -/
abbrev Vox := Int × Int × Int

/-- An RGBA colour, components modelled as exact rationals. -/
structure Rgba where
  r : ℚ
  g : ℚ
  b : ℚ
  a : ℚ
deriving DecidableEq, Inhabited

/-- Python `d[k]` lookup on an association-list model of a dict
(first matching key wins, which agrees with dicts since keys are unique). -/
def dlookup [BEq κ] (l : List (κ × α)) (k : κ) : Option α :=
  (l.find? (fun p => p.1 == k)).map (·.2)

/-- Python `k in d` on the association-list model of a dict. -/
def dmem [BEq κ] (l : List (κ × α)) (k : κ) : Bool :=
  l.any (fun p => p.1 == k)

/-- The keys of an association-list dict, in insertion order. -/
def dkeys (l : List (κ × α)) : List κ :=
  l.map (·.1)

/-- Python `d[k] = v`: update the value in place if the key exists,
otherwise append a new entry (dicts preserve insertion order). -/
def dset [BEq κ] (l : List (κ × α)) (k : κ) (v : α) : List (κ × α) :=
  if dmem l k then l.map (fun p => if p.1 == k then (k, v) else p) else l ++ [(k, v)]

/-- Python `d1 == d2` on dicts: every key of each maps to the same value in
the other.  (For genuine dicts keys are unique, so this is lookup agreement.) -/
def dictBeq [BEq κ] [BEq α] (l1 l2 : List (κ × α)) : Bool :=
  l1.all (fun p => dlookup l2 p.1 == some p.2) && l2.all (fun p => dlookup l1 p.1 == some p.2)

/-- numpy `x[~mask]`: the elements of `l` at positions where `mask` is false. -/
def maskNot (mask : List Bool) (l : List α) : List α :=
  (mask.zip l).filterMap (fun p => if p.1 then none else some p.2)

/-- numpy `abs(a - b).max()` for two equally shaped float arrays
(flattened); the arrays compared in the module are nonempty `(4, 4)`
affines, so the `0` base of the fold is never the result. -/
def maxAbsDiff (a b : List ℚ) : ℚ :=
  ((a.zip b).map (fun p => |p.1 - p.2|)).foldr max 0

/-- numpy `(a != b).all()` for equally shaped arrays. -/
def neqAll [BEq α] (a b : List α) : Bool :=
  (a.zip b).all (fun p => p.1 != p.2)

/-- numpy `(a != b).any()` for equally shaped arrays. -/
def neqAny [BEq α] (a b : List α) : Bool :=
  (a.zip b).any (fun p => p.1 != p.2)

/-- numpy `(a != b).any()` over two `(n, 3)` voxel arrays. -/
def voxNeqAny (a b : List Vox) : Bool :=
  a.length != b.length || (a.zip b).any (fun p => p.1 != p.2)

/-- `string.upper()` (the module only manipulates ASCII names). -/
def upperStr (s : String) : String :=
  String.mk (s.data.map Char.toUpper)

/-- `string.lower()` (the module only manipulates ASCII names). -/
def lowerStr (s : String) : String :=
  String.mk (s.data.map Char.toLower)

/-- The validating `affine` setter shared by `BrainModel` and `Parcels`:
a non-None affine must be a 4x4 array (16 entries flattened). -/
def checkAffine (affine : Option (List ℚ)) : Except String (Option (List ℚ)) :=
  match affine with
  | none => .ok none
  | some a =>
      if a.length = 16 then .ok (some a)
      else .error "Affine transformation should be a 4x4 array"

/-- The validating `volume_shape` setter shared by `BrainModel` and
`Parcels`: a non-None shape must be a length-3 tuple. -/
def checkShape (volume_shape : Option (List Int)) : Except String (Option (List Int)) :=
  match volume_shape with
  | none => .ok none
  | some l =>
      if l.length = 3 then .ok (some l)
      else .error "Volume shape should be a tuple of length 3"

/-- `Except.isOk` as a Boolean observation. -/
def isOkE (e : Except String α) : Bool :=
  match e with
  | .ok _ => true
  | .error _ => false

/-- Python `10 ** e` for an integer exponent, as an exact rational. -/
def pow10 (e : Int) : ℚ :=
  if 0 ≤ e then (10 : ℚ) ^ e.toNat else ((1 : ℚ) / 10) ^ (-e).toNat

/-- The tolerance `1e-8` used by the affine comparisons. -/
def tol : ℚ := 1 / 100000000

/-! ## External mapping containers

Records standing for `cifti2.Cifti2MatrixIndicesMap` and the child
containers the module reads and writes through documented accessors. -/

/-- `cifti2.Cifti2Volume` together with its transformation matrix:
`volume_dimensions` and `transformation_matrix_voxel_indices_ijk_to_xyz.matrix`
(the affine is flattened to 16 rationals; `none` models a `None` matrix). -/
structure VolumeE where
  volume_dimensions : Option (List Int)
  matrix : Option (List ℚ)
deriving DecidableEq, Inhabited

/-- One `cifti2.Cifti2BrainModel` child of a brain-model mapping. -/
structure BMEntry where
  index_offset : Nat
  index_count : Nat
  model_type : String
  brain_structure : String
  surface_number_of_vertices : Option Int
  voxel_indices_ijk : Option (List Vox)
  vertex_indices : Option (List Int)
deriving DecidableEq, Inhabited

/-- One `cifti2.Cifti2NamedMap` child: a map name, its metadata dict
(`none` models absent metadata) and its label table.  A label-table row
`(key, (label, rgba))` carries the accessors `value.label` and `value.rgba`. -/
structure NamedMapE where
  map_name : String
  metadata : Option (List (String × String))
  label_table : List (Int × (String × Rgba))
deriving DecidableEq, Inhabited

/-- One `cifti2.Cifti2Parcel` child: name, optional voxel array and the
`Cifti2Vertices` children as `(brain_structure, vertex array)` pairs. -/
structure ParcelE where
  name : String
  voxel_indices_ijk : Option (List Vox)
  vertices : List (String × List Int)
deriving DecidableEq, Inhabited

/-- One `cifti2.Cifti2Surface` child of a parcels mapping. -/
structure SurfaceE where
  brain_structure : String
  surface_number_of_vertices : Int
deriving DecidableEq, Inhabited

/-- `cifti2.Cifti2MatrixIndicesMap`: the union of the fields used by the
five axis variants; each `to_mapping` fills only its own fields. -/
structure MIM where
  applies_to_matrix_dimension : List Nat
  indices_map_to_data_type : String
  brain_models : List BMEntry := []
  volume : Option VolumeE := none
  named_maps : List NamedMapE := []
  parcels : List ParcelE := []
  surfaces : List SurfaceE := []
  series_start : ℚ := 0
  series_step : ℚ := 0
  series_exponent : Int := 0
  number_of_series_points : Nat := 0
  series_unit : String := ""
deriving DecidableEq, Inhabited

/-! ## Series axis -/

/-- The `Series` axis: a regular progression `start + step * i` of `size`
points in a given unit (stored upper-cased by the constructor). -/
structure Series where
  start : ℚ
  step : ℚ
  size : Nat
  unit : String
deriving DecidableEq, Inhabited

/-- The valid series units, after upper-casing. -/
def seriesUnits : List String := ["SECOND", "HERTZ", "METER", "RADIAN"]

/-- `Series.__init__`: validates and upper-cases the unit. -/
def Series.init (start step : ℚ) (size : Nat) (unit : String) : Except String Series :=
  if upperStr unit ∈ seriesUnits then
    .ok { start := start, step := step, size := size, unit := upperStr unit }
  else
    .error "Series unit should be one of second, hertz, meter, or radian"

/-- A `Series` value reachable from the constructor: its unit is one of the
four upper-case unit names. -/
def Series.Valid (s : Series) : Prop :=
  s.unit ∈ seriesUnits

instance (s : Series) : Decidable s.Valid := by
  unfold Series.Valid
  infer_instance

/-- `Series.__eq__`: all four fields equal exactly. -/
def seriesBeq (a b : Series) : Bool :=
  a.start == b.start && a.step == b.step && a.size == b.size && a.unit == b.unit

/-- `Series.to_mapping`: writes start/step at exponent 0. -/
def Series.to_mapping (s : Series) (dim : Nat) : MIM :=
  { applies_to_matrix_dimension := [dim]
    indices_map_to_data_type := "CIFTI_INDEX_TYPE_SERIES"
    series_exponent := 0
    series_start := s.start
    series_step := s.step
    number_of_series_points := s.size
    series_unit := s.unit }

/-- `Series.from_mapping`: scales start/step by `10 ** exponent` and runs the
constructor (which validates the unit). -/
def Series.from_mapping (mim : MIM) : Except String Series :=
  Series.init (mim.series_start * pow10 mim.series_exponent)
    (mim.series_step * pow10 mim.series_exponent)
    mim.number_of_series_points mim.series_unit

/-- `Series.extend` (used by `Series.__add__`): requires equal step and unit,
discards the other start. -/
def Series.extend (s other : Series) : Except String Series :=
  if other.step != s.step then
    .error "Can only concatenate Series with the same step size"
  else if other.unit != s.unit then
    .error "Can only concatenate Series with the same unit"
  else
    .ok { start := s.start, step := s.step, size := s.size + other.size, unit := s.unit }

/-- `Series.get_element`: adds `size` to a negative index, then errors only
when the adjusted index is `>= size`. -/
def Series.get_element (s : Series) (index : Int) : Except String ℚ :=
  let index := if index < 0 then (s.size : Int) + index else index
  if (s.size : Int) ≤ index then
    .error "index is out of range for series"
  else
    .ok (s.start + s.step * index)

/-- `Series.__getitem__` on a slice: resolves the slice bounds as the source
does (including its clamping of an overlarge start to `size - 1`) and takes
the floor quotient `(idx_end - idx_start) // step` as the new size.
Python `//` is floor division, hence `Int.fdiv`. -/
def Series.getitem_slice (s : Series) (start stop step : Option Int) : Series :=
  let st : Int := match step with | none => 1 | some v => v
  let i0 : Int := match start with
    | none => if st < 0 then (s.size : Int) - 1 else 0
    | some v => if 0 ≤ v then v else (s.size : Int) + v
  let i1 : Int := match stop with
    | none => if st < 0 then -1 else (s.size : Int)
    | some v => if 0 ≤ v then v else (s.size : Int) + v
  let i0 : Int := if (s.size : Int) < i0 then (s.size : Int) - 1 else i0
  let i1 : Int := if (s.size : Int) < i1 then (s.size : Int) else i1
  let ne : Int := Int.fdiv (i1 - i0) st
  let ne : Int := if ne < 0 then 0 else ne
  { start := i0 * s.step + s.start, step := s.step * st, size := ne.toNat, unit := s.unit }

/-! ## Scalar axis -/

/-- The `Scalar` axis: one name and one metadata dict per row/column. -/
structure Scalar where
  name : List String
  meta : List (List (String × String))
deriving DecidableEq, Inhabited

/-- `Scalar.__init__`: defaults metadata to empty dicts and checks that both
arrays have shape `(size,)` where `size` is the length of `name`. -/
def Scalar.init (name : List String) (meta : Option (List (List (String × String)))) :
    Except String Scalar :=
  let meta := match meta with
    | none => List.replicate name.length []
    | some m => m
  if meta.length = name.length then
    .ok { name := name, meta := meta }
  else
    .error "Input meta has incorrect shape for Scalar axis"

/-- A `Scalar` value reachable from the constructor, with genuine dicts
(unique keys) as metadata. -/
def Scalar.Valid (sc : Scalar) : Prop :=
  sc.meta.length = sc.name.length ∧ ∀ m ∈ sc.meta, (dkeys m).Nodup

instance (sc : Scalar) : Decidable sc.Valid := by
  unfold Scalar.Valid
  infer_instance

/-- `Scalar.__eq__`: same size, names equal, metadata dicts equal row-wise. -/
def scalarBeq (a b : Scalar) : Bool :=
  a.name.length == b.name.length && a.name == b.name &&
    (a.meta.length == b.meta.length &&
      (a.meta.zip b.meta).all (fun p => dictBeq p.1 p.2))

/-- `Scalar.to_mapping`: one named map per row; empty metadata is written
as absent metadata. -/
def Scalar.to_mapping (sc : Scalar) (dim : Nat) : MIM :=
  { applies_to_matrix_dimension := [dim]
    indices_map_to_data_type := "CIFTI_INDEX_TYPE_SCALARS"
    named_maps := (sc.name.zip sc.meta).map (fun p =>
      { map_name := p.1
        metadata := if p.2.length == 0 then none else some p.2
        label_table := [] }) }

/-- `Scalar.from_mapping`: reads names and metadata from the named maps. -/
def Scalar.from_mapping (mim : MIM) : Except String Scalar :=
  Scalar.init (mim.named_maps.map (·.map_name))
    (some (mim.named_maps.map (fun nm => nm.metadata.getD [])))

/-! ## Label axis -/

/-- The `Label` axis: `Scalar` plus one integer-to-(name, colour) lookup
table per row/column. -/
structure Label where
  name : List String
  label : List (List (Int × (String × Rgba)))
  meta : List (List (String × String))
deriving DecidableEq, Inhabited

/-- `Label.__init__`: checks that all three arrays have shape `(size,)`. -/
def Label.init (name : List String) (label : List (List (Int × (String × Rgba))))
    (meta : List (List (String × String))) : Except String Label :=
  if label.length = name.length ∧ meta.length = name.length then
    .ok { name := name, label := label, meta := meta }
  else
    .error "Input has incorrect shape for Label axis"

/-- A `Label` value reachable from the constructor, with genuine dicts. -/
def Label.Valid (lb : Label) : Prop :=
  lb.label.length = lb.name.length ∧ lb.meta.length = lb.name.length ∧
    (∀ m ∈ lb.meta, (dkeys m).Nodup) ∧ ∀ t ∈ lb.label, (dkeys t).Nodup

instance (lb : Label) : Decidable lb.Valid := by
  unfold Label.Valid
  infer_instance

/-- `Label.__eq__`: same size, names equal, metadata and label tables equal
row-wise (dict equality per row). -/
def labelBeq (a b : Label) : Bool :=
  a.name.length == b.name.length && a.name == b.name &&
    (a.meta.length == b.meta.length && (a.meta.zip b.meta).all (fun p => dictBeq p.1 p.2)) &&
    (a.label.length == b.label.length && (a.label.zip b.label).all (fun p => dictBeq p.1 p.2))

/-- The argument of `Scalar.to_label`: either one shared table or one table
per row. -/
inductive LabelsArg where
  | one (t : List (Int × (String × Rgba)))
  | per (l : List (List (Int × (String × Rgba))))

/-- `Scalar.to_label`: a shared dict is replicated over every row. -/
def Scalar.to_label (sc : Scalar) (labels : LabelsArg) : Except String Label :=
  let labels := match labels with
    | .one t => List.replicate sc.name.length t
    | .per l => l
  Label.init sc.name labels sc.meta

/-- `Label.to_mapping`: one named map per row carrying the label table;
a label-table row is written as `(key, (name, rgba))`. -/
def Label.to_mapping (lb : Label) (dim : Nat) : MIM :=
  { applies_to_matrix_dimension := [dim]
    indices_map_to_data_type := "CIFTI_INDEX_TYPE_LABELS"
    named_maps := (lb.name.zip (lb.label.zip lb.meta)).map (fun p =>
      { map_name := p.1
        metadata := if p.2.2.length == 0 then none else some p.2.2
        label_table := p.2.1 }) }

/-- `Label.from_mapping`: reads the label tables, then builds the scalar
part and bridges it with `to_label`. -/
def Label.from_mapping (mim : MIM) : Except String Label :=
  let tables := mim.named_maps.map (fun nm => nm.label_table)
  match Scalar.from_mapping mim with
  | .error e => .error e
  | .ok sc => sc.to_label (.per tables)

/-! ## Structure name canonicalization -/

/-- Modelled from the spec: the fixed external vocabulary of valid CIFTI
anatomical structure names (`cifti2.CIFTI_BRAIN_STRUCTURES`), a closed set of
canonical strings `CIFTI_STRUCTURE_<REGION>` or
`CIFTI_STRUCTURE_<REGION>_<LEFT|RIGHT>`. -/
def ciftiBrainStructures : List String :=
  ["CIFTI_STRUCTURE_ACCUMBENS_LEFT",
   "CIFTI_STRUCTURE_ACCUMBENS_RIGHT",
   "CIFTI_STRUCTURE_ALL_WHITE_MATTER",
   "CIFTI_STRUCTURE_ALL_GREY_MATTER",
   "CIFTI_STRUCTURE_AMYGDALA_LEFT",
   "CIFTI_STRUCTURE_AMYGDALA_RIGHT",
   "CIFTI_STRUCTURE_BRAIN_STEM",
   "CIFTI_STRUCTURE_CAUDATE_LEFT",
   "CIFTI_STRUCTURE_CAUDATE_RIGHT",
   "CIFTI_STRUCTURE_CEREBELLAR_WHITE_MATTER_LEFT",
   "CIFTI_STRUCTURE_CEREBELLAR_WHITE_MATTER_RIGHT",
   "CIFTI_STRUCTURE_CEREBELLUM",
   "CIFTI_STRUCTURE_CEREBELLUM_LEFT",
   "CIFTI_STRUCTURE_CEREBELLUM_RIGHT",
   "CIFTI_STRUCTURE_CEREBRAL_WHITE_MATTER_LEFT",
   "CIFTI_STRUCTURE_CEREBRAL_WHITE_MATTER_RIGHT",
   "CIFTI_STRUCTURE_CORTEX",
   "CIFTI_STRUCTURE_CORTEX_LEFT",
   "CIFTI_STRUCTURE_CORTEX_RIGHT",
   "CIFTI_STRUCTURE_DIENCEPHALON_VENTRAL_LEFT",
   "CIFTI_STRUCTURE_DIENCEPHALON_VENTRAL_RIGHT",
   "CIFTI_STRUCTURE_HIPPOCAMPUS_LEFT",
   "CIFTI_STRUCTURE_HIPPOCAMPUS_RIGHT",
   "CIFTI_STRUCTURE_OTHER",
   "CIFTI_STRUCTURE_OTHER_GREY_MATTER",
   "CIFTI_STRUCTURE_OTHER_WHITE_MATTER",
   "CIFTI_STRUCTURE_PALLIDUM_LEFT",
   "CIFTI_STRUCTURE_PALLIDUM_RIGHT",
   "CIFTI_STRUCTURE_PUTAMEN_LEFT",
   "CIFTI_STRUCTURE_PUTAMEN_RIGHT",
   "CIFTI_STRUCTURE_THALAMUS_LEFT",
   "CIFTI_STRUCTURE_THALAMUS_RIGHT"]

/-- One iteration of the orientation scan in
`BrainModel.to_cifti_brain_structure_name`: try one of `left`, `right`,
`both` first as a prefix, then as a suffix of the lower-cased name
(`none` means this token does not match at all).  On a match, a `_` or
space separator is skipped; the out-of-range accesses `name[idx]` and
`name[-idx - 1]` raise an IndexError. -/
def tryOrient (name poss : String) : Option (Except String (String × String)) :=
  let idx := poss.length
  let ln := (lowerStr name).toList
  let nl := name.toList
  if ln.take idx = poss.toList then
    some (match nl.get? idx with
      | none => .error "IndexError: string index out of range"
      | some c =>
          if c == '_' || c == ' ' then .ok (poss, String.mk (nl.drop (idx + 1)))
          else .ok (poss, String.mk (nl.drop idx)))
  else if ln.drop (ln.length - idx) = poss.toList then
    some (match nl.get? (nl.length - idx - 1) with
      | none => .error "IndexError: string index out of range"
      | some c =>
          if nl.length < idx + 1 then .error "IndexError: string index out of range"
          else if c == '_' || c == ' ' then .ok (poss, String.mk (nl.take (nl.length - idx - 1)))
          else .ok (poss, String.mk (nl.take (nl.length - idx))))
  else none

/-- The orientation scan of `to_cifti_brain_structure_name` over the tokens
`left`, `right`, `both`; the for-else defaults to orientation `both` with
the whole name as the region. -/
def findOrientation (name : String) : Except String (String × String) :=
  match tryOrient name "left" with
  | some r => r
  | none =>
    match tryOrient name "right" with
    | some r => r
    | none =>
      match tryOrient name "both" with
      | some r => r
      | none => .ok ("both", name)

/-- `BrainModel.to_cifti_brain_structure_name` on a string input: a name
already in the vocabulary is returned unchanged; otherwise the orientation
token is stripped, the region upper-cased, and the proposed canonical name
validated against the vocabulary. -/
def toCiftiName (name : String) : Except String String :=
  if name ∈ ciftiBrainStructures then .ok name
  else
    match findOrientation name with
    | .error e => .error e
    | .ok (orientation, region) =>
      let proposed :=
        if lowerStr orientation == "both" then "CIFTI_STRUCTURE_" ++ upperStr region
        else "CIFTI_STRUCTURE_" ++ upperStr region ++ "_" ++ upperStr orientation
      if proposed ∈ ciftiBrainStructures then .ok proposed
      else .error "not a valid CIFTI brain structure"

/-! ## BrainModel axis -/

/-- The `BrainModel` axis: per-element structure name, voxel triple and
vertex index, with shared geometry. -/
structure BrainModel where
  name : List String
  voxel : List Vox
  vertex : List Int
  affine : Option (List ℚ)
  volume_shape : Option (List Int)
  nvertices : List (String × Int)
deriving DecidableEq, Inhabited

/-- numpy `x[mask]`: the elements of `l` at positions where `mask` is true. -/
def maskSel (mask : List Bool) (l : List α) : List α :=
  (mask.zip l).filterMap (fun p => if p.1 then some p.2 else none)

/-- `self[a:b]` for lists: `(l.drop a).take (b - a)`. -/
def extract (l : List α) (a b : Nat) : List α :=
  (l.drop a).take (b - a)

/-- `BrainModel.is_surface`: an element is a surface element when its name
is a key of `nvertices`. -/
def BrainModel.isSurfList (bm : BrainModel) : List Bool :=
  bm.name.map (fun n => dmem bm.nvertices n)

/-- The body of `BrainModel.__init__` after the input arrays and canonical
names have been resolved: `nvertices` pruning, the `is_surface`
computation (which fails on an empty axis), the `affine`/`volume_shape`
setters, the sentinel checks and the final shape checks. -/
def BrainModel.mkChecked (names : List String) (voxelArr : List Vox) (vertexArr : List Int)
    (affine : Option (List ℚ)) (volume_shape : Option (List Int))
    (nv0 : List (String × Int)) : Except String BrainModel :=
  let nv := nv0.filter (fun p => names.contains p.1)
  if names.isEmpty then .error "cannot call vectorize on size 0 inputs"
  else
    let isSurf := names.map (fun n => dmem nv n)
    let geom : Except String (Option (List ℚ) × Option (List Int)) :=
      if isSurf.all (fun b => b) then .ok (none, none)
      else
        match checkAffine affine with
        | .error e => .error e
        | .ok aff =>
          match checkShape volume_shape with
          | .error e => .error e
          | .ok shape => .ok (aff, shape)
    match geom with
    | .error e => .error e
    | .ok (aff, shape) =>
      if isSurf.length ≠ vertexArr.length ∨ isSurf.length ≠ voxelArr.length then
        .error "boolean index did not match indexed array"
      else if (maskSel isSurf vertexArr).any (fun v => v < 0) then
        .error "Undefined vertex indices found for surface elements"
      else if (maskNot isSurf voxelArr).any (fun p => p.1 < 0 || p.2.1 < 0 || p.2.2 < 0) then
        .error "Undefined voxel indices found for volumetric elements"
      else if voxelArr.length ≠ names.length ∨ vertexArr.length ≠ names.length then
        .error "Input has incorrect shape for BrainModel axis"
      else
        .ok { name := names, voxel := voxelArr, vertex := vertexArr,
              affine := aff, volume_shape := shape, nvertices := nv }

/-- `BrainModel.__init__`: resolves the voxel/vertex arrays and the
canonical names (via the `name` setter), then runs the checked body.
`np.vectorize` (used by `is_surface`) fails on size-0 input, so an empty
axis cannot be constructed. -/
def BrainModel.init (name : String ⊕ List String) (voxel : Option (List Vox))
    (vertex : Option (List Int)) (affine : Option (List ℚ))
    (volume_shape : Option (List Int)) (nvertices : Option (List (String × Int))) :
    Except String BrainModel :=
  match (match voxel with
    | none =>
      match vertex with
      | none => Except.error "Voxel and vertex indices not defined"
      | some v => Except.ok (v.length, List.replicate v.length ((-1, -1, -1) : Vox))
    | some v => Except.ok (v.length, v)) with
  | .error e => .error e
  | .ok (nelements, voxelArr) =>
    let vertexArr := match vertex with
      | none => List.replicate nelements (-1 : Int)
      | some v => v
    match (match name with
      | .inl s => (toCiftiName s).map (fun c => List.replicate vertexArr.length c)
      | .inr l => Except.ok l) with
    | .error e => .error e
    | .ok rawNames =>
      match rawNames.mapM toCiftiName with
      | .error e => .error e
      | .ok names =>
        BrainModel.mkChecked names voxelArr vertexArr affine volume_shape
          (match nvertices with | none => [] | some d => d)

/-- A `BrainModel` value reachable from the constructor: nonempty canonical
names, consistently sized arrays, the sentinel rules, pruned genuine-dict
`nvertices`, validated geometry, and no geometry on a pure-surface axis. -/
def BrainModel.Valid (bm : BrainModel) : Prop :=
  bm.name ≠ [] ∧
  bm.voxel.length = bm.name.length ∧
  bm.vertex.length = bm.name.length ∧
  (∀ n ∈ bm.name, n ∈ ciftiBrainStructures) ∧
  (∀ k ∈ dkeys bm.nvertices, k ∈ bm.name) ∧
  (dkeys bm.nvertices).Nodup ∧
  (∀ p ∈ bm.isSurfList.zip bm.vertex, p.1 = true → 0 ≤ p.2) ∧
  (∀ p ∈ bm.isSurfList.zip bm.voxel,
    p.1 = false → 0 ≤ p.2.1 ∧ 0 ≤ p.2.2.1 ∧ 0 ≤ p.2.2.2) ∧
  (bm.affine.all (fun a => a.length == 16) = true) ∧
  (bm.volume_shape.all (fun l => l.length == 3) = true) ∧
  ((∀ b ∈ bm.isSurfList, b = true) → bm.affine = none ∧ bm.volume_shape = none)

instance (bm : BrainModel) : Decidable bm.Valid := by
  unfold BrainModel.Valid
  infer_instance

/-- `BrainModel.__eq__`: length, affine presence, affine within `1e-8`
together with the volume shape, `nvertices`, names, and the voxel and
vertex arrays restricted to the volumetric (`~is_surface`) elements. -/
def brainModelBeq (a b : BrainModel) : Bool :=
  if a.name.length != b.name.length then false
  else if Bool.xor a.affine.isNone b.affine.isNone then false
  else
    ((a.affine.isNone && b.affine.isNone) ||
      (match a.affine, b.affine with
       | some x, some y => decide (maxAbsDiff x y < tol) && a.volume_shape == b.volume_shape
       | _, _ => false)) &&
    dictBeq a.nvertices b.nvertices &&
    a.name == b.name &&
    maskNot a.isSurfList a.voxel == maskNot b.isSurfList b.voxel &&
    maskNot a.isSurfList a.vertex == maskNot b.isSurfList b.vertex

/-- `self[a:b]` on a `BrainModel`: `__getitem__` re-runs the constructor,
which keeps the (already canonical) names, prunes `nvertices` to the names
present in the run and drops the geometry when the run is pure-surface.
The constructor checks always pass on a slice of a valid axis. -/
def BrainModel.subaxis (bm : BrainModel) (a b : Nat) : BrainModel :=
  let name := extract bm.name a b
  let nv := bm.nvertices.filter (fun p => name.contains p.1)
  let allSurf := name.all (fun n => dmem nv n)
  { name := name
    voxel := extract bm.voxel a b
    vertex := extract bm.vertex a b
    affine := if allSurf then none else bm.affine
    volume_shape := if allSurf then none else bm.volume_shape
    nvertices := nv }

/-- The scan of `BrainModel.iter_structures`: `sn` is the current run's
name, `is` its start index, `ic` the current index; a run is emitted when
the name changes, and the last run is emitted after the loop. -/
def iterRunsAux : String → Nat → Nat → List String → List (String × Nat × Nat)
  | sn, is, ic, [] => [(sn, is, ic)]
  | sn, is, ic, n :: rest =>
      if sn != n then (sn, is, ic) :: iterRunsAux n ic (ic + 1) rest
      else iterRunsAux sn is (ic + 1) rest

/-- The `(structure name, start, stop)` runs scanned by
`BrainModel.iter_structures` over a name array (empty input would raise). -/
def iterRunsNames (names : List String) : List (String × Nat × Nat) :=
  match names with
  | [] => []
  | n :: rest => iterRunsAux n 0 1 rest

/-- `BrainModel.iter_structures`: one `(name, start, stop, sub-axis)` tuple
per maximal run of consecutive equal names. -/
def BrainModel.iter_structures (bm : BrainModel) : List (String × Nat × Nat × BrainModel) :=
  (iterRunsNames bm.name).map (fun r => (r.1, r.2.1, r.2.2, bm.subaxis r.2.1 r.2.2))

/-- `BrainModel.to_mapping`: one `Cifti2BrainModel` entry per run of
`iter_structures`; the volume is written once, on the first volumetric run.
The `nvertices` lookup for a surface run always succeeds because
`is_surface` holds for it. -/
def BrainModel.to_mapping (bm : BrainModel) (dim : Nat) : MIM :=
  let entries := (iterRunsNames bm.name).map (fun r =>
    let sub := bm.subaxis r.2.1 r.2.2
    if dmem bm.nvertices r.1 then
      { index_offset := r.2.1
        index_count := sub.name.length
        model_type := "CIFTI_MODEL_TYPE_SURFACE"
        brain_structure := r.1
        surface_number_of_vertices := dlookup bm.nvertices r.1
        voxel_indices_ijk := none
        vertex_indices := some sub.vertex }
    else
      { index_offset := r.2.1
        index_count := sub.name.length
        model_type := "CIFTI_MODEL_TYPE_VOXELS"
        brain_structure := r.1
        surface_number_of_vertices := none
        voxel_indices_ijk := some sub.voxel
        vertex_indices := none })
  { applies_to_matrix_dimension := [dim]
    indices_map_to_data_type := "CIFTI_INDEX_TYPE_BRAIN_MODELS"
    brain_models := entries
    volume :=
      if (iterRunsNames bm.name).any (fun r => !(dmem bm.nvertices r.1)) then
        some { volume_dimensions := bm.volume_shape, matrix := bm.affine }
      else none }

/-- The accumulator of the `BrainModel.from_mapping` loop. -/
structure BMAcc where
  voxel : List Vox
  vertex : List Int
  name : List String
  nvertices : List (String × Int)
  affine : Option (List ℚ)
  shape : Option (List Int)
deriving DecidableEq, Inhabited

/-- numpy slice assignment `l[off : off + vals.length] = vals`. -/
def writeRange (l : List α) (off : Nat) (vals : List α) : List α :=
  l.take off ++ vals ++ l.drop (off + vals.length)

/-- One iteration of the `BrainModel.from_mapping` loop over the
`Cifti2BrainModel` entries.  Reading `mim.volume` when it is absent is an
AttributeError in the source; the `vertex_indices`/`voxel_indices_ijk`
accesses of the taken branch are always present in mappings the module
itself writes. -/
def bmFoldStep (vol : Option VolumeE) (st : BMAcc) (e : BMEntry) : Except String BMAcc :=
  let st := { st with name := st.name ++ List.replicate e.index_count e.brain_structure }
  if e.model_type == "CIFTI_MODEL_TYPE_SURFACE" then
    .ok { st with
      vertex := writeRange st.vertex e.index_offset (e.vertex_indices.getD [])
      nvertices := dset st.nvertices e.brain_structure (e.surface_number_of_vertices.getD 0) }
  else
    let st := { st with voxel := writeRange st.voxel e.index_offset (e.voxel_indices_ijk.getD []) }
    match st.affine with
    | none =>
      match vol with
      | none => .error "AttributeError: mim.volume is None"
      | some v => .ok { st with shape := v.volume_dimensions, affine := v.matrix }
    | some aff =>
      match vol with
      | none => .error "AttributeError: mim.volume is None"
      | some v =>
          if st.shape != v.volume_dimensions then
            .error "All volume masks should be defined in the same volume"
          else if neqAny aff (v.matrix.getD []) then
            .error "All volume masks should have the same affine"
          else .ok st

/-- `BrainModel.from_mapping`: rebuilds the arrays from the entries
(sentinel-filled where not written) and runs the constructor. -/
def BrainModel.from_mapping (mim : MIM) : Except String BrainModel :=
  let nbm := (mim.brain_models.map (·.index_count)).sum
  let st0 : BMAcc :=
    { voxel := List.replicate nbm ((-1, -1, -1) : Vox)
      vertex := List.replicate nbm (-1 : Int)
      name := [], nvertices := [], affine := none, shape := none }
  match mim.brain_models.foldlM (bmFoldStep mim.volume) st0 with
  | .error e => .error e
  | .ok st =>
      BrainModel.init (.inr st.name) (some st.voxel) (some st.vertex) st.affine st.shape
        (some st.nvertices)

/-- `BrainModel.__add__`: merge the geometry (raising only when the other
affine differs in EVERY entry, or the volume shapes differ), merge
`nvertices` (raising on a conflicting count), then concatenate through the
constructor. -/
def BrainModel.add (self other : BrainModel) : Except String BrainModel :=
  match (match self.affine with
    | none => Except.ok (other.affine, other.volume_shape)
    | some aff =>
      match other.affine with
      | some oaff =>
          if neqAll oaff aff || other.volume_shape != self.volume_shape then
            Except.error "Trying to concatenate two BrainModels defined in a different brain volume"
          else Except.ok (self.affine, self.volume_shape)
      | none => Except.ok (self.affine, self.volume_shape)) with
  | .error e => .error e
  | .ok (affine, shape) =>
    match other.nvertices.foldlM (fun d p =>
        if dmem d p.1 && dlookup d p.1 != some p.2 then
          Except.error
            "Trying to concatenate two BrainModels with inconsistent number of vertices"
        else Except.ok (dset d p.1 p.2)) self.nvertices with
    | .error e => .error e
    | .ok nvertices =>
        BrainModel.init (.inr (self.name ++ other.name)) (some (self.voxel ++ other.voxel))
          (some (self.vertex ++ other.vertex)) affine shape (some nvertices)

/-! ## Parcels axis -/

/-- The `Parcels` axis: one name, voxel set and per-structure vertex dict
per parcel, with shared geometry. -/
structure Parcels where
  name : List String
  voxels : List (List Vox)
  vertices : List (List (String × List Int))
  affine : Option (List ℚ)
  volume_shape : Option (List Int)
  nvertices : List (String × Int)
deriving DecidableEq, Inhabited

/-- `Parcels.__init__`: the validating `affine`/`volume_shape` setters,
then the `(size,)` shape checks. -/
def Parcels.init (name : List String) (voxels : List (List Vox))
    (vertices : List (List (String × List Int))) (affine : Option (List ℚ))
    (volume_shape : Option (List Int)) (nvertices : Option (List (String × Int))) :
    Except String Parcels :=
  match checkAffine affine with
  | .error e => .error e
  | .ok aff =>
    match checkShape volume_shape with
    | .error e => .error e
    | .ok shape =>
      let nv := match nvertices with | none => [] | some d => d
      if voxels.length = name.length ∧ vertices.length = name.length then
        .ok { name := name, voxels := voxels, vertices := vertices,
              affine := aff, volume_shape := shape, nvertices := nv }
      else
        .error "Input has incorrect shape for Parcels axis"

/-- A `Parcels` value reachable from the constructor, with genuine dicts. -/
def Parcels.Valid (p : Parcels) : Prop :=
  p.voxels.length = p.name.length ∧
  p.vertices.length = p.name.length ∧
  (dkeys p.nvertices).Nodup ∧
  (∀ row ∈ p.vertices, (dkeys row).Nodup) ∧
  p.affine.all (fun a => a.length == 16) = true ∧
  p.volume_shape.all (fun l => l.length == 3) = true

instance (p : Parcels) : Decidable p.Valid := by
  unfold Parcels.Valid
  infer_instance

/-- The per-parcel vertex dict comparison of `Parcels.__eq__`, including
its inverted `(vert1[name] != vert2[name]).all()` condition. -/
def vertRowBeq (v1 v2 : List (String × List Int)) : Bool :=
  if v1.length != v2.length then false
  else v1.all (fun e => dmem v2 e.1 && !(neqAll e.2 ((dlookup v2 e.1).getD [])))

/-- `Parcels.__eq__`, faithfully including the inverted
`(self.name != other.name).all()` name comparison. -/
def parcelsBeq (a b : Parcels) : Bool :=
  if a.name.length != b.name.length then false
  else if neqAll a.name b.name then false
  else if !(dictBeq a.nvertices b.nvertices) then false
  else if (a.voxels.zip b.voxels).any (fun p => voxNeqAny p.1 p.2) then false
  else if (match a.affine, b.affine with
           | some x, some y =>
               decide (tol < maxAbsDiff x y) || a.volume_shape != b.volume_shape
           | some _, none => true
           | none, some _ => true
           | none, none => false) then false
  else (a.vertices.zip b.vertices).all (fun p => vertRowBeq p.1 p.2)

/-- `Parcels.to_mapping`: the volume (when an affine is present), one
surface child per `nvertices` entry, and one parcel child per row. -/
def Parcels.to_mapping (p : Parcels) (dim : Nat) : MIM :=
  { applies_to_matrix_dimension := [dim]
    indices_map_to_data_type := "CIFTI_INDEX_TYPE_PARCELS"
    volume :=
      if p.affine.isSome then
        some { volume_dimensions := p.volume_shape, matrix := p.affine }
      else none
    surfaces := p.nvertices.map (fun e =>
      { brain_structure := e.1, surface_number_of_vertices := e.2 })
    parcels := (p.name.zip (p.voxels.zip p.vertices)).map (fun q =>
      { name := q.1, voxel_indices_ijk := some q.2.1, vertices := q.2.2 }) }

/-- `Parcels.from_mapping`: geometry from the volume, `nvertices` from the
surface children, then one `(name, voxels, vertices)` triple per parcel
child, requiring every vertex structure to have a declared vertex count. -/
def Parcels.from_mapping (mim : MIM) : Except String Parcels :=
  let volume_shape := match mim.volume with | none => none | some v => v.volume_dimensions
  let affine := match mim.volume with | none => none | some v => v.matrix
  let nvertices := mim.surfaces.foldl
    (fun d s => dset d s.brain_structure s.surface_number_of_vertices) []
  match mim.parcels.foldlM
    (fun (acc : List String × List (List Vox) × List (List (String × List Int))) parcel =>
      let voxels : List Vox := match parcel.voxel_indices_ijk with | none => [] | some l => l
      (match parcel.vertices.foldlM (fun d e =>
          if !(dmem nvertices e.1) then
            Except.error "Number of vertices for surface structure not defined"
          else Except.ok (dset d e.1 e.2)) ([] : List (String × List Int)) with
      | .error e => .error e
      | .ok verts => .ok (acc.1 ++ [parcel.name], acc.2.1 ++ [voxels], acc.2.2 ++ [verts]) :
        Except String (List String × List (List Vox) × List (List (String × List Int)))))
    (([], [], []) : List String × List (List Vox) × List (List (String × List Int))) with
  | .error e => .error e
  | .ok triples =>
      Parcels.init triples.1 triples.2.1 triples.2.2 affine volume_shape (some nvertices)

/-! ## The Axis variants, dispatch and header assembly -/

/-- The closed set of axis variants. -/
inductive Axis where
  | series (s : Series)
  | scalar (sc : Scalar)
  | label (lb : Label)
  | brain_model (bm : BrainModel)
  | parcels (p : Parcels)
deriving DecidableEq, Inhabited

/-- Python `a == b` between axes: each variant's `__eq__` returns `False`
on a different dynamic type. -/
def axisBeq : Axis → Axis → Bool
  | .series a, .series b => seriesBeq a b
  | .scalar a, .scalar b => scalarBeq a b
  | .label a, .label b => labelBeq a b
  | .brain_model a, .brain_model b => brainModelBeq a b
  | .parcels a, .parcels b => parcelsBeq a b
  | _, _ => false

/-- `Axis.to_mapping`, dispatched over the variants. -/
def Axis.to_mapping : Axis → Nat → MIM
  | .series s, dim => s.to_mapping dim
  | .scalar sc, dim => sc.to_mapping dim
  | .label lb, dim => lb.to_mapping dim
  | .brain_model bm, dim => bm.to_mapping dim
  | .parcels p, dim => p.to_mapping dim

/-- The module-level `from_mapping`: dispatch on the declared type tag to
the matching variant constructor (an unknown tag is a KeyError). -/
def parse_axis (mim : MIM) : Except String Axis :=
  match mim.indices_map_to_data_type with
  | "CIFTI_INDEX_TYPE_SCALARS" => (Scalar.from_mapping mim).map .scalar
  | "CIFTI_INDEX_TYPE_LABELS" => (Label.from_mapping mim).map .label
  | "CIFTI_INDEX_TYPE_SERIES" => (Series.from_mapping mim).map .series
  | "CIFTI_INDEX_TYPE_BRAIN_MODELS" => (BrainModel.from_mapping mim).map .brain_model
  | "CIFTI_INDEX_TYPE_PARCELS" => (Parcels.from_mapping mim).map .parcels
  | _ => .error "KeyError: unknown indices_map_to_data_type"

/-- An axis instance handed to `to_header`: an object-identity tag paired
with the axis value.  Two instances with the same tag stand for the same
Python object (and therefore carry the same value). -/
abbrev Inst := Nat × Axis

/-- Python `ax == prev` as evaluated by `list.__contains__` and
`list.index` in `to_header`: an identity short-circuit, then `__eq__`. -/
def pyEq (a b : Inst) : Bool :=
  a.1 == b.1 || axisBeq a.2 b.2

/-- Replace the element at one position of a list. -/
def modifyAt (l : List α) (i : Nat) (f : α → α) : List α :=
  match l.get? i with
  | none => l
  | some x => l.take i ++ [f x] ++ l.drop (i + 1)

/-- The loop of `to_header`: `prev` is `axes[:dim]`, `mat` the matrix of
distinct mapping descriptors appended so far, and `assign` maps every
processed dimension to the matrix slot of its (possibly shared) descriptor
(modelling the aliasing in `mims_all`).  A dimension whose axis compares
Python-equal to an earlier one registers itself on that dimension's
descriptor; otherwise a fresh descriptor is appended. -/
def toHeaderAux : List Inst → List Inst → List MIM × List Nat → List MIM × List Nat
  | _, [], st => st
  | prev, ax :: rest, (mat, assign) =>
      match prev.findIdx? (fun a => pyEq a ax) with
      | some j =>
          let slot := assign.getD j 0
          toHeaderAux (prev ++ [ax]) rest
            (modifyAt mat slot (fun m =>
              { m with applies_to_matrix_dimension :=
                  m.applies_to_matrix_dimension ++ [prev.length] }),
             assign ++ [slot])
      | none =>
          toHeaderAux (prev ++ [ax]) rest
            (mat ++ [ax.2.to_mapping prev.length], assign ++ [mat.length])

/-- `to_header`: the matrix of mapping descriptors together with the
descriptor slot assigned to each dimension. -/
def to_header (axes : List Inst) : List MIM × List Nat :=
  toHeaderAux [] axes ([], [])

/-! ## Specification-side definitions

These definitions formalise the wording of the specification (standard
slice semantics, maximal runs, the spelled-out equality conditions) so the
code-derived functions above can be compared against them. -/

/-- Standard Python resolution of a possibly negative slice bound against a
length (specification side). -/
def pyResolve (n : Nat) (v : Int) : Int :=
  if v < 0 then v + n else v

/-- The number of indices selected by standard Python slice semantics,
i.e. `len(range(*slice(start, stop, step).indices(n)))` (specification
side; a zero step is a Python error and counts 0 here). -/
def pySliceCount (n : Nat) (start stop : Option Int) (st : Int) : Nat :=
  if 0 < st then
    let lo : Nat := (max 0 (min (n : Int) (match start with
      | none => 0 | some v => pyResolve n v))).toNat
    let hi : Nat := (max 0 (min (n : Int) (match stop with
      | none => (n : Int) | some v => pyResolve n v))).toNat
    if lo < hi then (hi - lo - 1) / st.toNat + 1 else 0
  else if st < 0 then
    let lo : Int := max (-1) (min ((n : Int) - 1) (match start with
      | none => (n : Int) - 1 | some v => pyResolve n v))
    let hi : Int := max (-1) (min ((n : Int) - 1) (match stop with
      | none => -1 | some v => pyResolve n v))
    if hi < lo then ((lo - hi - 1) / (-st)).toNat + 1 else 0
  else 0

/-- Run-length encoding: the maximal runs of consecutive equal elements,
in order (specification side of `iter_structures`). -/
def rle : List String → List (String × Nat)
  | [] => []
  | a :: rest =>
    match rle rest with
    | [] => [(a, 1)]
    | (b, k) :: rs => if a = b then (a, k + 1) :: rs else (a, 1) :: (b, k) :: rs

/-- Attach `(start, stop)` index ranges to run-length-encoded runs. -/
def withOffsets : Nat → List (String × Nat) → List (String × Nat × Nat)
  | _, [] => []
  | off, (s, k) :: rest => (s, off, off + k) :: withOffsets (off + k) rest

/-- The claim's wording of `BrainModel` equality: same length, same
surface/volume classification per element, equal voxels on volumetric
elements, equal vertices on ALL elements, equal names and `nvertices`
(by dict equality), affines within absolute tolerance `1e-8` with both-None
equal and mismatched presence unequal. -/
def BrainModel.EqSpec (a b : BrainModel) : Prop :=
  a.name.length = b.name.length ∧
  a.isSurfList = b.isSurfList ∧
  (∀ i < a.name.length, a.isSurfList.getD i true = false →
    a.voxel.getD i (-1, -1, -1) = b.voxel.getD i (-1, -1, -1)) ∧
  (∀ i < a.name.length, a.vertex.getD i (-1) = b.vertex.getD i (-1)) ∧
  a.name = b.name ∧
  (∀ k, dlookup a.nvertices k = dlookup b.nvertices k) ∧
  ((a.affine = none ∧ b.affine = none) ∨
    (∃ x y, a.affine = some x ∧ b.affine = some y ∧ maxAbsDiff x y < tol))

/-- The amended wording of `BrainModel` equality: as `EqSpec`, but vertex
indices are compared only on volumetric elements, and equal affines must
additionally come with equal volume shapes. -/
def BrainModel.EqSpecAmended (a b : BrainModel) : Prop :=
  a.name.length = b.name.length ∧
  a.isSurfList = b.isSurfList ∧
  (∀ i < a.name.length, a.isSurfList.getD i true = false →
    a.voxel.getD i (-1, -1, -1) = b.voxel.getD i (-1, -1, -1)) ∧
  (∀ i < a.name.length, a.isSurfList.getD i true = false →
    a.vertex.getD i (-1) = b.vertex.getD i (-1)) ∧
  a.name = b.name ∧
  (∀ k, dlookup a.nvertices k = dlookup b.nvertices k) ∧
  ((a.affine = none ∧ b.affine = none) ∨
    (∃ x y, a.affine = some x ∧ b.affine = some y ∧ maxAbsDiff x y < tol ∧
      a.volume_shape = b.volume_shape))

/-- Specification side of `to_header`: dimension `i` of an axis sequence
introduces a fresh mapping descriptor exactly when no earlier dimension
holds an axis that is identical to or value-equal to its axis. -/
def freshDim (axes : List Inst) (d : Inst) (i : Nat) : Bool :=
  ((axes.take i).findIdx? (fun a => pyEq a (axes.getD i d))).isNone

/-- Specification side of `to_header`: the number of fresh dimensions
among the first `i` dimensions, which is the descriptor slot the next
fresh dimension receives. -/
def nFresh (axes : List Inst) (d : Inst) (i : Nat) : Nat :=
  ((List.range i).filter (freshDim axes d)).length

/-- The loop invariant of `to_header` after processing the dimensions of
`p`: one slot per dimension, one descriptor per fresh dimension, a
dimension with an earlier Python-equal dimension sharing the slot of the
FIRST such dimension, a fresh dimension opening the next descriptor, and
every descriptor registering exactly the dimensions assigned to it, in
order. -/
def HeaderInv (d : Inst) (p : List Inst) (mat : List MIM) (assign : List Nat) : Prop :=
  assign.length = p.length ∧
  mat.length = nFresh p d p.length ∧
  (∀ i < p.length, assign.getD i 0 < mat.length) ∧
  (∀ i < p.length,
    match (p.take i).findIdx? (fun a => pyEq a (p.getD i d)) with
    | some j => assign.getD i 0 = assign.getD j 0
    | none => assign.getD i 0 = nFresh p d i) ∧
  (∀ s < mat.length, (mat.getD s default).applies_to_matrix_dimension =
    (List.range p.length).filter (fun i => assign.getD i 0 == s))

/-- The vertex array rebuilt by `BrainModel.from_mapping` from the runs
written by `to_mapping`: surface runs carry the original segment, volume
runs are left at the sentinel `-1`. -/
def rebuiltVertex (bm : BrainModel) : Nat → List (String × Nat) → List Int
  | _, [] => []
  | off, (s, c) :: rest =>
      (if dmem bm.nvertices s then extract bm.vertex off (off + c)
       else List.replicate c (-1)) ++ rebuiltVertex bm (off + c) rest

/-- The voxel array rebuilt by `BrainModel.from_mapping` from the runs
written by `to_mapping`: volume runs carry the original segment, surface
runs are left at the sentinel `(-1, -1, -1)`. -/
def rebuiltVoxel (bm : BrainModel) : Nat → List (String × Nat) → List Vox
  | _, [] => []
  | off, (s, c) :: rest =>
      (if dmem bm.nvertices s then List.replicate c ((-1, -1, -1) : Vox)
       else extract bm.voxel off (off + c)) ++ rebuiltVoxel bm (off + c) rest

/-- The `Cifti2BrainModel` entries written by `BrainModel.to_mapping`,
expressed directly over the run-length encoding with a running offset. -/
def mkEntries (bm : BrainModel) : Nat → List (String × Nat) → List BMEntry
  | _, [] => []
  | off, (s, c) :: rest =>
      (if dmem bm.nvertices s then
        { index_offset := off
          index_count := (extract bm.name off (off + c)).length
          model_type := "CIFTI_MODEL_TYPE_SURFACE"
          brain_structure := s
          surface_number_of_vertices := dlookup bm.nvertices s
          voxel_indices_ijk := none
          vertex_indices := some (extract bm.vertex off (off + c)) }
      else
        { index_offset := off
          index_count := (extract bm.name off (off + c)).length
          model_type := "CIFTI_MODEL_TYPE_VOXELS"
          brain_structure := s
          surface_number_of_vertices := none
          voxel_indices_ijk := some (extract bm.voxel off (off + c))
          vertex_indices := none }) :: mkEntries bm (off + c) rest

/-! ## Concrete fixtures used by the closed theorems -/

/-- The flattened 4x4 identity affine. -/
def identityAffine : List ℚ :=
  [1, 0, 0, 0, 0, 1, 0, 0, 0, 0, 1, 0, 0, 0, 0, 1]

/-- The identity affine with a single differing entry. -/
def scaledAffine : List ℚ :=
  [2, 0, 0, 0, 0, 1, 0, 0, 0, 0, 1, 0, 0, 0, 0, 1]

/-- A volumetric single-element axis whose vertex index is 7 rather than
the sentinel `-1` (a valid construction). -/
def bmVolVertex7 : BrainModel :=
  { name := ["CIFTI_STRUCTURE_BRAIN_STEM"]
    voxel := [(0, 0, 0)]
    vertex := [7]
    affine := some identityAffine
    volume_shape := some [2, 2, 2]
    nvertices := [] }

/-- A single-vertex surface axis with vertex index 0. -/
def surfV0 : BrainModel :=
  { name := ["CIFTI_STRUCTURE_CORTEX_LEFT"]
    voxel := [(-1, -1, -1)]
    vertex := [0]
    affine := none
    volume_shape := none
    nvertices := [("CIFTI_STRUCTURE_CORTEX_LEFT", 10)] }

/-- A single-vertex surface axis with vertex index 1. -/
def surfV1 : BrainModel :=
  { name := ["CIFTI_STRUCTURE_CORTEX_LEFT"]
    voxel := [(-1, -1, -1)]
    vertex := [1]
    affine := none
    volume_shape := none
    nvertices := [("CIFTI_STRUCTURE_CORTEX_LEFT", 10)] }

/-- The BrainModel produced by constructing with an affine but no volume
shape (used to exhibit unpaired geometry). -/
def bmAffNoShape : BrainModel :=
  { name := ["CIFTI_STRUCTURE_BRAIN_STEM"]
    voxel := [(0, 0, 0)]
    vertex := [-1]
    affine := some identityAffine
    volume_shape := none
    nvertices := [] }

/-- The BrainModel that `from_mapping` rebuilds from the mapping written
for `bmVolVertex7`: the volumetric vertex has been reset to the sentinel. -/
def bmVolRebuilt : BrainModel :=
  { name := ["CIFTI_STRUCTURE_BRAIN_STEM"]
    voxel := [(0, 0, 0)]
    vertex := [-1]
    affine := some identityAffine
    volume_shape := some [2, 2, 2]
    nvertices := [] }

/-- The volumetric single-element axis built by the constructor from
`('brain_stem', voxel=[[0,0,0]], affine=eye(4), volume_shape=(2,2,2))`. -/
def bmVolSimple : BrainModel :=
  { name := ["CIFTI_STRUCTURE_BRAIN_STEM"]
    voxel := [(0, 0, 0)]
    vertex := [-1]
    affine := some identityAffine
    volume_shape := some [2, 2, 2]
    nvertices := [] }

/-- The pure-surface axis built by the constructor even when handed an
invalid affine and volume shape (both are discarded for surfaces). -/
def surfGarbageGeom : BrainModel :=
  { name := ["CIFTI_STRUCTURE_CORTEX_LEFT"]
    voxel := [(-1, -1, -1)]
    vertex := [3]
    affine := none
    volume_shape := none
    nvertices := [("CIFTI_STRUCTURE_CORTEX_LEFT", 10)] }

/-- A one-row scalar axis. -/
def scalarX : Scalar :=
  { name := ["x"], meta := [[]] }

/-- A three-dimension axis sequence: two value-equal but distinct Scalar
instances (identity tags 0 and 5) followed by a Series axis. -/
def cAxes : List Inst :=
  [(0, Axis.scalar scalarX), (5, Axis.scalar scalarX), (7, Axis.series ⟨2, 3, 4, "SECOND"⟩)]

/-- Two-parcel axes that differ in exactly one parcel name. -/
def parcelsAB : Parcels :=
  { name := ["a", "b"]
    voxels := [[(0, 0, 0)], [(1, 1, 1)]]
    vertices := [[], []]
    affine := none
    volume_shape := none
    nvertices := [] }

/-- As `parcelsAB` with the second parcel renamed. -/
def parcelsAC : Parcels :=
  { name := ["a", "c"]
    voxels := [[(0, 0, 0)], [(1, 1, 1)]]
    vertices := [[], []]
    affine := none
    volume_shape := none
    nvertices := [] }

/-- A small valid `Series` axis. -/
def seriesWit : Series :=
  { start := 0, step := 1, size := 3, unit := "SECOND" }

/-- A one-row `Label` axis with an empty label table. -/
def labelWit : Label :=
  { name := ["x"], label := [[]], meta := [[]] }

/-- A one-parcel `Parcels` axis with one nonempty vertex row whose
structure has a declared vertex count. -/
def parcelsWit : Parcels :=
  { name := ["p1"]
    voxels := [[(0, 0, 0)]]
    vertices := [[("s", [1])]]
    affine := none
    volume_shape := none
    nvertices := [("s", 5)] }

/-! ## Helper lemmas: dicts, masks, segments -/

theorem dlookup_cons [BEq κ] (p : κ × α) (t : List (κ × α)) (k : κ) :
    dlookup (p :: t) k = if p.1 == k then some p.2 else dlookup t k := by
  by_cases h : p.1 == k <;> simp [dlookup, List.find?, h]

theorem dmem_eq_false_iff [BEq κ] (l : List (κ × α)) (k : κ) :
    dmem l k = false ↔ dlookup l k = none := by
  induction l with
  | nil => simp [dmem, dlookup]
  | cons p t ih =>
      by_cases h : (p.1 == k) = true
      · simp [dmem, dlookup_cons, h]
      · simp only [dmem, List.any_cons, h, Bool.false_or, dlookup_cons, if_neg h]
        exact ih

theorem dmem_eq_true_iff [BEq κ] (l : List (κ × α)) (k : κ) :
    dmem l k = true ↔ ∃ v, dlookup l k = some v := by
  rcases h : dmem l k with _ | _
  · simp only [(dmem_eq_false_iff l k).mp h]
    simp
  · constructor
    · intro _
      rcases hl : dlookup l k with _ | v
      · rw [← dmem_eq_false_iff] at hl
        rw [h] at hl
        cases hl
      · exact ⟨v, rfl⟩
    · intro _
      rfl

theorem dset_not_mem [BEq κ] (l : List (κ × α)) (k : κ) (v : α) (h : dmem l k = false) :
    dset l k v = l ++ [(k, v)] := by
  simp [dset, h]

theorem dlookup_append [BEq κ] (l1 l2 : List (κ × α)) (k : κ) :
    dlookup (l1 ++ l2) k =
      match dlookup l1 k with
      | some v => some v
      | none => dlookup l2 k := by
  induction l1 with
  | nil => simp [dlookup]
  | cons p t ih =>
      by_cases h : p.1 == k <;> simp [dlookup_cons, h, ih]

theorem map_dset_id [BEq κ] [LawfulBEq κ] (t : List (κ × α)) (k : κ) (v : α)
    (hnd : (dkeys t).Nodup) (hv : dlookup t k = some v) :
    t.map (fun p => if p.1 == k then (k, v) else p) = t := by
  induction t with
  | nil => rfl
  | cons p t ih =>
      simp only [dkeys, List.map_cons, List.nodup_cons] at hnd
      rw [dlookup_cons] at hv
      by_cases h : (p.1 == k) = true
      · rw [if_pos h] at hv
        have hk : p.1 = k := eq_of_beq h
        have hvv : p = (k, v) := by
          cases p
          simp only [Option.some.injEq] at hv
          simp_all

        have hrest : t.map (fun q => if q.1 == k then (k, v) else q) = t := by
          conv_rhs => rw [← List.map_id t]
          apply List.map_congr_left
          intro q hq
          have hkq : (q.1 == k) = false := by
            apply beq_eq_false_iff_ne.mpr
            intro hqk
            have hmm : q.1 ∈ t.map (fun x => x.1) := List.mem_map.mpr ⟨q, hq, rfl⟩
            rw [hqk, ← hk] at hmm
            exact hnd.1 hmm
          simp [hkq]
        simp only [List.map_cons, if_pos h, hrest]
        rw [← hvv]
      · rw [if_neg h] at hv
        simp only [List.map_cons, if_neg h]
        rw [ih hnd.2 hv]

theorem dset_self [BEq κ] [LawfulBEq κ] (l : List (κ × α)) (k : κ) (v : α)
    (hnd : (dkeys l).Nodup) (hv : dlookup l k = some v) : dset l k v = l := by
  have hmem : dmem l k = true := (dmem_eq_true_iff l k).mpr ⟨v, hv⟩
  simp only [dset, hmem, if_true]
  exact map_dset_id l k v hnd hv

theorem dlookup_of_mem_nodup [BEq κ] [LawfulBEq κ] (l : List (κ × α)) (k : κ) (v : α)
    (hmem : (k, v) ∈ l) (hnd : (dkeys l).Nodup) : dlookup l k = some v := by
  induction l with
  | nil => cases hmem
  | cons p t ih =>
      simp only [dkeys, List.map_cons, List.nodup_cons] at hnd
      rcases List.mem_cons.mp hmem with h | h
      · rw [← h]
        simp [dlookup_cons]
      · have hk : p.1 ≠ k := by
          intro hpk
          exact hnd.1 (hpk ▸ (List.mem_map.mpr ⟨(k, v), h, rfl⟩))
        rw [dlookup_cons, if_neg (by simpa using hk)]
        exact ih h hnd.2

theorem lookup_eq_of_dictBeq [BEq κ] [LawfulBEq κ] [BEq α] [LawfulBEq α]
    (l1 l2 : List (κ × α)) (h : dictBeq l1 l2 = true) :
    ∀ k, dlookup l1 k = dlookup l2 k := by
  intro k
  simp only [dictBeq, Bool.and_eq_true, List.all_eq_true] at h
  rcases hl : dlookup l1 k with _ | v
  · rcases hr : dlookup l2 k with _ | w
    · rfl
    · exfalso
      have hfind := hr
      simp only [dlookup, Option.map_eq_some'] at hfind
      obtain ⟨p, hp, hpv⟩ := hfind
      have hpmem := List.mem_of_find?_eq_some hp
      have hbeq : (p.1 == k) = true := by simpa using List.find?_some hp
      have hpk : p.1 = k := eq_of_beq hbeq
      have := h.2 p hpmem
      rw [hpk] at this
      rw [hl] at this
      simp at this
  · simp only [dlookup, Option.map_eq_some'] at hl
    obtain ⟨p, hp, hpv⟩ := hl
    have hpmem := List.mem_of_find?_eq_some hp
    have hbeq : (p.1 == k) = true := by simpa using List.find?_some hp
    have hpk : p.1 = k := eq_of_beq hbeq
    have := h.1 p hpmem
    rw [hpk] at this
    rw [← hpv]
    exact (eq_of_beq this).symm

theorem dictBeq_of_lookup_eq [BEq κ] [LawfulBEq κ] [BEq α] [LawfulBEq α]
    (l1 l2 : List (κ × α)) (h1 : (dkeys l1).Nodup) (h2 : (dkeys l2).Nodup)
    (h : ∀ k, dlookup l1 k = dlookup l2 k) : dictBeq l1 l2 = true := by
  simp only [dictBeq, Bool.and_eq_true, List.all_eq_true]
  constructor
  · intro p hp
    have := dlookup_of_mem_nodup l1 p.1 p.2 (by simpa using hp) h1
    rw [h p.1] at this
    simp [this]
  · intro p hp
    have := dlookup_of_mem_nodup l2 p.1 p.2 (by simpa using hp) h2
    rw [← h p.1] at this
    simp [this]

theorem dmem_of_key_mem [BEq κ] [LawfulBEq κ] (l : List (κ × α)) (k : κ)
    (h : k ∈ dkeys l) : dmem l k = true := by
  simp only [dkeys, List.mem_map] at h
  obtain ⟨p, hp, hpk⟩ := h
  unfold dmem
  exact List.any_eq_true.mpr ⟨p, hp, by simp [hpk]⟩

theorem dmem_eq_of_lookup_eq [BEq κ] (l1 l2 : List (κ × α)) (k : κ)
    (h : dlookup l1 k = dlookup l2 k) : dmem l1 k = dmem l2 k := by
  rcases h1 : dmem l1 k with _ | _
  · rcases h2 : dmem l2 k with _ | _
    · rfl
    · obtain ⟨v, hv⟩ := (dmem_eq_true_iff l2 k).mp h2
      rw [(dmem_eq_false_iff l1 k).mp h1, hv] at h
      exact Option.noConfusion h
  · rcases h2 : dmem l2 k with _ | _
    · obtain ⟨v, hv⟩ := (dmem_eq_true_iff l1 k).mp h1
      rw [hv, (dmem_eq_false_iff l2 k).mp h2] at h
      exact Option.noConfusion h
    · rfl

theorem maskNot_ext (d : α) (mask : List Bool) : ∀ (xs ys : List α),
    xs.length = mask.length → ys.length = mask.length →
    (maskNot mask xs = maskNot mask ys ↔
      ∀ i < mask.length, mask.getD i true = false → xs.getD i d = ys.getD i d) := by
  induction mask with
  | nil =>
      intro xs ys hx hy
      rw [List.length_nil, List.length_eq_zero] at hx hy
      subst hx
      subst hy
      simp [maskNot]
  | cons m t ih =>
      intro xs ys hx hy
      rcases xs with _ | ⟨x, xs⟩
      · simp at hx
      rcases ys with _ | ⟨y, ys⟩
      · simp at hy
      simp only [List.length_cons, Nat.add_right_cancel_iff] at hx hy
      rcases m with _ | _
      · rw [show maskNot (false :: t) (x :: xs) = x :: maskNot t xs from rfl,
          show maskNot (false :: t) (y :: ys) = y :: maskNot t ys from rfl,
          List.cons_eq_cons, ih xs ys hx hy]
        constructor
        · rintro ⟨hxy, hrest⟩ i hi hm
          rcases i with _ | j
          · exact hxy
          · exact hrest j (by simp only [List.length_cons] at hi; omega) hm
        · intro h
          exact ⟨h 0 (by simp) rfl,
            fun j hj hm => h (j + 1) (by simp only [List.length_cons]; omega) hm⟩
      · rw [show maskNot (true :: t) (x :: xs) = maskNot t xs from rfl,
          show maskNot (true :: t) (y :: ys) = maskNot t ys from rfl,
          ih xs ys hx hy]
        constructor
        · intro h i hi hm
          rcases i with _ | j
          · exact Bool.noConfusion hm
          · exact h j (by simp only [List.length_cons] at hi; omega) hm
        · intro h j hj hm
          exact h (j + 1) (by simp only [List.length_cons]; omega) hm

theorem dkeys_dset_nodup [BEq κ] [LawfulBEq κ] (l : List (κ × α)) (k : κ) (v : α)
    (h : (dkeys l).Nodup) : (dkeys (dset l k v)).Nodup := by
  by_cases hm : dmem l k = true
  · simp only [dset, hm, if_true]
    have hkeys : dkeys (l.map (fun p => if p.1 == k then (k, v) else p)) = dkeys l := by
      simp only [dkeys, List.map_map]
      apply List.map_congr_left
      intro p _
      by_cases hp : (p.1 == k) = true
      · simp [hp, eq_of_beq hp]
      · simp [hp]
    rw [hkeys]
    exact h
  · rw [dset_not_mem l k v (by simpa using hm)]
    simp only [dkeys, List.map_append, List.map_cons, List.map_nil]
    rw [List.nodup_append]
    refine ⟨h, List.nodup_singleton _, ?_⟩
    intro x hx
    simp only [List.mem_singleton]
    intro hxk
    apply hm
    subst hxk
    exact dmem_of_key_mem l x hx

/-- `maxAbsDiff` of an array with itself is zero. -/
theorem maxAbsDiff_self (x : List ℚ) : maxAbsDiff x x = 0 := by
  induction x with
  | nil => rfl
  | cons a t ih =>
      simp only [maxAbsDiff, List.zip_cons_cons, List.map_cons, List.foldr_cons] at ih ⊢
      rw [ih]
      simp

theorem extract_append_drop (l : List α) (off c : Nat) :
    extract l off (off + c) ++ l.drop (off + c) = l.drop off := by
  unfold extract
  have h1 : l.drop (off + c) = (l.drop off).drop c := by
    rw [List.drop_drop]
  rw [h1]
  have h2 : off + c - off = c := by omega
  rw [h2]
  exact List.take_append_drop c (l.drop off)

/-! ## Runs: the scan of `iter_structures` versus run-length encoding -/

theorem rle_cons_nil (a : String) (l : List String) (h : rle l = []) :
    rle (a :: l) = [(a, 1)] := by
  simp [rle, h]

theorem rle_cons_eq (a : String) (l : List String) (m : Nat) (rs : List (String × Nat))
    (h : rle l = (a, m) :: rs) : rle (a :: l) = (a, m + 1) :: rs := by
  simp [rle, h]

theorem rle_cons_ne (a b : String) (l : List String) (m : Nat) (rs : List (String × Nat))
    (h : rle l = (b, m) :: rs) (hab : a ≠ b) :
    rle (a :: l) = (a, 1) :: (b, m) :: rs := by
  simp [rle, h, hab]

theorem rle_head (a : String) (l : List String) :
    ∃ k rs, rle (a :: l) = (a, k) :: rs ∧ 0 < k := by
  rcases h : rle l with _ | ⟨⟨b, k⟩, rs⟩
  · exact ⟨1, [], rle_cons_nil a l h, one_pos⟩
  · by_cases hab : a = b
    · subst hab
      exact ⟨k + 1, rs, rle_cons_eq a l k rs h, by omega⟩
    · exact ⟨1, (b, k) :: rs, rle_cons_ne a b l k rs h hab, one_pos⟩

theorem rle_ne_nil (a : String) (l : List String) : rle (a :: l) ≠ [] := by
  obtain ⟨k, rs, h, _⟩ := rle_head a l
  simp [h]

theorem rle_replicate_append_nil (a : String) (l : List String) (h : rle l = []) :
    ∀ k, 0 < k → rle (List.replicate k a ++ l) = [(a, k)] := by
  intro k hk
  induction k with
  | zero => omega
  | succ k ih =>
      rcases Nat.eq_zero_or_pos k with hk0 | hk0
      · subst hk0
        simpa using rle_cons_nil a l h
      · have hrep : List.replicate (k + 1) a ++ l = a :: (List.replicate k a ++ l) := by
          simp [List.replicate_succ]
        rw [hrep]
        exact rle_cons_eq a _ k [] (ih hk0)

theorem rle_replicate_append_eq (a : String) (l : List String) (m : Nat)
    (rs : List (String × Nat)) (h : rle l = (a, m) :: rs) :
    ∀ k, 0 < k → rle (List.replicate k a ++ l) = (a, k + m) :: rs := by
  intro k hk
  induction k with
  | zero => omega
  | succ k ih =>
      rcases Nat.eq_zero_or_pos k with hk0 | hk0
      · subst hk0
        have := rle_cons_eq a l m rs h
        simpa [Nat.add_comm] using this
      · have hrep : List.replicate (k + 1) a ++ l = a :: (List.replicate k a ++ l) := by
          simp [List.replicate_succ]
        rw [hrep]
        have := rle_cons_eq a _ (k + m) rs (ih hk0)
        have harith : k + m + 1 = k + 1 + m := by omega
        rwa [harith] at this

theorem rle_replicate_append_ne (a b : String) (l : List String) (m : Nat)
    (rs : List (String × Nat)) (h : rle l = (b, m) :: rs) (hab : a ≠ b) :
    ∀ k, 0 < k → rle (List.replicate k a ++ l) = (a, k) :: (b, m) :: rs := by
  intro k hk
  induction k with
  | zero => omega
  | succ k ih =>
      rcases Nat.eq_zero_or_pos k with hk0 | hk0
      · subst hk0
        simpa using rle_cons_ne a b l m rs h hab
      · have hrep : List.replicate (k + 1) a ++ l = a :: (List.replicate k a ++ l) := by
          simp [List.replicate_succ]
        rw [hrep]
        exact rle_cons_eq a _ k _ (ih hk0)

theorem iterRunsAux_eq (l : List String) :
    ∀ (sn : String) (is k : Nat), 0 < k →
      iterRunsAux sn is (is + k) l = withOffsets is (rle (List.replicate k sn ++ l)) := by
  induction l with
  | nil =>
      intro sn is k hk
      rw [List.append_nil]
      have h := rle_replicate_append_nil sn [] rfl k hk
      rw [List.append_nil] at h
      rw [h]
      simp [iterRunsAux, withOffsets]
  | cons n rest ih =>
      intro sn is k hk
      by_cases h : sn = n
      · subst h
        have step : iterRunsAux sn is (is + k) (sn :: rest) = iterRunsAux sn is (is + k + 1) rest := by
          simp [iterRunsAux]
        rw [step]
        have harith : is + k + 1 = is + (k + 1) := by omega
        rw [harith, ih sn is (k + 1) (by omega)]
        have hlists : List.replicate (k + 1) sn ++ rest = List.replicate k sn ++ sn :: rest := by
          rw [List.replicate_succ' k sn, List.append_assoc]
          rfl
        rw [hlists]
      · have step : iterRunsAux sn is (is + k) (n :: rest) =
            (sn, is, is + k) :: iterRunsAux n (is + k) (is + k + 1) rest := by
          simp [iterRunsAux, bne_iff_ne, h]
        rw [step, ih n (is + k) 1 one_pos]
        obtain ⟨m, rs, hhead, _⟩ := rle_head n rest
        rw [rle_replicate_append_ne sn n (n :: rest) m rs hhead h k hk]
        have h1 : List.replicate 1 n ++ rest = n :: rest := by simp
        rw [h1, hhead]
        simp [withOffsets]

theorem iterRunsNames_eq_rle (names : List String) :
    iterRunsNames names = withOffsets 0 (rle names) := by
  cases names with
  | nil => rfl
  | cons n rest =>
      have := iterRunsAux_eq rest n 0 1 one_pos
      simpa using this

theorem rle_join (l : List String) :
    ((rle l).map (fun q => List.replicate q.2 q.1)).flatten = l := by
  induction l with
  | nil => rfl
  | cons a rest ih =>
      rcases h : rle rest with _ | ⟨⟨b, m⟩, rs⟩
      · have hnil : rest = [] := by
          cases rest with
          | nil => rfl
          | cons x t => exact absurd h (rle_ne_nil x t)
        subst hnil
        rfl
      · rw [h] at ih
        by_cases hab : a = b
        · subst hab
          rw [rle_cons_eq a rest m rs h]
          simp only [List.map_cons, List.flatten_cons] at ih ⊢
          rw [List.replicate_succ, List.cons_append, ih]
        · rw [rle_cons_ne a b rest m rs h hab]
          simp only [List.map_cons, List.flatten_cons] at ih ⊢
          rw [List.replicate_one, List.singleton_append, ih]

theorem rle_pos (l : List String) : ∀ q ∈ rle l, 0 < q.2 := by
  induction l with
  | nil => intro q hq; cases hq
  | cons a rest ih =>
      intro q hq
      rcases h : rle rest with _ | ⟨⟨b, m⟩, rs⟩
      · rw [rle_cons_nil a rest h] at hq
        simp only [List.mem_singleton] at hq
        subst hq
        exact one_pos
      · by_cases hab : a = b
        · subst hab
          rw [rle_cons_eq a rest m rs h] at hq
          rcases List.mem_cons.mp hq with h1 | h1
          · subst h1; omega
          · exact ih q (h ▸ List.mem_cons_of_mem _ h1)
        · rw [rle_cons_ne a b rest m rs h hab] at hq
          rcases List.mem_cons.mp hq with h1 | h1
          · subst h1; exact one_pos
          · exact ih q (h ▸ h1)

theorem rle_sum (l : List String) : ((rle l).map (fun q => q.2)).sum = l.length := by
  have h := congrArg List.length (rle_join l)
  rw [List.length_flatten, List.map_map] at h
  have hmap : (List.length ∘ fun q : String × Nat => List.replicate q.2 q.1) = fun q => q.2 := by
    funext q
    simp
  rw [hmap] at h
  exact h

theorem extract_length (l : List α) (off c : Nat) (h : off + c ≤ l.length) :
    (extract l off (off + c)).length = c := by
  unfold extract
  simp only [List.length_take, List.length_drop]
  omega

/-- For positive divisors dividing a positive `m`, `(m - 1) / k + 1 = m / k`. -/
theorem nat_div_pred_add_one (m k : Nat) (hk : 1 ≤ k) (hm : 0 < m) (hdvd : k ∣ m) :
    (m - 1) / k + 1 = m / k := by
  obtain ⟨q, rfl⟩ := hdvd
  have hq : 1 ≤ q := by
    by_contra hq0
    have : q = 0 := by omega
    subst this
    simp at hm
  obtain ⟨q', rfl⟩ : ∃ q', q = q' + 1 := ⟨q - 1, by omega⟩
  rw [Nat.mul_succ]
  have h1 : k * q' + k - 1 = k * q' + (k - 1) := by omega
  rw [h1, Nat.mul_add_div (by omega), Nat.div_eq_of_lt (by omega), Nat.add_zero]
  have h2 : k * q' + k = k * (q' + 1) := by rw [Nat.mul_succ]
  rw [h2, Nat.mul_div_cancel_left _ (by omega)]

/-! ## The checked BrainModel constructor body -/

theorem checkAffine_ok (affine : Option (List ℚ))
    (h : affine.all (fun a => a.length == 16) = true) : checkAffine affine = .ok affine := by
  cases affine with
  | none => rfl
  | some a =>
      simp only [Option.all_some, beq_iff_eq] at h
      simp [checkAffine, h]

theorem checkAffine_ok_inv (affine : Option (List ℚ)) (x : Option (List ℚ))
    (h : checkAffine affine = .ok x) : x = affine := by
  cases affine with
  | none =>
      injection h with h2
      exact h2.symm
  | some a =>
      simp only [checkAffine] at h
      split at h
      · injection h with h2
        exact h2.symm
      · exact Except.noConfusion h

theorem checkShape_ok (volume_shape : Option (List Int))
    (h : volume_shape.all (fun l => l.length == 3) = true) :
    checkShape volume_shape = .ok volume_shape := by
  cases volume_shape with
  | none => rfl
  | some l =>
      simp only [Option.all_some, beq_iff_eq] at h
      simp [checkShape, h]

theorem checkShape_ok_inv (volume_shape : Option (List Int)) (x : Option (List Int))
    (h : checkShape volume_shape = .ok x) : x = volume_shape := by
  cases volume_shape with
  | none =>
      injection h with h2
      exact h2.symm
  | some l =>
      simp only [checkShape] at h
      split at h
      · injection h with h2
        exact h2.symm
      · exact Except.noConfusion h

theorem mkChecked_ok (names : List String) (voxelArr : List Vox) (vertexArr : List Int)
    (affine : Option (List ℚ)) (volume_shape : Option (List Int)) (nv0 : List (String × Int))
    (hne : names ≠ [])
    (hvl : voxelArr.length = names.length) (hvt : vertexArr.length = names.length)
    (hgeom : (names.map (fun n =>
        dmem (nv0.filter (fun p => names.contains p.1)) n)).all (fun b => b) = false →
      affine.all (fun a => a.length == 16) = true ∧
      volume_shape.all (fun l => l.length == 3) = true)
    (hsv : (maskSel (names.map (fun n =>
        dmem (nv0.filter (fun p => names.contains p.1)) n)) vertexArr).any
        (fun v => v < 0) = false)
    (hsx : (maskNot (names.map (fun n =>
        dmem (nv0.filter (fun p => names.contains p.1)) n)) voxelArr).any
        (fun p => p.1 < 0 || p.2.1 < 0 || p.2.2 < 0) = false) :
    BrainModel.mkChecked names voxelArr vertexArr affine volume_shape nv0 =
      .ok { name := names, voxel := voxelArr, vertex := vertexArr
            affine := if (names.map (fun n =>
                dmem (nv0.filter (fun p => names.contains p.1)) n)).all (fun b => b)
              then none else affine
            volume_shape := if (names.map (fun n =>
                dmem (nv0.filter (fun p => names.contains p.1)) n)).all (fun b => b)
              then none else volume_shape
            nvertices := nv0.filter (fun p => names.contains p.1) } := by
  have hnsE : names.isEmpty = false := by
    cases names with
    | nil => exact absurd rfl hne
    | cons a l => rfl
  simp only [BrainModel.mkChecked, hnsE, Bool.false_eq_true, if_false]
  rcases hall : (names.map (fun n =>
      dmem (nv0.filter (fun p => names.contains p.1)) n)).all (fun b => b) with _ | _
  · obtain ⟨ha, hs⟩ := hgeom hall
    simp only [Bool.false_eq_true, if_false]
    rw [checkAffine_ok affine ha]
    dsimp only
    rw [checkShape_ok volume_shape hs]
    dsimp only
    rw [if_neg (by simp [hvl, hvt]),
      if_neg (by rw [hsv]; exact Bool.false_ne_true),
      if_neg (by rw [hsx]; exact Bool.false_ne_true),
      if_neg (by simp [hvl, hvt])]
  · simp only [eq_self_iff_true, if_true]
    rw [if_neg (by simp [hvl, hvt]),
      if_neg (by rw [hsv]; exact Bool.false_ne_true),
      if_neg (by rw [hsx]; exact Bool.false_ne_true),
      if_neg (by simp [hvl, hvt])]

theorem mkChecked_ok_inv (names : List String) (voxelArr : List Vox) (vertexArr : List Int)
    (affine : Option (List ℚ)) (volume_shape : Option (List Int)) (nv0 : List (String × Int))
    (bm : BrainModel)
    (h : BrainModel.mkChecked names voxelArr vertexArr affine volume_shape nv0 = .ok bm) :
    bm.name = names ∧ bm.voxel = voxelArr ∧ bm.vertex = vertexArr ∧
    bm.nvertices = nv0.filter (fun p => names.contains p.1) ∧
    ((names.map (fun n => dmem (nv0.filter (fun p => names.contains p.1)) n)).all
        (fun b => b) = true → bm.affine = none ∧ bm.volume_shape = none) ∧
    ((names.map (fun n => dmem (nv0.filter (fun p => names.contains p.1)) n)).all
        (fun b => b) = false → bm.affine = affine ∧ bm.volume_shape = volume_shape) := by
  by_cases he : names.isEmpty
  · rw [BrainModel.mkChecked, if_pos he] at h
    exact Except.noConfusion h
  · simp only [BrainModel.mkChecked, he, if_false] at h
    rcases hall : (names.map (fun n =>
        dmem (nv0.filter (fun p => names.contains p.1)) n)).all (fun b => b) with _ | _
    · rw [hall] at h
      simp only [Bool.false_eq_true, if_false] at h
      rcases haff : checkAffine affine with e | aff
      · rw [haff] at h
        exact Except.noConfusion h
      · rw [haff] at h
        dsimp only at h
        rcases hshp : checkShape volume_shape with e | shp
        · rw [hshp] at h
          exact Except.noConfusion h
        · rw [hshp] at h
          dsimp only at h
          have haffeq := checkAffine_ok_inv affine aff haff
          have hshpeq := checkShape_ok_inv volume_shape shp hshp
          split at h
          · exact Except.noConfusion h
          · split at h
            · exact Except.noConfusion h
            · split at h
              · exact Except.noConfusion h
              · split at h
                · exact Except.noConfusion h
                · injection h with h2
                  subst h2
                  refine ⟨rfl, rfl, rfl, rfl, ?_, ?_⟩
                  · intro hc
                    exact Bool.noConfusion hc
                  · intro _
                    exact ⟨haffeq, hshpeq⟩
    · rw [hall] at h
      simp only [eq_self_iff_true, if_true] at h
      split at h
      · exact Except.noConfusion h
      · split at h
        · exact Except.noConfusion h
        · split at h
          · exact Except.noConfusion h
          · split at h
            · exact Except.noConfusion h
            · split at h
              · exact Except.noConfusion h
              · injection h with h2
                subst h2
                refine ⟨rfl, rfl, rfl, rfl, fun _ => ⟨rfl, rfl⟩, ?_⟩
                intro hc
                exact Bool.noConfusion hc

/-! ## Claim C9 (amended) -/

/-- C9 (amended): for every successful construction, a pure-surface axis
always ends up with `affine = None` and `volume_shape = None` regardless
of the constructor arguments; an axis with at least one volumetric element
stores exactly the affine and volume shape that were passed in (after
shape validation), so their presence is neither required nor paired. -/
theorem brainmodel_init_geometry_amended
    (name : String ⊕ List String) (voxel : Option (List Vox)) (vertex : Option (List Int))
    (affine : Option (List ℚ)) (volume_shape : Option (List Int))
    (nvertices : Option (List (String × Int))) (bm : BrainModel)
    (h : BrainModel.init name voxel vertex affine volume_shape nvertices = .ok bm) :
    ((∀ b ∈ bm.isSurfList, b = true) → bm.affine = none ∧ bm.volume_shape = none) ∧
    (¬(∀ b ∈ bm.isSurfList, b = true) → bm.affine = affine ∧ bm.volume_shape = volume_shape) := by
  unfold BrainModel.init at h
  repeat' split at h
  any_goals exact Except.noConfusion h
  all_goals try dsimp only at h
  all_goals repeat' split at h
  any_goals exact Except.noConfusion h
  all_goals
    obtain ⟨hn, hx, hv, hnv, htrue, hfalse⟩ := mkChecked_ok_inv _ _ _ _ _ _ _ h
  all_goals
    have hkey : bm.isSurfList = List.map (fun n => dmem bm.nvertices n) bm.name := rfl
  all_goals rw [hn, hnv] at hkey
  all_goals rw [← hkey] at htrue hfalse
  all_goals
    refine ⟨fun hallmem => htrue (List.all_eq_true.mpr hallmem), fun hnall => hfalse ?_⟩
    rcases hb : bm.isSurfList.all (fun b => b) with _ | _
    · rfl
    · exact absurd (fun b hb2 => List.all_eq_true.mp hb b hb2) hnall

/-- Witness for the amended C9 theorem: a volumetric construction stores
the given affine with an absent volume shape would also be possible; here
it stores both as given, while a pure-surface construction discards even
an invalid affine and volume shape. -/
theorem brainmodel_init_geometry_amended_witness :
    (bmVolSimple.affine = some identityAffine ∧ bmVolSimple.volume_shape = some [2, 2, 2]) ∧
    (surfGarbageGeom.affine = none ∧ surfGarbageGeom.volume_shape = none) :=
  ⟨(brainmodel_init_geometry_amended (.inl "brain_stem")
      (some [((0 : Int), (0 : Int), (0 : Int))]) none (some identityAffine)
      (some [(2 : Int), 2, 2]) none bmVolSimple (by decide)).2 (by decide),
   (brainmodel_init_geometry_amended (.inr ["CIFTI_STRUCTURE_CORTEX_LEFT"]) none
      (some [(3 : Int)]) (some [1, 2, 3]) (some [(1 : Int)])
      (some [("CIFTI_STRUCTURE_CORTEX_LEFT", 10)]) surfGarbageGeom (by decide)).1 (by decide)⟩

/-! ## Claim C6 (amended) -/

/-- C6 (amended): `Series.get_element` supports negative indices counted
from the end, returning `start + step * (N + i)` for EVERY negative `i`
(including `i < -N`, where it silently extrapolates instead of failing),
`start + step * i` for `0 ≤ i < N`, and fails with `IndexOutOfRange`
exactly when the adjusted index is at least `N` (equivalently, `i ≥ N`). -/
theorem series_get_element_amended (s : Series) (i : Int) :
    (0 ≤ i → i < (s.size : Int) → s.get_element i = .ok (s.start + s.step * (i : ℚ))) ∧
    (i < 0 → s.get_element i = .ok (s.start + s.step * ((((s.size : Int) + i : Int)) : ℚ))) ∧
    (isOkE (s.get_element i) = false ↔ (s.size : Int) ≤ i) := by
  simp only [Series.get_element]
  by_cases hneg : i < 0
  · rw [if_pos hneg, if_neg (by omega)]
    refine ⟨fun h0 _ => absurd hneg (by omega), fun _ => rfl, ?_⟩
    constructor
    · intro h
      simp [isOkE] at h
    · intro h
      omega
  · rw [if_neg hneg]
    by_cases hge : (s.size : Int) ≤ i
    · rw [if_pos hge]
      refine ⟨fun _ hlt => absurd hge (by omega), fun hn => absurd hn hneg, ?_⟩
      simp [isOkE, hge]
    · rw [if_neg hge]
      refine ⟨fun _ _ => rfl, fun hn => absurd hn hneg, ?_⟩
      simp [isOkE, hge]

/-- Witness for the amended C6 theorem: an in-range index, a negative
index, and an out-of-range index on `Series(2, 3, 4)`. -/
theorem series_get_element_amended_witness :
    Series.get_element ⟨2, 3, 4, "SECOND"⟩ 2 = .ok (2 + 3 * ((2 : Int) : ℚ)) ∧
    Series.get_element ⟨2, 3, 4, "SECOND"⟩ (-1) =
      .ok (2 + 3 * ((((4 : Nat) : Int) + (-1) : Int) : ℚ)) ∧
    isOkE (Series.get_element ⟨2, 3, 4, "SECOND"⟩ 9) = false :=
  ⟨(series_get_element_amended ⟨2, 3, 4, "SECOND"⟩ 2).1 (by decide) (by decide),
   (series_get_element_amended ⟨2, 3, 4, "SECOND"⟩ (-1)).2.1 (by decide),
   ((series_get_element_amended ⟨2, 3, 4, "SECOND"⟩ 9).2.2).mpr (by decide)⟩

/-! ## Claim C5 (amended) -/

/-- C5 (amended): for forward slices with in-range bounds `a ≤ b ≤ size`
and a positive step `k` dividing the span `b - a`, slicing reproduces
standard slice semantics exactly: the result is the arithmetic progression
with `start' = start + a * step`, `step' = step * k`, and
`size' = (b - a) / k`, which equals the number of selected indices.
Outside this regime the new size deviates from standard slice semantics
(see the counterexample). -/
theorem series_slice_amended (s : Series) (a b k : Nat) (hab : a ≤ b) (hb : b ≤ s.size)
    (hk : 1 ≤ k) (hdvd : k ∣ (b - a)) :
    Series.getitem_slice s (some (a : Int)) (some (b : Int)) (some (k : Int)) =
      { start := s.start + (a : ℚ) * s.step, step := s.step * (k : ℚ), size := (b - a) / k,
        unit := s.unit } ∧
    pySliceCount s.size (some (a : Int)) (some (b : Int)) (k : Int) = (b - a) / k := by
  constructor
  · simp only [Series.getitem_slice]
    have h1 : (0 : Int) ≤ (a : Int) := by omega
    have h2 : (0 : Int) ≤ (b : Int) := by omega
    simp only [if_pos h1, if_pos h2]
    have h3 : ¬((s.size : Int) < (a : Int)) := by omega
    have h4 : ¬((s.size : Int) < (b : Int)) := by omega
    simp only [if_neg h3, if_neg h4]
    have hsub : (b : Int) - (a : Int) = ((b - a : Nat) : Int) := by omega
    have hfd : Int.fdiv ((b : Int) - (a : Int)) (k : Int) = (((b - a) / k : Nat) : Int) := by
      rw [hsub, Int.fdiv_eq_ediv _ (by omega)]
      exact (Int.ofNat_ediv (b - a) k).symm
    rw [hfd, if_neg (not_lt.mpr (Int.natCast_nonneg ((b - a) / k)))]
    simp only [Series.mk.injEq]
    refine ⟨by push_cast; ring, by push_cast; ring, ?_, trivial⟩
    generalize (b - a) / k = q
    omega
  · simp only [pySliceCount, pyResolve]
    rw [if_pos (by omega : (0 : Int) < (k : Int))]
    rw [if_neg (by omega : ¬((a : Int) < 0)), if_neg (by omega : ¬((b : Int) < 0))]
    have hlo : (max 0 (min ((s.size : Nat) : Int) (a : Int))).toNat = a := by omega
    have hhi : (max 0 (min ((s.size : Nat) : Int) (b : Int))).toNat = b := by omega
    rw [hlo, hhi]
    have hkt : (k : Int).toNat = k := by omega
    rw [hkt]
    by_cases heq : a < b
    · rw [if_pos heq]
      exact nat_div_pred_add_one (b - a) k hk (by omega) hdvd
    · rw [if_neg heq]
      have : b - a = 0 := by omega
      rw [this]
      simp

/-- Witness for the amended C5 theorem: the specification's own example
`Series(0, 2, 5)[1:4]`, which equals `Series(2, 2, 3)`. -/
theorem series_slice_amended_witness :
    Series.getitem_slice ⟨0, 2, 5, "SECOND"⟩ (some ((1 : Nat) : Int)) (some ((4 : Nat) : Int))
        (some ((1 : Nat) : Int)) =
      { start := 0 + ((1 : Nat) : ℚ) * 2, step := 2 * ((1 : Nat) : ℚ), size := (4 - 1) / 1,
        unit := "SECOND" } ∧
    pySliceCount 5 (some ((1 : Nat) : Int)) (some ((4 : Nat) : Int)) ((1 : Nat) : Int) =
      (4 - 1) / 1 ∧
    seriesBeq (Series.getitem_slice ⟨0, 2, 5, "SECOND"⟩ (some 1) (some 4) (some 1))
      ⟨2, 2, 3, "SECOND"⟩ = true := by
  have h := series_slice_amended ⟨0, 2, 5, "SECOND"⟩ 1 4 1 (by decide) (by decide) (by decide)
    (by decide)
  refine ⟨h.1, h.2, ?_⟩
  have h1 : Series.getitem_slice ⟨0, 2, 5, "SECOND"⟩ (some 1) (some 4) (some 1) =
      { start := 0 + ((1 : Nat) : ℚ) * 2, step := 2 * ((1 : Nat) : ℚ), size := (4 - 1) / 1,
        unit := "SECOND" } := h.1
  rw [h1]
  simp only [seriesBeq]
  norm_num

/-! ## Claim C8 -/

/-- C8: for every BrainModel axis, `iter_structures` yields one
`(structure name, index range, sub-axis)` triple per maximal run of
consecutive equal names, in order (the runs being exactly the run-length
encoding of the name array, with cumulative offsets); in particular names
`[X, X, Y, X]` yield exactly the runs `(X, [0,2))`, `(Y, [2,3))`,
`(X, [3,4))`. -/
theorem iter_structures_maximal_runs :
    (∀ bm : BrainModel, bm.iter_structures.map (fun r => (r.1, r.2.1, r.2.2.1)) =
      withOffsets 0 (rle bm.name)) ∧
    (BrainModel.iter_structures
        { name := ["X", "X", "Y", "X"]
          voxel := List.replicate 4 ((-1, -1, -1) : Vox)
          vertex := List.replicate 4 (-1)
          affine := none, volume_shape := none, nvertices := [] }).map
      (fun r => (r.1, r.2.1, r.2.2.1)) = [("X", 0, 2), ("Y", 2, 3), ("X", 3, 4)] := by
  have hgen : ∀ bm : BrainModel, bm.iter_structures.map (fun r => (r.1, r.2.1, r.2.2.1)) =
      withOffsets 0 (rle bm.name) := by
    intro bm
    unfold BrainModel.iter_structures
    rw [List.map_map, iterRunsNames_eq_rle]
    have hcomp : ((fun r : String × Nat × Nat × BrainModel => (r.1, r.2.1, r.2.2.1)) ∘
        (fun r : String × Nat × Nat => (r.1, r.2.1, r.2.2, bm.subaxis r.2.1 r.2.2))) = id := by
      funext r
      rfl
    rw [hcomp, List.map_id]
  refine ⟨hgen, ?_⟩
  rw [hgen]
  decide

/-! ## Claims C4 and C7 (code bugs demonstrated at the failing inputs) -/

/-- C4: two valid volumetric axes whose affines differ in exactly one entry
(so not in all entries) concatenate successfully instead of raising
`IncompatibleGeometry`: the `(other.affine != affine).all()` guard of
`__add__` only fires when every entry differs. -/
theorem brainmodel_concat_partial_affine_mismatch_accepted :
    neqAll scaledAffine identityAffine = false ∧
    neqAny scaledAffine identityAffine = true ∧
    isOkE ((BrainModel.init (.inl "brain_stem") (some [((0 : Int), (0 : Int), (0 : Int))]) none
        (some identityAffine) (some [(2 : Int), 2, 2]) none).bind (fun a =>
      (BrainModel.init (.inl "brain_stem") (some [((1 : Int), (1 : Int), (1 : Int))]) none
        (some scaledAffine) (some [(2 : Int), 2, 2]) none).bind (fun b =>
      BrainModel.add a b))) = true := by
  decide

/-- C7: two valid Parcels axes that differ in exactly one parcel name
compare equal: the `(self.name != other.name).all()` guard of
`Parcels.__eq__` only fires when every name differs. -/
theorem parcels_eq_single_name_difference_true :
    parcelsAB.Valid ∧ parcelsAC.Valid ∧ parcelsAB ≠ parcelsAC ∧
    parcelsBeq parcelsAB parcelsAC = true := by
  refine ⟨by decide, by decide, by decide, by decide⟩

/-! ## Counterexamples to claims C1, C2, C3, C5, C6, C9 as stated -/

/-- C1 counterexample: a valid BrainModel axis with a volumetric element
whose vertex index is not the sentinel `-1` does not round-trip:
`from_mapping` rebuilds that vertex as `-1` and `__eq__` compares vertex
values at volumetric positions. -/
theorem roundtrip_counterexample :
    BrainModel.init (.inr ["CIFTI_STRUCTURE_BRAIN_STEM"]) (some [((0 : Int), (0 : Int), (0 : Int))])
      (some [(7 : Int)]) (some identityAffine) (some [(2 : Int), 2, 2]) none = .ok bmVolVertex7 ∧
    (match BrainModel.from_mapping (bmVolVertex7.to_mapping 0) with
     | .ok y => brainModelBeq y bmVolVertex7
     | .error _ => false) = false := by
  constructor
  · decide
  · have hfm : BrainModel.from_mapping (bmVolVertex7.to_mapping 0) = .ok bmVolRebuilt := by
      decide
    rw [hfm]
    show brainModelBeq bmVolRebuilt bmVolVertex7 = false
    have hvert : (maskNot (BrainModel.isSurfList bmVolRebuilt) bmVolRebuilt.vertex ==
        maskNot (BrainModel.isSurfList bmVolVertex7) bmVolVertex7.vertex) = false := by decide
    simp only [brainModelBeq]
    rw [if_neg (by decide), if_neg (by decide), hvert, Bool.and_false]

/-- C2 counterexample: two value-equal but distinct axis instances
(distinct identity tags 0 and 1) are placed on ONE shared mapping
descriptor carrying both dimensions, not on two separate descriptors:
the reuse check of `to_header` is Python `==`, not identity. -/
theorem to_header_value_equal_shared_descriptor :
    (0 : Nat) ≠ 1 ∧ axisBeq (.scalar scalarX) (.scalar scalarX) = true ∧
    (to_header [(0, .scalar scalarX), (1, .scalar scalarX)]).1.length = 1 ∧
    (to_header [(0, .scalar scalarX), (1, .scalar scalarX)]).1.map
      (fun m => m.applies_to_matrix_dimension) = [[0, 1]] := by
  refine ⟨by decide, by decide, by decide, by decide⟩

/-- C3 counterexample: two valid surface axes differing only in a surface
element's vertex index are equal under `BrainModel.__eq__` (which compares
vertices only at volumetric positions), yet the claim's condition list
(vertex indices equal at ALL elements) distinguishes them. -/
theorem brainmodel_eq_ignores_surface_vertices :
    surfV0.Valid ∧ surfV1.Valid ∧ brainModelBeq surfV0 surfV1 = true ∧
    ¬ BrainModel.EqSpec surfV0 surfV1 := by
  refine ⟨by decide, by decide, by decide, ?_⟩
  intro h
  have hv := h.2.2.2.1 0 (by decide)
  revert hv
  decide

/-- C5 counterexample: `Series(0,1,5)[::2]` keeps 2 points where standard
slice semantics select 3 (`(idx_end - idx_start) // step` rounds down),
and `Series(0,1,5)[10:]` keeps 1 point where standard semantics select 0
(an overlarge start is clamped to `size - 1` instead of `size`). -/
theorem series_slice_step_two_miscount :
    Series.getitem_slice ⟨0, 1, 5, "SECOND"⟩ none none (some 2) =
      { start := 0, step := 2, size := 2, unit := "SECOND" } ∧
    pySliceCount 5 none none 2 = 3 ∧
    Series.getitem_slice ⟨0, 1, 5, "SECOND"⟩ (some 10) none none =
      { start := 4, step := 1, size := 1, unit := "SECOND" } ∧
    pySliceCount 5 (some 10) none 1 = 0 := by
  refine ⟨?_, by decide, ?_, by decide⟩
  · simp only [Series.getitem_slice]
    norm_num
    decide
  · simp only [Series.getitem_slice]
    norm_num

/-- C6 counterexample: `Series(0,1,3).get_element(-5)` resolves to index
`-2`, which is outside `[0, size)`, yet the code silently returns the
extrapolated value `-2` instead of raising `IndexOutOfRange`. -/
theorem series_get_element_below_negative_range :
    Series.get_element ⟨0, 1, 3, "SECOND"⟩ (-5) = .ok (-2) ∧
    (if (-5 : Int) < 0 then ((3 : Nat) : Int) + (-5) else (-5)) < 0 := by
  refine ⟨?_, by decide⟩
  simp only [Series.get_element]
  norm_num

/-! ## Claim C10 -/

/-- C10: `to_cifti_brain_structure_name` on a free string strips a
left/right/both token found at the start or end (separated by an
underscore, a space, or nothing), upper-cases the remaining region, and
builds and validates the canonical name.  The first conjunct proves the
start-with-underscore case in full generality: for EVERY region string
`r`, `left_<r>` is interpreted as `CIFTI_STRUCTURE_<R>_LEFT` and accepted
exactly when that name is in the vocabulary.  The remaining conjuncts
check the claimed examples (`left_cortex` and `CortexRight`) together
with the space-separated, end-token and no-separator variants, and the
tokenless default-to-both case (`Cerebellum`). -/
theorem to_cifti_name_canonicalize :
    (∀ r : String,
      toCiftiName ("left_" ++ r) =
        if "CIFTI_STRUCTURE_" ++ upperStr r ++ "_" ++ "LEFT" ∈ ciftiBrainStructures
        then .ok ("CIFTI_STRUCTURE_" ++ upperStr r ++ "_" ++ "LEFT")
        else .error "not a valid CIFTI brain structure") ∧
    toCiftiName "left_cortex" = .ok "CIFTI_STRUCTURE_CORTEX_LEFT" ∧
    toCiftiName "left cortex" = .ok "CIFTI_STRUCTURE_CORTEX_LEFT" ∧
    toCiftiName "cortex_left" = .ok "CIFTI_STRUCTURE_CORTEX_LEFT" ∧
    toCiftiName "LeftCortex" = .ok "CIFTI_STRUCTURE_CORTEX_LEFT" ∧
    toCiftiName "CortexRight" = .ok "CIFTI_STRUCTURE_CORTEX_RIGHT" ∧
    toCiftiName "Cerebellum" = .ok "CIFTI_STRUCTURE_CEREBELLUM" := by
  refine ⟨?_, by decide, by decide, by decide, by decide, by decide, by decide⟩
  intro r
  have hdata : ("left_" ++ r).data = ['l', 'e', 'f', 't', '_'] ++ r.data := by
    rw [String.data_append]
  have hnotmem : ("left_" ++ r) ∉ ciftiBrainStructures := by
    intro hmem
    have hC : ∀ s ∈ ciftiBrainStructures, s.data.head? = some 'C' := by decide
    have h2 := hC _ hmem
    rw [hdata, List.cons_append, List.head?_cons] at h2
    exact absurd h2 (by decide)
  have hnl : ("left_" ++ r).toList = ['l', 'e', 'f', 't', '_'] ++ r.data := hdata
  have hlow : (lowerStr ("left_" ++ r)).toList
      = ['l', 'e', 'f', 't', '_'] ++ r.data.map Char.toLower := by
    show ("left_" ++ r).data.map Char.toLower = _
    rw [hdata, List.map_append]
    congr 1
  have hc1 : (lowerStr ("left_" ++ r)).toList.take "left".length = "left".toList := by
    rw [hlow, show "left".length = 4 from rfl, List.take_append_eq_append_take]
    simp
  have htry : tryOrient ("left_" ++ r) "left" = some (.ok ("left", r)) := by
    unfold tryOrient
    rw [if_pos hc1, hnl, show "left".length = 4 from rfl,
      List.get?_append (by decide : (4 : Nat) < (['l', 'e', 'f', 't', '_'] : List Char).length),
      show (['l', 'e', 'f', 't', '_'] : List Char).get? 4 = some '_' from rfl]
    have hdrop : List.drop (4 + 1) (['l', 'e', 'f', 't', '_'] ++ r.data) = r.data :=
      List.drop_left' (by decide)
    rw [hdrop]
    rfl
  have hfind : findOrientation ("left_" ++ r) = .ok ("left", r) := by
    unfold findOrientation
    rw [htry]
  unfold toCiftiName
  rw [if_neg hnotmem, hfind]
  rfl

/-- C9 counterexample: constructing a volumetric axis with an affine but
no volume shape succeeds and stores the affine with an absent volume
shape, so affine and volume shape are neither both present nor both
absent, although the axis has a volumetric element. -/
theorem brainmodel_init_affine_without_shape :
    BrainModel.init (.inl "brain_stem") (some [((0 : Int), (0 : Int), (0 : Int))]) none
      (some identityAffine) none none = .ok bmAffNoShape ∧
    bmAffNoShape.affine = some identityAffine ∧ bmAffNoShape.volume_shape = none ∧
    (∃ b ∈ bmAffNoShape.isSurfList, b = false) := by
  refine ⟨by decide, by decide, by decide, by decide⟩

/-! ## Helper lemmas: to_header -/

theorem to_mapping_applies (ax : Axis) (dim : Nat) :
    (Axis.to_mapping ax dim).applies_to_matrix_dimension = [dim] := by
  cases ax <;> rfl

theorem modifyAt_cons_zero (x : α) (t : List α) (f : α → α) :
    modifyAt (x :: t) 0 f = f x :: t := rfl

theorem modifyAt_cons_succ (x : α) (t : List α) (i : Nat) (f : α → α) :
    modifyAt (x :: t) (i + 1) f = x :: modifyAt t i f := by
  unfold modifyAt
  cases h : t.get? i with
  | none => rw [show (x :: t).get? (i + 1) = t.get? i from rfl, h]
  | some y =>
      rw [show (x :: t).get? (i + 1) = t.get? i from rfl, h]
      rfl

theorem modifyAt_length (l : List α) : ∀ (i : Nat) (f : α → α),
    (modifyAt l i f).length = l.length := by
  induction l with
  | nil => intro i f; rfl
  | cons x t ih =>
      intro i f
      cases i with
      | zero => rw [modifyAt_cons_zero]; rfl
      | succ j => rw [modifyAt_cons_succ]; simpa using ih j f

theorem modifyAt_getD_self (l : List α) : ∀ (i : Nat), i < l.length → ∀ (f : α → α) (d : α),
    (modifyAt l i f).getD i d = f (l.getD i d) := by
  induction l with
  | nil => intro i hi; simp at hi
  | cons x t ih =>
      intro i hi f d
      cases i with
      | zero => rw [modifyAt_cons_zero]; rfl
      | succ j =>
          rw [modifyAt_cons_succ]
          simpa using ih j (by simpa using hi) f d

theorem modifyAt_getD_ne (l : List α) : ∀ (i k : Nat), k ≠ i → ∀ (f : α → α) (d : α),
    (modifyAt l i f).getD k d = l.getD k d := by
  induction l with
  | nil => intro i k hk f d; rfl
  | cons x t ih =>
      intro i k hk f d
      cases i with
      | zero =>
          rw [modifyAt_cons_zero]
          cases k with
          | zero => exact absurd rfl hk
          | succ j => rfl
      | succ j =>
          rw [modifyAt_cons_succ]
          cases k with
          | zero => rfl
          | succ m => simpa using ih j m (by omega) f d

theorem getD_append_lt (l : List α) : ∀ (t : List α) (n : Nat), n < l.length → ∀ (d : α),
    (l ++ t).getD n d = l.getD n d := by
  induction l with
  | nil => intro t n hn; simp at hn
  | cons x s ih =>
      intro t n hn d
      cases n with
      | zero => rfl
      | succ m => simpa using ih t m (by simpa using hn) d

theorem getD_concat_length (l : List α) : ∀ (x d : α), (l ++ [x]).getD l.length d = x := by
  induction l with
  | nil => intro x d; rfl
  | cons a t ih => intro x d; simpa using ih x d

theorem take_append_le (l t : List α) (n : Nat) (h : n ≤ l.length) :
    (l ++ t).take n = l.take n := by
  rw [List.take_append_eq_append_take, Nat.sub_eq_zero_of_le h, List.take_zero, List.append_nil]

theorem freshDim_append (p q : List Inst) (d : Inst) (i : Nat) (hi : i < p.length) :
    freshDim (p ++ q) d i = freshDim p d i := by
  unfold freshDim
  rw [take_append_le _ _ _ (by omega), getD_append_lt _ _ _ hi]

theorem nFresh_append (p q : List Inst) (d : Inst) (i : Nat) (hi : i ≤ p.length) :
    nFresh (p ++ q) d i = nFresh p d i := by
  unfold nFresh
  congr 1
  apply List.filter_congr
  intro k hk
  have hki := List.mem_range.mp hk
  exact freshDim_append p q d k (by omega)

theorem nFresh_succ (p : List Inst) (d : Inst) (i : Nat) :
    nFresh p d (i + 1) = nFresh p d i + (if freshDim p d i then 1 else 0) := by
  unfold nFresh
  rw [List.range_succ, List.filter_append, List.length_append]
  rcases h : freshDim p d i with _ | _ <;> simp [List.filter_cons, h]

theorem headerInv_fresh (d : Inst) (p : List Inst) (mat : List MIM) (assign : List Nat) (ax : Inst)
    (h : HeaderInv d p mat assign) (hfind : p.findIdx? (fun a => pyEq a ax) = none) :
    HeaderInv d (p ++ [ax]) (mat ++ [ax.2.to_mapping p.length]) (assign ++ [mat.length]) := by
  obtain ⟨hlen, hcnt, hbnd, hslot, happ⟩ := h
  have hlen1 : (p ++ [ax]).length = p.length + 1 := by simp
  have hfreshnew : freshDim (p ++ [ax]) d p.length = true := by
    unfold freshDim
    rw [take_append_le _ _ _ (by omega), List.take_length, getD_concat_length, hfind]
    rfl
  refine ⟨by simp [hlen], ?_, ?_, ?_, ?_⟩
  · rw [List.length_append, hlen1, nFresh_succ, nFresh_append _ _ _ _ (le_refl _), hfreshnew]
    simp [hcnt]
  · intro i hi
    rw [hlen1] at hi
    rw [List.length_append]
    by_cases hip : i < p.length
    · rw [getD_append_lt _ _ _ (by omega)]
      have := hbnd i hip
      simp only [List.length_singleton]
      omega
    · have hieq : i = p.length := by omega
      subst hieq
      rw [← hlen, getD_concat_length]
      simp
  · intro i hi
    rw [hlen1] at hi
    by_cases hip : i < p.length
    · rw [take_append_le _ _ _ (by omega), getD_append_lt _ _ _ hip]
      have hs := hslot i hip
      cases hf : (p.take i).findIdx? (fun a => pyEq a (p.getD i d)) with
      | some j =>
          rw [hf] at hs
          have hj := (List.findIdx?_eq_some_iff_findIdx_eq.mp hf).1
          rw [List.length_take] at hj
          show (assign ++ [mat.length]).getD i 0 = (assign ++ [mat.length]).getD j 0
          rw [getD_append_lt _ _ _ (by omega), getD_append_lt _ _ _ (by omega)]
          exact hs
      | none =>
          rw [hf] at hs
          show (assign ++ [mat.length]).getD i 0 = nFresh (p ++ [ax]) d i
          rw [getD_append_lt _ _ _ (by omega), nFresh_append _ _ _ _ (by omega)]
          exact hs
    · have hieq : i = p.length := by omega
      subst hieq
      rw [take_append_le _ _ _ (le_refl _), List.take_length, getD_concat_length, hfind]
      show (assign ++ [mat.length]).getD p.length 0 = nFresh (p ++ [ax]) d p.length
      have h1 : (assign ++ [mat.length]).getD p.length 0 = mat.length := by
        rw [← hlen]
        exact getD_concat_length _ _ _
      rw [nFresh_append _ _ _ _ (le_refl _), ← hcnt, h1]
  · intro s hs
    rw [List.length_append, List.length_singleton] at hs
    rw [hlen1, List.range_succ, List.filter_append]
    by_cases hsm : s < mat.length
    · rw [getD_append_lt _ _ _ hsm, happ s hsm]
      have hcong : List.filter (fun i => (assign ++ [mat.length]).getD i 0 == s)
          (List.range p.length) =
          List.filter (fun i => assign.getD i 0 == s) (List.range p.length) := by
        apply List.filter_congr
        intro k hk
        rw [getD_append_lt _ _ _ (by rw [hlen]; exact List.mem_range.mp hk)]
      have hnew : List.filter (fun i => (assign ++ [mat.length]).getD i 0 == s) [p.length] = [] := by
        have hv : (assign ++ [mat.length]).getD p.length 0 = mat.length := by
          rw [← hlen]
          exact getD_concat_length _ _ _
        have hcond : (mat.length == s) = false := by
          rw [beq_eq_false_iff_ne]
          omega
        simp only [List.filter_cons, List.filter_nil, hv, hcond]
        rfl
      rw [hcong, hnew, List.append_nil]
    · have hseq : s = mat.length := by omega
      subst hseq
      have hm : (mat ++ [ax.2.to_mapping p.length]).getD mat.length default =
          ax.2.to_mapping p.length := getD_concat_length _ _ _
      rw [hm, to_mapping_applies]
      have hold : List.filter (fun i => (assign ++ [mat.length]).getD i 0 == mat.length)
          (List.range p.length) = [] := by
        rw [List.filter_eq_nil_iff]
        intro k hk
        have hkp := List.mem_range.mp hk
        rw [getD_append_lt _ _ _ (by omega)]
        have := hbnd k hkp
        rw [Bool.not_eq_true, beq_eq_false_iff_ne]
        omega
      have hnew : List.filter (fun i => (assign ++ [mat.length]).getD i 0 == mat.length)
          [p.length] = [p.length] := by
        have hv : (assign ++ [mat.length]).getD p.length 0 = mat.length := by
          rw [← hlen]
          exact getD_concat_length _ _ _
        simp only [List.filter_cons, List.filter_nil, hv, beq_self_eq_true]
        rfl
      rw [hold, hnew, List.nil_append]

theorem headerInv_reuse (d : Inst) (p : List Inst) (mat : List MIM) (assign : List Nat)
    (ax : Inst) (j : Nat)
    (h : HeaderInv d p mat assign) (hfind : p.findIdx? (fun a => pyEq a ax) = some j) :
    HeaderInv d (p ++ [ax])
      (modifyAt mat (assign.getD j 0) (fun m =>
        { m with applies_to_matrix_dimension := m.applies_to_matrix_dimension ++ [p.length] }))
      (assign ++ [assign.getD j 0]) := by
  obtain ⟨hlen, hcnt, hbnd, hslot, happ⟩ := h
  have hj : j < p.length := (List.findIdx?_eq_some_iff_findIdx_eq.mp hfind).1
  have hsb : assign.getD j 0 < mat.length := hbnd j hj
  have hlen1 : (p ++ [ax]).length = p.length + 1 := by simp
  have hfreshnew : freshDim (p ++ [ax]) d p.length = false := by
    unfold freshDim
    rw [take_append_le _ _ _ (by omega), List.take_length, getD_concat_length, hfind]
    rfl
  have hvnew : (assign ++ [assign.getD j 0]).getD p.length 0 = assign.getD j 0 := by
    rw [← hlen]
    exact getD_concat_length _ _ _
  refine ⟨by simp [hlen], ?_, ?_, ?_, ?_⟩
  · rw [modifyAt_length, hlen1, nFresh_succ, nFresh_append _ _ _ _ (le_refl _), hfreshnew]
    simp [hcnt]
  · intro i hi
    rw [hlen1] at hi
    rw [modifyAt_length]
    by_cases hip : i < p.length
    · rw [getD_append_lt _ _ _ (by omega)]
      exact hbnd i hip
    · have hieq : i = p.length := by omega
      subst hieq
      rw [hvnew]
      exact hsb
  · intro i hi
    rw [hlen1] at hi
    by_cases hip : i < p.length
    · rw [take_append_le _ _ _ (by omega), getD_append_lt _ _ _ hip]
      have hs := hslot i hip
      cases hf : (p.take i).findIdx? (fun a => pyEq a (p.getD i d)) with
      | some k =>
          rw [hf] at hs
          have hk := (List.findIdx?_eq_some_iff_findIdx_eq.mp hf).1
          rw [List.length_take] at hk
          show (assign ++ [assign.getD j 0]).getD i 0 = (assign ++ [assign.getD j 0]).getD k 0
          rw [getD_append_lt _ _ _ (by omega), getD_append_lt _ _ _ (by omega)]
          exact hs
      | none =>
          rw [hf] at hs
          show (assign ++ [assign.getD j 0]).getD i 0 = nFresh (p ++ [ax]) d i
          rw [getD_append_lt _ _ _ (by omega), nFresh_append _ _ _ _ (by omega)]
          exact hs
    · have hieq : i = p.length := by omega
      subst hieq
      rw [take_append_le _ _ _ (le_refl _), List.take_length, getD_concat_length, hfind]
      show (assign ++ [assign.getD j 0]).getD p.length 0 =
        (assign ++ [assign.getD j 0]).getD j 0
      rw [hvnew, getD_append_lt _ _ _ (by omega)]
  · intro s hs
    rw [modifyAt_length] at hs
    rw [hlen1, List.range_succ, List.filter_append]
    by_cases hsv : s = assign.getD j 0
    · subst hsv
      rw [modifyAt_getD_self _ _ hsb]
      show ((mat.getD (assign.getD j 0) default).applies_to_matrix_dimension ++ [p.length]) = _
      rw [happ _ hsb]
      have hcong : List.filter (fun i => (assign ++ [assign.getD j 0]).getD i 0 == assign.getD j 0)
          (List.range p.length) =
          List.filter (fun i => assign.getD i 0 == assign.getD j 0) (List.range p.length) := by
        apply List.filter_congr
        intro k hk
        rw [getD_append_lt _ _ _ (by rw [hlen]; exact List.mem_range.mp hk)]
      have hnew : List.filter
          (fun i => (assign ++ [assign.getD j 0]).getD i 0 == assign.getD j 0)
          [p.length] = [p.length] := by
        simp only [List.filter_cons, List.filter_nil, hvnew, beq_self_eq_true]
        rfl
      rw [hcong, hnew]
    · rw [modifyAt_getD_ne _ _ _ (fun hx => hsv hx)]
      rw [happ s hs]
      have hcong : List.filter (fun i => (assign ++ [assign.getD j 0]).getD i 0 == s)
          (List.range p.length) =
          List.filter (fun i => assign.getD i 0 == s) (List.range p.length) := by
        apply List.filter_congr
        intro k hk
        rw [getD_append_lt _ _ _ (by rw [hlen]; exact List.mem_range.mp hk)]
      have hnew : List.filter (fun i => (assign ++ [assign.getD j 0]).getD i 0 == s)
          [p.length] = [] := by
        have hcond : (assign.getD j 0 == s) = false := by
          rw [beq_eq_false_iff_ne]
          exact fun hx => hsv hx.symm
        simp only [List.filter_cons, List.filter_nil, hvnew, hcond]
        rfl
      rw [hcong, hnew, List.append_nil]

theorem toHeaderAux_inv (d : Inst) : ∀ (rest prev : List Inst) (mat : List MIM)
    (assign : List Nat), HeaderInv d prev mat assign →
    HeaderInv d (prev ++ rest) (toHeaderAux prev rest (mat, assign)).1
      (toHeaderAux prev rest (mat, assign)).2 := by
  intro rest
  induction rest with
  | nil =>
      intro prev mat assign h
      simpa [toHeaderAux] using h
  | cons ax rest ih =>
      intro prev mat assign h
      have hsplit : prev ++ ax :: rest = (prev ++ [ax]) ++ rest := by simp
      rw [hsplit]
      cases hfind : prev.findIdx? (fun a => pyEq a ax) with
      | none =>
          have hstep : toHeaderAux prev (ax :: rest) (mat, assign) =
              toHeaderAux (prev ++ [ax]) rest
                (mat ++ [ax.2.to_mapping prev.length], assign ++ [mat.length]) := by
            simp only [toHeaderAux]
            rw [hfind]
          rw [hstep]
          exact ih (prev ++ [ax]) _ _ (headerInv_fresh d prev mat assign ax h hfind)
      | some j =>
          have hstep : toHeaderAux prev (ax :: rest) (mat, assign) =
              toHeaderAux (prev ++ [ax]) rest
                (modifyAt mat (assign.getD j 0) (fun m =>
                  { m with applies_to_matrix_dimension :=
                      m.applies_to_matrix_dimension ++ [prev.length] }),
                 assign ++ [assign.getD j 0]) := by
            simp only [toHeaderAux]
            rw [hfind]
          rw [hstep]
          exact ih (prev ++ [ax]) _ _ (headerInv_reuse d prev mat assign ax j h hfind)

/-! ## Helper lemmas: roundtrips -/

theorem neqAny_self [BEq α] [LawfulBEq α] (l : List α) : neqAny l l = false := by
  induction l with
  | nil => rfl
  | cons x t ih => simpa [neqAny, List.zip_cons_cons] using ih

theorem neqAll_self_ne_nil [BEq α] [LawfulBEq α] (l : List α) (h : l ≠ []) :
    neqAll l l = false := by
  cases l with
  | nil => exact absurd rfl h
  | cons x t => simp [neqAll, List.zip_cons_cons]

theorem voxNeqAny_self (v : List Vox) : voxNeqAny v v = false := by
  unfold voxNeqAny
  rw [bne_self_eq_false]
  simp only [Bool.false_or]
  induction v with
  | nil => rfl
  | cons x t ih => simpa [List.zip_cons_cons] using ih

theorem dictBeq_self [BEq κ] [LawfulBEq κ] [BEq α] [LawfulBEq α] (l : List (κ × α))
    (h : (dkeys l).Nodup) : dictBeq l l = true :=
  dictBeq_of_lookup_eq l l h h (fun _ => rfl)

theorem dmem_iff_mem_dkeys [BEq κ] [LawfulBEq κ] (l : List (κ × α)) (k : κ) :
    dmem l k = true ↔ k ∈ dkeys l := by
  constructor
  · intro h
    obtain ⟨p, hp, hbeq⟩ := List.any_eq_true.mp h
    have : p.1 = k := eq_of_beq hbeq
    subst this
    exact List.mem_map.mpr ⟨p, hp, rfl⟩
  · exact dmem_of_key_mem l k

theorem dlookup_map_update_ne [BEq κ] [LawfulBEq κ] (l : List (κ × α)) (k : κ) (v : α)
    (k2 : κ) (hne : (k == k2) = false) :
    dlookup (l.map (fun p => if p.1 == k then (k, v) else p)) k2 = dlookup l k2 := by
  induction l with
  | nil => rfl
  | cons p t ih =>
      by_cases hpk : (p.1 == k) = true
      · have hp1 : p.1 = k := eq_of_beq hpk
        simp only [List.map_cons, hpk, if_true]
        rw [dlookup_cons, dlookup_cons, if_neg (by simp [hne]), if_neg (by simp [hp1, hne])]
        exact ih
      · simp only [List.map_cons, hpk]
        rw [if_neg (by simp [hpk]), dlookup_cons, dlookup_cons]
        by_cases hp2 : (p.1 == k2) = true
        · rw [if_pos hp2, if_pos hp2]
        · rw [if_neg (by simp [hp2]), if_neg (by simp [hp2])]
          exact ih

theorem dlookup_map_update_mem [BEq κ] [LawfulBEq κ] (l : List (κ × α)) (k : κ) (v : α)
    (hm : dmem l k = true) :
    dlookup (l.map (fun p => if p.1 == k then (k, v) else p)) k = some v := by
  induction l with
  | nil => simp [dmem] at hm
  | cons p t ih =>
      by_cases hpk : (p.1 == k) = true
      · simp only [List.map_cons, hpk, if_true]
        rw [dlookup_cons, if_pos (by simp)]
      · simp only [List.map_cons, hpk]
        rw [if_neg (by simp [hpk]), dlookup_cons, if_neg (by simp [hpk])]
        apply ih
        simpa [dmem, hpk] using hm

theorem dlookup_dset [BEq κ] [LawfulBEq κ] (l : List (κ × α)) (k : κ) (v : α) (k2 : κ) :
    dlookup (dset l k v) k2 = if (k == k2) = true then some v else dlookup l k2 := by
  by_cases hm : dmem l k = true
  · simp only [dset, hm, if_true]
    by_cases hk2 : (k == k2) = true
    · have : k = k2 := eq_of_beq hk2
      subst this
      rw [if_pos hk2]
      exact dlookup_map_update_mem l k v hm
    · rw [if_neg hk2]
      exact dlookup_map_update_ne l k v k2 (by simpa using hk2)
  · rw [dset_not_mem l k v (by simpa using hm), dlookup_append]
    by_cases hk2 : (k == k2) = true
    · have : k = k2 := eq_of_beq hk2
      subst this
      rw [(dmem_eq_false_iff l k).mp (by simpa using hm)]
      simp [dlookup, hk2]
    · rw [if_neg hk2]
      cases h : dlookup l k2 with
      | none => simp [dlookup, hk2]
      | some w => rfl

theorem foldl_dset_rebuild [BEq κ] [LawfulBEq κ] :
    ∀ (l acc : List (κ × α)), (dkeys (acc ++ l)).Nodup →
    l.foldl (fun d p => dset d p.1 p.2) acc = acc ++ l := by
  intro l
  induction l with
  | nil => intro acc h; simp
  | cons p t ih =>
      intro acc h
      have hnotin : p.1 ∉ dkeys acc := by
        intro hmem
        simp only [dkeys, List.map_append, List.map_cons, List.nodup_append] at h
        exact h.2.2 hmem (by simp)
      have hdm : dmem acc p.1 = false := by
        rcases hd : dmem acc p.1 with _ | _
        · rfl
        · exact absurd ((dmem_iff_mem_dkeys acc p.1).mp hd) hnotin
      rw [List.foldl_cons, dset_not_mem acc p.1 p.2 hdm]
      have hre : (acc ++ [(p.1, p.2)]) ++ t = acc ++ p :: t := by simp
      rw [show ((p.1, p.2) : κ × α) = p from rfl] at hre ⊢
      rw [ih (acc ++ [p]) (by rw [hre]; exact h), hre]

theorem maskSel_append (m m2 : List Bool) (l l2 : List α) (h : m.length = l.length) :
    maskSel (m ++ m2) (l ++ l2) = maskSel m l ++ maskSel m2 l2 := by
  unfold maskSel
  rw [List.zip_append h, List.filterMap_append]

theorem maskNot_append (m m2 : List Bool) (l l2 : List α) (h : m.length = l.length) :
    maskNot (m ++ m2) (l ++ l2) = maskNot m l ++ maskNot m2 l2 := by
  unfold maskNot
  rw [List.zip_append h, List.filterMap_append]

theorem maskSel_replicate_true (c : Nat) : ∀ (l : List α), l.length = c →
    maskSel (List.replicate c true) l = l := by
  induction c with
  | zero =>
      intro l h
      rw [List.length_eq_zero] at h
      subst h
      rfl
  | succ n ih =>
      intro l h
      cases l with
      | nil => simp at h
      | cons x t =>
          simp only [List.replicate_succ, maskSel, List.zip_cons_cons, List.filterMap_cons]
          simpa [maskSel] using ih t (by simpa using h)

theorem maskSel_replicate_false (c : Nat) : ∀ (l : List α), l.length = c →
    maskSel (List.replicate c false) l = [] := by
  induction c with
  | zero =>
      intro l h
      rw [List.length_eq_zero] at h
      subst h
      rfl
  | succ n ih =>
      intro l h
      cases l with
      | nil => simp at h
      | cons x t =>
          simp only [List.replicate_succ, maskSel, List.zip_cons_cons, List.filterMap_cons]
          simpa [maskSel] using ih t (by simpa using h)

theorem maskNot_replicate_true (c : Nat) : ∀ (l : List α), l.length = c →
    maskNot (List.replicate c true) l = [] := by
  induction c with
  | zero =>
      intro l h
      rw [List.length_eq_zero] at h
      subst h
      rfl
  | succ n ih =>
      intro l h
      cases l with
      | nil => simp at h
      | cons x t =>
          simp only [List.replicate_succ, maskNot, List.zip_cons_cons, List.filterMap_cons]
          simpa [maskNot] using ih t (by simpa using h)

theorem maskNot_replicate_false (c : Nat) : ∀ (l : List α), l.length = c →
    maskNot (List.replicate c false) l = l := by
  induction c with
  | zero =>
      intro l h
      rw [List.length_eq_zero] at h
      subst h
      rfl
  | succ n ih =>
      intro l h
      cases l with
      | nil => simp at h
      | cons x t =>
          simp only [List.replicate_succ, maskNot, List.zip_cons_cons, List.filterMap_cons]
          simpa [maskNot] using ih t (by simpa using h)

theorem zip_drop_eq (l : List α) (m : List β) (n : Nat) :
    (l.zip m).drop n = (l.drop n).zip (m.drop n) :=
  List.drop_zipWith

theorem mem_zip_replicate (a : α) (b : β) (c : Nat) : ∀ (l : List β), l.length = c →
    b ∈ l → (a, b) ∈ (List.replicate c a).zip l := by
  induction c with
  | zero =>
      intro l h hb
      rw [List.length_eq_zero] at h
      subst h
      cases hb
  | succ n ih =>
      intro l h hb
      cases l with
      | nil => cases hb
      | cons x t =>
          simp only [List.replicate_succ, List.zip_cons_cons]
          rcases List.mem_cons.mp hb with hbx | hbt
          · subst hbx
            exact List.mem_cons_self _ _
          · exact List.mem_cons_of_mem _ (ih t (by simpa using h) hbt)

theorem rle_names_all (p : String → Bool) : ∀ (l : List String),
    ((rle l).all fun q => p q.1) = l.all p := by
  intro l
  induction l with
  | nil => rfl
  | cons a rest ih =>
      rcases h : rle rest with _ | ⟨⟨b, m⟩, rs⟩
      · have hnil : rest = [] := by
          cases rest with
          | nil => rfl
          | cons x t => exact absurd h (rle_ne_nil x t)
        subst hnil
        rw [rle_cons_nil a [] h]
        simp
      · by_cases hab : a = b
        · subst hab
          rw [rle_cons_eq a rest m rs h]
          rw [h] at ih
          simp only [List.all_cons] at ih ⊢
          rw [← ih]
          cases p a <;> simp
        · rw [rle_cons_ne a b rest m rs h hab]
          rw [h] at ih
          simp only [List.all_cons] at ih ⊢
          rw [← ih]

theorem rle_names_any (p : String → Bool) : ∀ (l : List String),
    ((rle l).any fun q => p q.1) = l.any p := by
  intro l
  induction l with
  | nil => rfl
  | cons a rest ih =>
      rcases h : rle rest with _ | ⟨⟨b, m⟩, rs⟩
      · have hnil : rest = [] := by
          cases rest with
          | nil => rfl
          | cons x t => exact absurd h (rle_ne_nil x t)
        subst hnil
        rw [rle_cons_nil a [] h]
        simp
      · by_cases hab : a = b
        · subst hab
          rw [rle_cons_eq a rest m rs h]
          rw [h] at ih
          simp only [List.any_cons] at ih ⊢
          rw [← ih]
          cases p a <;> simp
        · rw [rle_cons_ne a b rest m rs h hab]
          rw [h] at ih
          simp only [List.any_cons] at ih ⊢
          rw [← ih]

theorem toCiftiName_canonical (n : String) (h : n ∈ ciftiBrainStructures) :
    toCiftiName n = .ok n := by
  unfold toCiftiName
  rw [if_pos h]

theorem mapM_toCiftiName_canonical : ∀ (l : List String),
    (∀ n ∈ l, n ∈ ciftiBrainStructures) → l.mapM toCiftiName = .ok l := by
  intro l
  induction l with
  | nil => intro _; rfl
  | cons a t ih =>
      intro h
      rw [List.mapM_cons, toCiftiName_canonical a (h a (by simp)),
        ih (fun n hn => h n (by simp [hn]))]
      rfl

theorem rebuiltVoxel_length (bm : BrainModel) : ∀ (runs : List (String × Nat)) (off : Nat),
    off + (runs.map (·.2)).sum ≤ bm.voxel.length →
    (rebuiltVoxel bm off runs).length = (runs.map (·.2)).sum := by
  intro runs
  induction runs with
  | nil => intro off _; rfl
  | cons q rest ih =>
      intro off h
      obtain ⟨s, c⟩ := q
      simp only [List.map_cons, List.sum_cons] at h ⊢
      show ((if dmem bm.nvertices s then List.replicate c ((-1, -1, -1) : Vox)
        else extract bm.voxel off (off + c)) ++ rebuiltVoxel bm (off + c) rest).length = _
      rw [List.length_append, ih (off + c) (by omega)]
      by_cases hd : dmem bm.nvertices s = true
      · rw [if_pos hd, List.length_replicate]
      · rw [if_neg (by simpa using hd), extract_length _ _ _ (by omega)]

theorem rebuiltVertex_length (bm : BrainModel) : ∀ (runs : List (String × Nat)) (off : Nat),
    off + (runs.map (·.2)).sum ≤ bm.vertex.length →
    (rebuiltVertex bm off runs).length = (runs.map (·.2)).sum := by
  intro runs
  induction runs with
  | nil => intro off _; rfl
  | cons q rest ih =>
      intro off h
      obtain ⟨s, c⟩ := q
      simp only [List.map_cons, List.sum_cons] at h ⊢
      show ((if dmem bm.nvertices s then extract bm.vertex off (off + c)
        else List.replicate c (-1 : Int)) ++ rebuiltVertex bm (off + c) rest).length = _
      rw [List.length_append, ih (off + c) (by omega)]
      by_cases hd : dmem bm.nvertices s = true
      · rw [if_pos hd, extract_length _ _ _ (by omega)]
      · rw [if_neg (by simpa using hd), List.length_replicate]

theorem rebuiltVertex_masks (bm : BrainModel) (hvt : bm.vertex.length = bm.name.length) :
    ∀ (runs : List (String × Nat)) (off : Nat),
    bm.name.drop off = (runs.map (fun q => List.replicate q.2 q.1)).flatten →
    off + (runs.map (·.2)).sum = bm.name.length →
    (∀ p ∈ (bm.isSurfList.zip bm.vertex).drop off, p.1 = false → p.2 = (-1 : Int)) →
    maskSel (bm.isSurfList.drop off) (rebuiltVertex bm off runs)
        = maskSel (bm.isSurfList.drop off) (bm.vertex.drop off) ∧
    maskNot (bm.isSurfList.drop off) (rebuiltVertex bm off runs)
        = maskNot (bm.isSurfList.drop off) (bm.vertex.drop off) := by
  intro runs
  induction runs with
  | nil =>
      intro off hseg hoff hs
      have hoffN : bm.name.length ≤ off := by
        simp only [List.map_nil, List.flatten_nil] at hseg
        exact List.drop_eq_nil_iff.mp hseg
      have hmask : bm.isSurfList.drop off = [] := by
        apply List.drop_eq_nil_of_le
        have : bm.isSurfList.length = bm.name.length := List.length_map _ _
        omega
      rw [hmask]
      exact ⟨rfl, rfl⟩
  | cons q rest ih =>
      intro off hseg hoff hs
      obtain ⟨s, c⟩ := q
      simp only [List.map_cons, List.flatten_cons, List.sum_cons] at hseg hoff
      have hrest : bm.name.drop (off + c) =
          (rest.map (fun q => List.replicate q.2 q.1)).flatten := by
        have h1 : (bm.name.drop off).drop c = bm.name.drop (off + c) := by
          rw [List.drop_drop]
        rw [← h1, hseg, List.drop_left' (by simp)]
      have hmaskoff : bm.isSurfList.drop off =
          List.replicate c (dmem bm.nvertices s) ++ bm.isSurfList.drop (off + c) := by
        unfold BrainModel.isSurfList
        rw [← List.map_drop, hseg, List.map_append, List.map_replicate, ← hrest,
          List.map_drop]
      have hvert : bm.vertex.drop off =
          extract bm.vertex off (off + c) ++ bm.vertex.drop (off + c) :=
        (extract_append_drop bm.vertex off c).symm
      have hexlen : (extract bm.vertex off (off + c)).length = c :=
        extract_length _ _ _ (by omega)
      have hs2 : ∀ p ∈ (bm.isSurfList.zip bm.vertex).drop (off + c),
          p.1 = false → p.2 = (-1 : Int) := by
        intro p hp
        exact hs p (List.mem_of_mem_drop (n := c) (by rw [List.drop_drop]; exact hp))
      obtain ⟨ihSel, ihNot⟩ := ih (off + c) hrest (by omega) hs2
      have hreb : rebuiltVertex bm off ((s, c) :: rest) =
          (if dmem bm.nvertices s then extract bm.vertex off (off + c)
           else List.replicate c (-1)) ++ rebuiltVertex bm (off + c) rest := rfl
      by_cases hd : dmem bm.nvertices s = true
      · rw [hd] at hmaskoff
        rw [hreb, if_pos hd, hmaskoff, hvert]
        constructor
        · rw [maskSel_append _ _ _ _ (by simp [hexlen]),
            maskSel_append _ _ _ _ (by simp [hexlen]), ihSel]
        · rw [maskNot_append _ _ _ _ (by simp [hexlen]),
            maskNot_append _ _ _ _ (by simp [hexlen]), ihNot]
      · have hdf : dmem bm.nvertices s = false := by simpa using hd
        rw [hdf] at hmaskoff
        have hext : extract bm.vertex off (off + c) = List.replicate c (-1 : Int) := by
          rw [List.eq_replicate_iff]
          refine ⟨hexlen, fun b hb => ?_⟩
          have hmem : ((false : Bool), b) ∈
              (List.replicate c (false : Bool)).zip (extract bm.vertex off (off + c)) :=
            mem_zip_replicate _ _ _ _ hexlen hb
          have hmem2 : ((false : Bool), b) ∈ (bm.isSurfList.zip bm.vertex).drop off := by
            rw [zip_drop_eq, hmaskoff, hvert, List.zip_append (by simp [hexlen])]
            exact List.mem_append_left _ hmem
          exact hs _ hmem2 rfl
        rw [hreb, if_neg (by simp [hdf]), hmaskoff, hvert]
        constructor
        · rw [maskSel_append _ _ _ _ (by simp),
            maskSel_append _ _ _ _ (by simp [hexlen]), ihSel,
            maskSel_replicate_false c _ (List.length_replicate _ _),
            maskSel_replicate_false c _ hexlen]
        · rw [maskNot_append _ _ _ _ (by simp),
            maskNot_append _ _ _ _ (by simp [hexlen]), ihNot,
            maskNot_replicate_false c _ (List.length_replicate _ _),
            maskNot_replicate_false c _ hexlen, hext]

theorem rebuiltVoxel_maskNot (bm : BrainModel) (hvx : bm.voxel.length = bm.name.length) :
    ∀ (runs : List (String × Nat)) (off : Nat),
    bm.name.drop off = (runs.map (fun q => List.replicate q.2 q.1)).flatten →
    off + (runs.map (·.2)).sum = bm.name.length →
    maskNot (bm.isSurfList.drop off) (rebuiltVoxel bm off runs)
        = maskNot (bm.isSurfList.drop off) (bm.voxel.drop off) := by
  intro runs
  induction runs with
  | nil =>
      intro off hseg hoff
      have hoffN : bm.name.length ≤ off := by
        simp only [List.map_nil, List.flatten_nil] at hseg
        exact List.drop_eq_nil_iff.mp hseg
      have hmask : bm.isSurfList.drop off = [] := by
        apply List.drop_eq_nil_of_le
        have : bm.isSurfList.length = bm.name.length := List.length_map _ _
        omega
      rw [hmask]
      rfl
  | cons q rest ih =>
      intro off hseg hoff
      obtain ⟨s, c⟩ := q
      simp only [List.map_cons, List.flatten_cons, List.sum_cons] at hseg hoff
      have hrest : bm.name.drop (off + c) =
          (rest.map (fun q => List.replicate q.2 q.1)).flatten := by
        have h1 : (bm.name.drop off).drop c = bm.name.drop (off + c) := by
          rw [List.drop_drop]
        rw [← h1, hseg, List.drop_left' (by simp)]
      have hmaskoff : bm.isSurfList.drop off =
          List.replicate c (dmem bm.nvertices s) ++ bm.isSurfList.drop (off + c) := by
        unfold BrainModel.isSurfList
        rw [← List.map_drop, hseg, List.map_append, List.map_replicate, ← hrest,
          List.map_drop]
      have hvox : bm.voxel.drop off =
          extract bm.voxel off (off + c) ++ bm.voxel.drop (off + c) :=
        (extract_append_drop bm.voxel off c).symm
      have hexlen : (extract bm.voxel off (off + c)).length = c :=
        extract_length _ _ _ (by omega)
      have ihNot := ih (off + c) hrest (by omega)
      have hreb : rebuiltVoxel bm off ((s, c) :: rest) =
          (if dmem bm.nvertices s then List.replicate c ((-1, -1, -1) : Vox)
           else extract bm.voxel off (off + c)) ++ rebuiltVoxel bm (off + c) rest := rfl
      by_cases hd : dmem bm.nvertices s = true
      · rw [hd] at hmaskoff
        rw [hreb, if_pos hd, hmaskoff, hvox]
        rw [maskNot_append _ _ _ _ (by simp),
          maskNot_append _ _ _ _ (by simp [hexlen]), ihNot,
          maskNot_replicate_true c _ (List.length_replicate _ _),
          maskNot_replicate_true c _ hexlen]
      · have hdf : dmem bm.nvertices s = false := by simpa using hd
        rw [hdf] at hmaskoff
        rw [hreb, if_neg (by simp [hdf]), hmaskoff, hvox]
        rw [maskNot_append _ _ _ _ (by simp [hexlen]),
          maskNot_append _ _ _ _ (by simp [hexlen]), ihNot]

theorem drop_replicate (c m : Nat) (x : α) (h : c ≤ m) :
    (List.replicate m x).drop c = List.replicate (m - c) x := by
  have hm : m = c + (m - c) := by omega
  rw [hm, List.replicate_add, List.drop_left' (by simp)]
  congr 1
  omega

theorem writeRange_mid (W : List α) (off c m : Nat) (x : α) (vals : List α)
    (hW : W.length = off) (hv : vals.length = c) (hcm : c ≤ m) :
    writeRange (W ++ List.replicate m x) off vals =
      (W ++ vals) ++ List.replicate (m - c) x := by
  unfold writeRange
  rw [List.take_left' hW, hv]
  have hdrop : (W ++ List.replicate m x).drop (off + c) = List.replicate (m - c) x := by
    rw [show off + c = W.length + c from by omega, List.drop_append, drop_replicate _ _ _ hcm]
  rw [hdrop, List.append_assoc]

theorem map_withOffsets_mkEntries (bm : BrainModel) :
    ∀ (runs : List (String × Nat)) (off : Nat),
    (withOffsets off runs).map (fun r =>
      let sub := bm.subaxis r.2.1 r.2.2
      if dmem bm.nvertices r.1 then
        ({ index_offset := r.2.1
           index_count := sub.name.length
           model_type := "CIFTI_MODEL_TYPE_SURFACE"
           brain_structure := r.1
           surface_number_of_vertices := dlookup bm.nvertices r.1
           voxel_indices_ijk := none
           vertex_indices := some sub.vertex } : BMEntry)
      else
        { index_offset := r.2.1
          index_count := sub.name.length
          model_type := "CIFTI_MODEL_TYPE_VOXELS"
          brain_structure := r.1
          surface_number_of_vertices := none
          voxel_indices_ijk := some sub.voxel
          vertex_indices := none }) = mkEntries bm off runs := by
  intro runs
  induction runs with
  | nil => intro off; rfl
  | cons q rest ih =>
      intro off
      obtain ⟨s, c⟩ := q
      show _ :: _ = _ :: _
      rw [ih (off + c)]
      rfl

theorem to_mapping_brain_models (bm : BrainModel) (dim : Nat) :
    (BrainModel.to_mapping bm dim).brain_models = mkEntries bm 0 (rle bm.name) := by
  have h1 : (BrainModel.to_mapping bm dim).brain_models
      = (iterRunsNames bm.name).map (fun r =>
        let sub := bm.subaxis r.2.1 r.2.2
        if dmem bm.nvertices r.1 then
          ({ index_offset := r.2.1
             index_count := sub.name.length
             model_type := "CIFTI_MODEL_TYPE_SURFACE"
             brain_structure := r.1
             surface_number_of_vertices := dlookup bm.nvertices r.1
             voxel_indices_ijk := none
             vertex_indices := some sub.vertex } : BMEntry)
        else
          { index_offset := r.2.1
            index_count := sub.name.length
            model_type := "CIFTI_MODEL_TYPE_VOXELS"
            brain_structure := r.1
            surface_number_of_vertices := none
            voxel_indices_ijk := some sub.voxel
            vertex_indices := none }) := rfl
  rw [h1, iterRunsNames_eq_rle, map_withOffsets_mkEntries]

theorem mkEntries_counts (bm : BrainModel) : ∀ (runs : List (String × Nat)) (off : Nat),
    off + (runs.map (·.2)).sum ≤ bm.name.length →
    ((mkEntries bm off runs).map (·.index_count)).sum = (runs.map (·.2)).sum := by
  intro runs
  induction runs with
  | nil => intro off _; rfl
  | cons q rest ih =>
      intro off h
      obtain ⟨s, c⟩ := q
      simp only [List.map_cons, List.sum_cons] at h ⊢
      have hcl : (extract bm.name off (off + c)).length = c :=
        extract_length _ _ _ (by omega)
      have hmk : mkEntries bm off ((s, c) :: rest) =
          (if dmem bm.nvertices s then
            ({ index_offset := off
               index_count := (extract bm.name off (off + c)).length
               model_type := "CIFTI_MODEL_TYPE_SURFACE"
               brain_structure := s
               surface_number_of_vertices := dlookup bm.nvertices s
               voxel_indices_ijk := none
               vertex_indices := some (extract bm.vertex off (off + c)) } : BMEntry)
          else
            { index_offset := off
              index_count := (extract bm.name off (off + c)).length
              model_type := "CIFTI_MODEL_TYPE_VOXELS"
              brain_structure := s
              surface_number_of_vertices := none
              voxel_indices_ijk := some (extract bm.voxel off (off + c))
              vertex_indices := none }) :: mkEntries bm (off + c) rest := rfl
      rw [hmk, List.map_cons, List.sum_cons, ih (off + c) (by omega)]
      by_cases hd : dmem bm.nvertices s = true
      · rw [if_pos hd]
        dsimp only
        rw [hcl]
      · rw [if_neg (by simp [hd])]
        dsimp only
        rw [hcl]

theorem bmFold_mkEntries (bm : BrainModel) (vol : Option VolumeE)
    (hvt : bm.vertex.length = bm.name.length) (hvx : bm.voxel.length = bm.name.length) :
    ∀ (runs : List (String × Nat)) (off : Nat) (st : BMAcc) (V : List Vox) (W : List Int),
    off + (runs.map (·.2)).sum = bm.name.length →
    (∀ q ∈ runs, dmem bm.nvertices q.1 = false →
      vol = some { volume_dimensions := bm.volume_shape, matrix := bm.affine }) →
    st.voxel = V ++ List.replicate (bm.name.length - off) ((-1, -1, -1) : Vox) →
    V.length = off →
    st.vertex = W ++ List.replicate (bm.name.length - off) (-1 : Int) →
    W.length = off →
    (dkeys st.nvertices).Nodup →
    ((st.affine = bm.affine ∧ st.shape = bm.volume_shape) ∨
      (st.affine = none ∧ st.shape = none)) →
    ∃ fin, (mkEntries bm off runs).foldlM (bmFoldStep vol) st = .ok fin ∧
      fin.name = st.name ++ (runs.map (fun q => List.replicate q.2 q.1)).flatten ∧
      fin.voxel = V ++ rebuiltVoxel bm off runs ∧
      fin.vertex = W ++ rebuiltVertex bm off runs ∧
      (dkeys fin.nvertices).Nodup ∧
      (∀ k, dlookup fin.nvertices k =
        if ((runs.any fun q => q.1 == k && dmem bm.nvertices q.1)) = true
        then dlookup bm.nvertices k
        else dlookup st.nvertices k) ∧
      ((fin.affine = bm.affine ∧ fin.shape = bm.volume_shape) ∨
        (fin.affine = st.affine ∧ fin.shape = st.shape ∧
          (runs.all fun q => dmem bm.nvertices q.1) = true)) := by
  intro runs
  induction runs with
  | nil =>
      intro off st V W hoff hvol hsvox hVl hsvert hWl hnd hgeo
      simp only [List.map_nil, List.sum_nil] at hoff
      have hz : bm.name.length - off = 0 := by omega
      refine ⟨st, rfl, by simp, ?_, ?_, hnd, by intro k; simp, Or.inr ⟨rfl, rfl, rfl⟩⟩
      · rw [hsvox, hz]
        rfl
      · rw [hsvert, hz]
        rfl
  | cons q rest ih =>
      intro off st V W hoff hvol hsvox hVl hsvert hWl hnd hgeo
      obtain ⟨s, c⟩ := q
      simp only [List.map_cons, List.sum_cons] at hoff
      have hclen : (extract bm.name off (off + c)).length = c :=
        extract_length _ _ _ (by omega)
      have hvlen : (extract bm.vertex off (off + c)).length = c :=
        extract_length _ _ _ (by omega)
      have hxlen : (extract bm.voxel off (off + c)).length = c :=
        extract_length _ _ _ (by omega)
      have hsplitV : List.replicate (bm.name.length - off) ((-1, -1, -1) : Vox)
          = List.replicate c ((-1, -1, -1) : Vox)
            ++ List.replicate (bm.name.length - (off + c)) ((-1, -1, -1) : Vox) := by
        rw [← List.replicate_add]
        congr 1
        omega
      have hsplitW : List.replicate (bm.name.length - off) (-1 : Int)
          = List.replicate c (-1 : Int)
            ++ List.replicate (bm.name.length - (off + c)) (-1 : Int) := by
        rw [← List.replicate_add]
        congr 1
        omega
      have hvolrest : ∀ q ∈ rest, dmem bm.nvertices q.1 = false →
          vol = some { volume_dimensions := bm.volume_shape, matrix := bm.affine } :=
        fun q hq hqd => hvol q (List.mem_cons_of_mem _ hq) hqd
      by_cases hd : dmem bm.nvertices s = true
      · -- surface run
        obtain ⟨v, hv⟩ := (dmem_eq_true_iff bm.nvertices s).mp hd
        have hmk : mkEntries bm off ((s, c) :: rest) =
            ({ index_offset := off
               index_count := (extract bm.name off (off + c)).length
               model_type := "CIFTI_MODEL_TYPE_SURFACE"
               brain_structure := s
               surface_number_of_vertices := dlookup bm.nvertices s
               voxel_indices_ijk := none
               vertex_indices := some (extract bm.vertex off (off + c)) } : BMEntry)
              :: mkEntries bm (off + c) rest := by
          show (if dmem bm.nvertices s then _ else _) :: _ = _
          rw [if_pos hd]
        have hstep : bmFoldStep vol st
            { index_offset := off
              index_count := (extract bm.name off (off + c)).length
              model_type := "CIFTI_MODEL_TYPE_SURFACE"
              brain_structure := s
              surface_number_of_vertices := dlookup bm.nvertices s
              voxel_indices_ijk := none
              vertex_indices := some (extract bm.vertex off (off + c)) }
            = .ok { st with
                name := st.name ++ List.replicate (extract bm.name off (off + c)).length s
                vertex := writeRange st.vertex off (extract bm.vertex off (off + c))
                nvertices := dset st.nvertices s ((dlookup bm.nvertices s).getD 0) } := rfl
        obtain ⟨fin, hfold, hname, hvox2, hvert2, hnd2, hlk2, hgeo2⟩ :=
          ih (off + c)
            { st with
              name := st.name ++ List.replicate (extract bm.name off (off + c)).length s
              vertex := writeRange st.vertex off (extract bm.vertex off (off + c))
              nvertices := dset st.nvertices s ((dlookup bm.nvertices s).getD 0) }
            (V ++ List.replicate c ((-1, -1, -1) : Vox))
            (W ++ extract bm.vertex off (off + c))
            (by omega) hvolrest
            (by
              show st.voxel = _
              rw [hsvox, hsplitV, List.append_assoc])
            (by simp [hVl])
            (by
              show writeRange st.vertex off (extract bm.vertex off (off + c)) = _
              rw [hsvert, writeRange_mid W off c (bm.name.length - off) _ _ hWl hvlen (by omega)]
              congr 1
              congr 1
              omega)
            (by simp [hWl, hvlen])
            (dkeys_dset_nodup _ _ _ hnd)
            hgeo
        refine ⟨fin, ?_, ?_, ?_, ?_, hnd2, ?_, ?_⟩
        · rw [hmk, List.foldlM_cons, hstep]
          exact hfold
        · rw [hname]
          show st.name ++ List.replicate (extract bm.name off (off + c)).length s ++ _ = _
          rw [hclen, List.append_assoc]
          simp only [List.map_cons, List.flatten_cons]
        · rw [hvox2]
          show _ = V ++ ((if dmem bm.nvertices s then _ else _) ++ rebuiltVoxel bm (off + c) rest)
          rw [if_pos hd, List.append_assoc]
        · rw [hvert2]
          show _ = W ++ ((if dmem bm.nvertices s then _ else _) ++ rebuiltVertex bm (off + c) rest)
          rw [if_pos hd, List.append_assoc]
        · intro k
          rw [hlk2 k]
          show _ = if ((s == k && dmem bm.nvertices s) || (rest.any fun q => q.1 == k && dmem bm.nvertices q.1)) = true then _ else _
          rcases hr : (rest.any fun q => q.1 == k && dmem bm.nvertices q.1) with _ | _
          · simp only [Bool.or_false, hd, Bool.and_true]
            show dlookup (dset st.nvertices s ((dlookup bm.nvertices s).getD 0)) k = _
            rw [dlookup_dset]
            by_cases hsk : (s == k) = true
            · rw [if_pos hsk, if_pos hsk]
              have hks : s = k := eq_of_beq hsk
              rw [← hks, hv]
              rfl
            · rw [if_neg hsk, if_neg (by simpa using hsk)]
          · simp
        · rcases hgeo2 with h2 | ⟨h2a, h2s, h2all⟩
          · exact Or.inl h2
          · refine Or.inr ⟨h2a, h2s, ?_⟩
            simp only [List.all_cons, hd, Bool.true_and]
            exact h2all
      · -- volumetric run
        have hdf : dmem bm.nvertices s = false := by simpa using hd
        have hvolq : vol = some { volume_dimensions := bm.volume_shape, matrix := bm.affine } :=
          hvol (s, c) (by simp) hdf
        have hmk : mkEntries bm off ((s, c) :: rest) =
            ({ index_offset := off
               index_count := (extract bm.name off (off + c)).length
               model_type := "CIFTI_MODEL_TYPE_VOXELS"
               brain_structure := s
               surface_number_of_vertices := none
               voxel_indices_ijk := some (extract bm.voxel off (off + c))
               vertex_indices := none } : BMEntry)
              :: mkEntries bm (off + c) rest := by
          show (if dmem bm.nvertices s then _ else _) :: _ = _
          rw [if_neg (by simp [hdf])]
        have hstep : bmFoldStep vol st
            { index_offset := off
              index_count := (extract bm.name off (off + c)).length
              model_type := "CIFTI_MODEL_TYPE_VOXELS"
              brain_structure := s
              surface_number_of_vertices := none
              voxel_indices_ijk := some (extract bm.voxel off (off + c))
              vertex_indices := none }
            = .ok { st with
                name := st.name ++ List.replicate (extract bm.name off (off + c)).length s
                voxel := writeRange st.voxel off (extract bm.voxel off (off + c))
                affine := bm.affine
                shape := bm.volume_shape } := by
          unfold bmFoldStep
          try dsimp only
          rw [show (("CIFTI_MODEL_TYPE_VOXELS" : String) ==
            "CIFTI_MODEL_TYPE_SURFACE") = false from by decide]
          rw [if_neg Bool.false_ne_true]
          try dsimp only
          rcases hsa : st.affine with _ | aff
          · rw [hvolq]
            rfl
          · have haff : bm.affine = some aff := by
              rcases hgeo with ⟨ha, _⟩ | ⟨ha, _⟩
              · rw [← ha]
                exact hsa
              · rw [hsa] at ha
                exact Option.noConfusion ha
            have hshp2 : st.shape = bm.volume_shape := by
              rcases hgeo with ⟨_, hsh⟩ | ⟨ha, _⟩
              · exact hsh
              · rw [hsa] at ha
                exact Option.noConfusion ha
            rw [hvolq]
            try dsimp only
            rw [hshp2, bne_self_eq_false, if_neg Bool.false_ne_true, haff]
            simp only [Option.getD_some]
            rw [neqAny_self, if_neg Bool.false_ne_true]
        obtain ⟨fin, hfold, hname, hvox2, hvert2, hnd2, hlk2, hgeo2⟩ :=
          ih (off + c)
            { st with
              name := st.name ++ List.replicate (extract bm.name off (off + c)).length s
              voxel := writeRange st.voxel off (extract bm.voxel off (off + c))
              affine := bm.affine
              shape := bm.volume_shape }
            (V ++ extract bm.voxel off (off + c))
            (W ++ List.replicate c (-1 : Int))
            (by omega) hvolrest
            (by
              show writeRange st.voxel off (extract bm.voxel off (off + c)) = _
              rw [hsvox, writeRange_mid V off c (bm.name.length - off) _ _ hVl hxlen (by omega)]
              congr 1
              congr 1
              omega)
            (by simp [hVl, hxlen])
            (by
              show st.vertex = _
              rw [hsvert, hsplitW, List.append_assoc])
            (by simp [hWl])
            hnd
            (Or.inl ⟨rfl, rfl⟩)
        refine ⟨fin, ?_, ?_, ?_, ?_, hnd2, ?_, ?_⟩
        · rw [hmk, List.foldlM_cons, hstep]
          exact hfold
        · rw [hname]
          show st.name ++ List.replicate (extract bm.name off (off + c)).length s ++ _ = _
          rw [hclen, List.append_assoc]
          simp only [List.map_cons, List.flatten_cons]
        · rw [hvox2]
          show _ = V ++ ((if dmem bm.nvertices s then _ else _) ++ rebuiltVoxel bm (off + c) rest)
          rw [if_neg (by simp [hdf]), List.append_assoc]
        · rw [hvert2]
          show _ = W ++ ((if dmem bm.nvertices s then _ else _) ++ rebuiltVertex bm (off + c) rest)
          rw [if_neg (by simp [hdf]), List.append_assoc]
        · intro k
          rw [hlk2 k]
          show _ = if ((s == k && dmem bm.nvertices s) || (rest.any fun q => q.1 == k && dmem bm.nvertices q.1)) = true then _ else _
          rw [hdf, Bool.and_false, Bool.false_or]
        · rcases hgeo2 with h2 | ⟨h2a, h2s, _⟩
          · exact Or.inl h2
          · exact Or.inl ⟨h2a, h2s⟩

theorem withOffsets_any (p : String → Bool) : ∀ (runs : List (String × Nat)) (off : Nat),
    ((withOffsets off runs).any fun r => p r.1) = (runs.any fun q => p q.1) := by
  intro runs
  induction runs with
  | nil => intro off; rfl
  | cons q rest ih =>
      intro off
      obtain ⟨s, c⟩ := q
      simp only [withOffsets, List.any_cons]
      rw [ih (off + c)]

theorem rle_mem_names (l : List String) (q : String × Nat) (hq : q ∈ rle l) : q.1 ∈ l := by
  have hany : ((rle l).any fun r => r.1 == q.1) = true :=
    List.any_eq_true.mpr ⟨q, hq, by simp⟩
  rw [rle_names_any (fun s => s == q.1) l] at hany
  obtain ⟨s, hs, hbeq⟩ := List.any_eq_true.mp hany
  have : s = q.1 := eq_of_beq hbeq
  subst this
  exact hs

theorem tol_pos : (0 : ℚ) < tol := by
  norm_num [tol]

theorem brainModelBeq_of_parts (r bm : BrainModel)
    (h1 : r.name = bm.name)
    (h2 : (r.affine = none ∧ bm.affine = none) ∨
      (r.affine = bm.affine ∧ r.volume_shape = bm.volume_shape))
    (h3 : (dkeys r.nvertices).Nodup) (h4 : (dkeys bm.nvertices).Nodup)
    (h5 : ∀ k, dlookup r.nvertices k = dlookup bm.nvertices k)
    (h6 : maskNot r.isSurfList r.voxel = maskNot bm.isSurfList bm.voxel)
    (h7 : maskNot r.isSurfList r.vertex = maskNot bm.isSurfList bm.vertex) :
    brainModelBeq r bm = true := by
  unfold brainModelBeq
  have hlen : (r.name.length != bm.name.length) = false := by simp [h1]
  rw [hlen, if_neg Bool.false_ne_true]
  have hxor : (Bool.xor r.affine.isNone bm.affine.isNone) = false := by
    rcases h2 with ⟨ha, hb⟩ | ⟨ha, _⟩
    · rw [ha, hb]
      rfl
    · rw [ha]
      exact Bool.xor_self _
  rw [hxor, if_neg Bool.false_ne_true]
  simp only [Bool.and_eq_true]
  refine ⟨⟨⟨⟨?_, ?_⟩, ?_⟩, ?_⟩, ?_⟩
  · rcases h2 with ⟨ha, hb⟩ | ⟨ha, hs⟩
    · rw [ha, hb]
      rfl
    · rcases hba : bm.affine with _ | a
      · rw [ha, hba]
        rfl
      · rw [ha, hba]
        have hdec : decide (maxAbsDiff a a < tol) = true := by
          rw [maxAbsDiff_self]
          exact decide_eq_true tol_pos
        simp [hdec, hs]
  · exact dictBeq_of_lookup_eq _ _ h3 h4 h5
  · simp [h1]
  · simp [h6]
  · simp [h7]

theorem brainModel_roundtrip_aux (bm : BrainModel) (dim : Nat) (hv : bm.Valid)
    (hsent : ∀ p ∈ bm.isSurfList.zip bm.vertex, p.1 = false → p.2 = (-1 : Int)) :
    ∃ r, BrainModel.from_mapping (bm.to_mapping dim) = .ok r ∧ brainModelBeq r bm = true := by
  obtain ⟨hne, hvxl, hvtl, hvocab, hkeys, hnds, hsurfpos, hvoxpos, haff16, hshp3, hpure⟩ := hv
  have hjoin := rle_join bm.name
  have hsum := rle_sum bm.name
  have hcnts : ((mkEntries bm 0 (rle bm.name)).map (·.index_count)).sum = bm.name.length := by
    rw [mkEntries_counts bm (rle bm.name) 0 (by rw [Nat.zero_add, hsum])]
    exact hsum
  have hvol0 : (bm.to_mapping dim).volume =
      (if ((iterRunsNames bm.name).any fun r => !(dmem bm.nvertices r.1)) then
        some { volume_dimensions := bm.volume_shape, matrix := bm.affine } else none) := rfl
  have hvolH : ∀ q ∈ rle bm.name, dmem bm.nvertices q.1 = false →
      (bm.to_mapping dim).volume =
        some { volume_dimensions := bm.volume_shape, matrix := bm.affine } := by
    intro q hq hqd
    have hcond : ((iterRunsNames bm.name).any fun r => !(dmem bm.nvertices r.1)) = true := by
      rw [iterRunsNames_eq_rle, withOffsets_any (fun s => !(dmem bm.nvertices s))]
      exact List.any_eq_true.mpr ⟨q, hq, by rw [hqd]; rfl⟩
    rw [hvol0, if_pos hcond]
  obtain ⟨fin, hfold, hname0, hvox0, hvert0, hndf, hlkf, hgeof⟩ :=
    bmFold_mkEntries bm ((bm.to_mapping dim).volume) hvtl hvxl (rle bm.name) 0
      { voxel := List.replicate (((mkEntries bm 0 (rle bm.name)).map (·.index_count)).sum)
          ((-1, -1, -1) : Vox)
        vertex := List.replicate (((mkEntries bm 0 (rle bm.name)).map (·.index_count)).sum)
          (-1 : Int)
        name := [], nvertices := [], affine := none, shape := none }
      [] []
      (by rw [Nat.zero_add]; exact hsum)
      hvolH
      (by
        show List.replicate (((mkEntries bm 0 (rle bm.name)).map (·.index_count)).sum) _ = _
        rw [hcnts]
        simp)
      rfl
      (by
        show List.replicate (((mkEntries bm 0 (rle bm.name)).map (·.index_count)).sum) _ = _
        rw [hcnts]
        simp)
      rfl
      (by simp [dkeys])
      (Or.inr ⟨rfl, rfl⟩)
  have hfname : fin.name = bm.name := by
    rw [hname0, List.nil_append, hjoin]
  have hfvox : fin.voxel = rebuiltVoxel bm 0 (rle bm.name) := by
    rw [hvox0, List.nil_append]
  have hfvert : fin.vertex = rebuiltVertex bm 0 (rle bm.name) := by
    rw [hvert0, List.nil_append]
  have hflk : ∀ k, dlookup fin.nvertices k = dlookup bm.nvertices k := by
    intro k
    rw [hlkf k]
    rcases hbk : dmem bm.nvertices k with _ | _
    · have hcond : ((rle bm.name).any fun q => q.1 == k && dmem bm.nvertices q.1) = false := by
        rw [List.any_eq_false]
        intro q hq hpq
        simp only [Bool.and_eq_true] at hpq
        have hq1 : q.1 = k := eq_of_beq hpq.1
        rw [hq1] at hpq
        rw [hpq.2] at hbk
        exact Bool.noConfusion hbk
      rw [hcond, if_neg Bool.false_ne_true]
      rw [(dmem_eq_false_iff bm.nvertices k).mp hbk]
      rfl
    · have hcond : ((rle bm.name).any fun q => q.1 == k && dmem bm.nvertices q.1) = true := by
        rw [rle_names_any (fun s => s == k && dmem bm.nvertices s) bm.name]
        have hknm : k ∈ bm.name := hkeys k ((dmem_iff_mem_dkeys _ _).mp hbk)
        exact List.any_eq_true.mpr ⟨k, hknm, by simp [hbk]⟩
      rw [hcond, if_pos rfl]
  have hfdmem : ∀ k, dmem fin.nvertices k = dmem bm.nvertices k :=
    fun k => dmem_eq_of_lookup_eq _ _ _ (hflk k)
  have hfilter : fin.nvertices.filter (fun p => fin.name.contains p.1) = fin.nvertices := by
    rw [List.filter_eq_self]
    intro p hp
    have h1 : dmem fin.nvertices p.1 = true :=
      dmem_of_key_mem _ _ (List.mem_map.mpr ⟨p, hp, rfl⟩)
    have h2 : p.1 ∈ bm.name :=
      hkeys p.1 ((dmem_iff_mem_dkeys _ _).mp (by rw [← hfdmem p.1]; exact h1))
    show fin.name.contains p.1 = true
    rw [hfname]
    exact List.elem_iff.mpr h2
  have hRsurf : fin.name.map (fun n => dmem fin.nvertices n) = bm.isSurfList := by
    rw [hfname]
    exact List.map_congr_left (fun n _ => hfdmem n)
  have hmaskfin : fin.name.map (fun n =>
      dmem (fin.nvertices.filter (fun p => fin.name.contains p.1)) n) = bm.isSurfList := by
    rw [hfilter]
    exact hRsurf
  have hrvoxlen : (rebuiltVoxel bm 0 (rle bm.name)).length = bm.name.length := by
    rw [rebuiltVoxel_length bm (rle bm.name) 0 (by rw [Nat.zero_add, hsum, hvxl])]
    exact hsum
  have hrvertlen : (rebuiltVertex bm 0 (rle bm.name)).length = bm.name.length := by
    rw [rebuiltVertex_length bm (rle bm.name) 0 (by rw [Nat.zero_add, hsum, hvtl])]
    exact hsum
  have hvoxmask0 : maskNot bm.isSurfList (rebuiltVoxel bm 0 (rle bm.name))
      = maskNot bm.isSurfList bm.voxel := by
    have h := rebuiltVoxel_maskNot bm hvxl (rle bm.name) 0
      (by rw [List.drop_zero]; exact hjoin.symm)
      (by rw [Nat.zero_add]; exact hsum)
    simpa using h
  have hvertmask0 := rebuiltVertex_masks bm hvtl (rle bm.name) 0
    (by rw [List.drop_zero]; exact hjoin.symm)
    (by rw [Nat.zero_add]; exact hsum)
    (fun p hp hpf => hsent p (by simpa using hp) hpf)
  have hvertSel0 : maskSel bm.isSurfList (rebuiltVertex bm 0 (rle bm.name))
      = maskSel bm.isSurfList bm.vertex := by
    have h := hvertmask0.1
    simpa using h
  have hvertNot0 : maskNot bm.isSurfList (rebuiltVertex bm 0 (rle bm.name))
      = maskNot bm.isSurfList bm.vertex := by
    have h := hvertmask0.2
    simpa using h
  have hsvOK : (maskSel (fin.name.map (fun n =>
      dmem (fin.nvertices.filter (fun p => fin.name.contains p.1)) n)) fin.vertex).any
      (fun v => v < 0) = false := by
    rw [hmaskfin, hfvert, hvertSel0]
    rw [List.any_eq_false]
    intro v hvm hdec
    obtain ⟨a, ha, hfa⟩ := List.mem_filterMap.mp hvm
    by_cases hb : a.1 = true
    · rw [if_pos hb] at hfa
      injection hfa with hfa2
      subst hfa2
      have h0le := hsurfpos a ha hb
      have hlt := of_decide_eq_true hdec
      omega
    · rw [if_neg hb] at hfa
      exact Option.noConfusion hfa
  have hsxOK : (maskNot (fin.name.map (fun n =>
      dmem (fin.nvertices.filter (fun p => fin.name.contains p.1)) n)) fin.voxel).any
      (fun p => p.1 < 0 || p.2.1 < 0 || p.2.2 < 0) = false := by
    rw [hmaskfin, hfvox, hvoxmask0]
    rw [List.any_eq_false]
    intro v hvm hdec
    obtain ⟨a, ha, hfa⟩ := List.mem_filterMap.mp hvm
    by_cases hb : a.1 = true
    · rw [if_pos hb] at hfa
      exact Option.noConfusion hfa
    · rw [if_neg hb] at hfa
      injection hfa with hfa2
      subst hfa2
      have h0le := hvoxpos a ha (by simpa using hb)
      simp only [Bool.or_eq_true, decide_eq_true_eq] at hdec
      rcases hdec with (h | h) | h <;> omega
  have hmkok := mkChecked_ok fin.name fin.voxel fin.vertex fin.affine fin.shape fin.nvertices
    (by rw [hfname]; exact hne)
    (by rw [hfvox, hfname]; exact hrvoxlen)
    (by rw [hfvert, hfname]; exact hrvertlen)
    (fun _ => by
      rcases hgeof with ⟨ga, gs⟩ | ⟨ga, gs, _⟩
      · rw [ga, gs]
        exact ⟨haff16, hshp3⟩
      · rw [ga, gs]
        exact ⟨rfl, rfl⟩)
    hsvOK hsxOK
  have hfm : BrainModel.from_mapping (bm.to_mapping dim) =
      BrainModel.mkChecked fin.name fin.voxel fin.vertex fin.affine fin.shape fin.nvertices := by
    unfold BrainModel.from_mapping
    try dsimp only
    rw [to_mapping_brain_models, hfold]
    show BrainModel.init (.inr fin.name) (some fin.voxel) (some fin.vertex)
      fin.affine fin.shape (some fin.nvertices) = _
    unfold BrainModel.init
    try dsimp only
    rw [mapM_toCiftiName_canonical fin.name (by rw [hfname]; exact hvocab)]
  rw [hmaskfin, hfilter] at hmkok
  rcases hallcase : (bm.isSurfList.all fun b => b) with _ | _
  · -- not pure-surface
    have hgeoinl : fin.affine = bm.affine ∧ fin.shape = bm.volume_shape := by
      rcases hgeof with h | ⟨ga, gs, gall⟩
      · exact h
      · rw [rle_names_all (fun s => dmem bm.nvertices s) bm.name] at gall
        have hall2 : (bm.isSurfList.all fun b => b) = true := by
          have hisl : bm.isSurfList = bm.name.map (fun n => dmem bm.nvertices n) := rfl
          rw [hisl]
          refine List.all_eq_true.mpr ?_
          intro b hb
          obtain ⟨n, hn, hfn⟩ := List.mem_map.mp hb
          show b = true
          rw [← hfn]
          exact List.all_eq_true.mp gall n hn
        rw [hallcase] at hall2
        exact Bool.noConfusion hall2
    rw [hallcase] at hmkok
    rw [if_neg Bool.false_ne_true, if_neg Bool.false_ne_true] at hmkok
    refine ⟨_, hfm.trans hmkok, ?_⟩
    apply brainModelBeq_of_parts
    · exact hfname
    · rcases hba : bm.affine with _ | a
      · refine Or.inl ⟨?_, rfl⟩
        show fin.affine = none
        rw [hgeoinl.1, hba]
      · refine Or.inr ⟨?_, ?_⟩
        · show fin.affine = some a
          rw [hgeoinl.1]
          exact hba
        · show fin.shape = bm.volume_shape
          exact hgeoinl.2
    · exact hndf
    · exact hnds
    · exact hflk
    · show maskNot ((fin.name.map fun n => dmem fin.nvertices n)) fin.voxel = _
      rw [hRsurf, hfvox, hvoxmask0]
    · show maskNot ((fin.name.map fun n => dmem fin.nvertices n)) fin.vertex = _
      rw [hRsurf, hfvert, hvertNot0]
  · -- pure surface
    have hpureAll : ∀ b ∈ bm.isSurfList, b = true := by
      intro b hb
      exact List.all_eq_true.mp hallcase b hb
    obtain ⟨hba, hbs⟩ := hpure hpureAll
    rw [hallcase] at hmkok
    rw [if_pos rfl, if_pos rfl] at hmkok
    refine ⟨_, hfm.trans hmkok, ?_⟩
    apply brainModelBeq_of_parts
    · exact hfname
    · exact Or.inl ⟨rfl, hba⟩
    · exact hndf
    · exact hnds
    · exact hflk
    · show maskNot ((fin.name.map fun n => dmem fin.nvertices n)) fin.voxel = _
      rw [hRsurf, hfvox, hvoxmask0]
    · show maskNot ((fin.name.map fun n => dmem fin.nvertices n)) fin.vertex = _
      rw [hRsurf, hfvert, hvertNot0]

theorem mem_zip_self : ∀ (l : List α) (p : α × α), p ∈ l.zip l → p.1 = p.2 ∧ p.1 ∈ l := by
  intro l
  induction l with
  | nil => intro p hp; cases hp
  | cons x t ih =>
      intro p hp
      rw [List.zip_cons_cons] at hp
      rcases List.mem_cons.mp hp with h | h
      · subst h
        exact ⟨rfl, by simp⟩
      · obtain ⟨h1, h2⟩ := ih p h
        exact ⟨h1, by simp [h2]⟩

theorem series_roundtrip_aux (s : Series) (dim : Nat) (hv : s.Valid) :
    ∃ r, Series.from_mapping (s.to_mapping dim) = .ok r ∧ seriesBeq r s = true := by
  have hm2 : s.unit ∈ seriesUnits := hv
  have hunit : upperStr s.unit = s.unit := by
    have hm : s.unit ∈ seriesUnits := hv
    simp only [seriesUnits, List.mem_cons, List.not_mem_nil, or_false] at hm
    rcases hm with h | h | h | h <;> rw [h] <;> decide
  have hp : pow10 0 = 1 := by
    simp [pow10]
  have h0 : Series.from_mapping (s.to_mapping dim) =
      Series.init (s.start * pow10 0) (s.step * pow10 0) s.size s.unit := rfl
  have hinit : Series.init (s.start * pow10 0) (s.step * pow10 0) s.size s.unit =
      .ok { start := s.start * pow10 0, step := s.step * pow10 0, size := s.size,
            unit := s.unit } := by
    unfold Series.init
    rw [hunit, if_pos hm2]
  refine ⟨_, h0.trans hinit, ?_⟩
  simp [seriesBeq, hp, mul_one]

theorem scalar_roundtrip_aux (sc : Scalar) (dim : Nat) (hv : sc.Valid) :
    ∃ r, Scalar.from_mapping (sc.to_mapping dim) = .ok r ∧ scalarBeq r sc = true := by
  obtain ⟨hlen, hndrows⟩ := hv
  have hnames : (((sc.name.zip sc.meta).map (fun p =>
      ({ map_name := p.1
         metadata := if p.2.length == 0 then none else some p.2
         label_table := [] } : NamedMapE))).map (·.map_name)) = sc.name := by
    rw [List.map_map]
    exact List.map_fst_zip _ _ (by omega)
  have hmetas : (((sc.name.zip sc.meta).map (fun p =>
      ({ map_name := p.1
         metadata := if p.2.length == 0 then none else some p.2
         label_table := [] } : NamedMapE))).map (fun nm => nm.metadata.getD [])) = sc.meta := by
    rw [List.map_map]
    have h1 : ∀ p ∈ sc.name.zip sc.meta,
        ((fun nm : NamedMapE => nm.metadata.getD []) ∘ (fun p =>
          ({ map_name := p.1
             metadata := if p.2.length == 0 then none else some p.2
             label_table := [] } : NamedMapE))) p = p.2 := by
      intro p _
      show (if p.2.length == 0 then (none : Option (List (String × String)))
        else some p.2).getD [] = p.2
      by_cases h : p.2.length = 0
      · rw [if_pos (by simpa using h)]
        rw [List.length_eq_zero] at h
        rw [h]
        rfl
      · rw [if_neg (by simpa using h)]
        rfl
    rw [List.map_congr_left h1]
    exact List.map_snd_zip _ _ (by omega)
  have h0 : Scalar.from_mapping (sc.to_mapping dim) =
      Scalar.init (((sc.name.zip sc.meta).map (fun p =>
        ({ map_name := p.1
           metadata := if p.2.length == 0 then none else some p.2
           label_table := [] } : NamedMapE))).map (·.map_name))
        (some (((sc.name.zip sc.meta).map (fun p =>
          ({ map_name := p.1
             metadata := if p.2.length == 0 then none else some p.2
             label_table := [] } : NamedMapE))).map (fun nm => nm.metadata.getD []))) := rfl
  rw [h0, hnames, hmetas]
  have hinit : Scalar.init sc.name (some sc.meta) = .ok sc := by
    unfold Scalar.init
    try dsimp only
    rw [if_pos hlen]
  refine ⟨sc, hinit, ?_⟩
  unfold scalarBeq
  simp only [Bool.and_eq_true, beq_self_eq_true, List.all_eq_true, true_and, and_true]
  intro p hp
  obtain ⟨h1, h2⟩ := mem_zip_self _ _ hp
  rw [← h1]
  exact dictBeq_self _ (hndrows p.1 h2)

theorem label_roundtrip_aux (lb : Label) (dim : Nat) (hv : lb.Valid) :
    ∃ r, Label.from_mapping (lb.to_mapping dim) = .ok r ∧ labelBeq r lb = true := by
  obtain ⟨hl, hm, hmnd, hlnd⟩ := hv
  have hzl : (lb.label.zip lb.meta).length = lb.name.length := by
    rw [List.length_zip, hl, hm, Nat.min_self]
  have hnames : ((lb.to_mapping dim).named_maps.map (·.map_name)) = lb.name := by
    show (((lb.name.zip (lb.label.zip lb.meta)).map (fun p =>
      ({ map_name := p.1
         metadata := if p.2.2.length == 0 then none else some p.2.2
         label_table := p.2.1 } : NamedMapE))).map (·.map_name)) = lb.name
    rw [List.map_map]
    exact List.map_fst_zip _ _ (le_of_eq hzl.symm)
  have hmetas : ((lb.to_mapping dim).named_maps.map (fun nm => nm.metadata.getD [])) =
      lb.meta := by
    show (((lb.name.zip (lb.label.zip lb.meta)).map (fun p =>
      ({ map_name := p.1
         metadata := if p.2.2.length == 0 then none else some p.2.2
         label_table := p.2.1 } : NamedMapE))).map (fun nm => nm.metadata.getD [])) = lb.meta
    rw [List.map_map]
    have h1 : ∀ p ∈ lb.name.zip (lb.label.zip lb.meta),
        ((fun nm : NamedMapE => nm.metadata.getD []) ∘ (fun p =>
          ({ map_name := p.1
             metadata := if p.2.2.length == 0 then none else some p.2.2
             label_table := p.2.1 } : NamedMapE))) p = p.2.2 := by
      intro p _
      show (if p.2.2.length == 0 then (none : Option (List (String × String)))
        else some p.2.2).getD [] = p.2.2
      by_cases h : p.2.2.length = 0
      · rw [if_pos (by simpa using h)]
        rw [List.length_eq_zero] at h
        rw [h]
        rfl
      · rw [if_neg (by simpa using h)]
        rfl
    rw [List.map_congr_left h1]
    have h2 : List.map (fun p : String × (List (Int × (String × Rgba)) ×
        List (String × String)) => p.2.2) (lb.name.zip (lb.label.zip lb.meta)) =
        List.map Prod.snd (List.map Prod.snd (lb.name.zip (lb.label.zip lb.meta))) := by
      rw [List.map_map]
      rfl
    rw [h2, List.map_snd_zip _ _ (le_of_eq hzl), List.map_snd_zip _ _ (by omega)]
  have htables : ((lb.to_mapping dim).named_maps.map (fun nm => nm.label_table)) =
      lb.label := by
    show (((lb.name.zip (lb.label.zip lb.meta)).map (fun p =>
      ({ map_name := p.1
         metadata := if p.2.2.length == 0 then none else some p.2.2
         label_table := p.2.1 } : NamedMapE))).map (fun nm => nm.label_table)) = lb.label
    rw [List.map_map]
    have h2 : List.map ((fun nm : NamedMapE => nm.label_table) ∘ (fun p =>
      ({ map_name := p.1
         metadata := if p.2.2.length == 0 then none else some p.2.2
         label_table := p.2.1 } : NamedMapE))) (lb.name.zip (lb.label.zip lb.meta)) =
        List.map Prod.fst (List.map Prod.snd (lb.name.zip (lb.label.zip lb.meta))) := by
      rw [List.map_map]
      rfl
    rw [h2, List.map_snd_zip _ _ (le_of_eq hzl), List.map_fst_zip _ _ (by omega)]
  have hsc : Scalar.from_mapping (lb.to_mapping dim) =
      .ok { name := lb.name, meta := lb.meta } := by
    have h0 : Scalar.from_mapping (lb.to_mapping dim) =
        Scalar.init ((lb.to_mapping dim).named_maps.map (·.map_name))
          (some ((lb.to_mapping dim).named_maps.map (fun nm => nm.metadata.getD []))) := rfl
    rw [h0, hnames, hmetas]
    unfold Scalar.init
    try dsimp only
    rw [if_pos hm]
  have h0 : Label.from_mapping (lb.to_mapping dim) =
      (match Scalar.from_mapping (lb.to_mapping dim) with
       | .error e => .error e
       | .ok sc => sc.to_label
           (.per ((lb.to_mapping dim).named_maps.map (fun nm => nm.label_table)))) := rfl
  rw [h0, hsc, htables]
  try dsimp only
  have hinit : ({ name := lb.name, meta := lb.meta } : Scalar).to_label (.per lb.label) =
      .ok { name := lb.name, label := lb.label, meta := lb.meta } := by
    unfold Scalar.to_label Label.init
    try dsimp only
    rw [if_pos ⟨hl, hm⟩]
  rw [hinit]
  refine ⟨_, rfl, ?_⟩
  show labelBeq lb lb = true
  unfold labelBeq
  simp only [Bool.and_eq_true, beq_self_eq_true, List.all_eq_true, true_and, and_true]
  constructor <;> intro p hp <;> obtain ⟨h1, h2⟩ := mem_zip_self _ _ hp <;> rw [← h1]
  · exact dictBeq_self _ (hmnd p.1 h2)
  · exact dictBeq_self _ (hlnd p.1 h2)

theorem vertRowBeq_self (row : List (String × List Int)) (hnd : (dkeys row).Nodup)
    (hrows : ∀ e ∈ row, e.2 ≠ []) : vertRowBeq row row = true := by
  unfold vertRowBeq
  rw [bne_self_eq_false, if_neg Bool.false_ne_true]
  refine List.all_eq_true.mpr ?_
  intro e he
  have hdm : dmem row e.1 = true :=
    (dmem_iff_mem_dkeys row e.1).mpr (List.mem_map.mpr ⟨e, he, rfl⟩)
  have hlk : dlookup row e.1 = some e.2 :=
    dlookup_of_mem_nodup row e.1 e.2 (by rw [show ((e.1, e.2) : String × List Int) = e from rfl]; exact he) hnd
  rw [hdm, hlk]
  show (true && !neqAll e.2 ((some e.2).getD [])) = true
  rw [Option.getD_some, neqAll_self_ne_nil e.2 (hrows e he)]
  rfl

theorem parcelsBeq_of_parts (r p : Parcels)
    (h1 : r.name = p.name) (hne : p.name ≠ [])
    (h2 : r.nvertices = p.nvertices) (hnvnd : (dkeys p.nvertices).Nodup)
    (h3 : r.voxels = p.voxels)
    (h4 : r.vertices = p.vertices)
    (hvertnd : ∀ row ∈ p.vertices, (dkeys row).Nodup)
    (hrows : ∀ row ∈ p.vertices, ∀ e ∈ row, e.2 ≠ [])
    (hgeo : (match r.affine, p.affine with
             | some x, some y =>
                 decide (tol < maxAbsDiff x y) || r.volume_shape != p.volume_shape
             | some _, none => true
             | none, some _ => true
             | none, none => false) = false) :
    parcelsBeq r p = true := by
  unfold parcelsBeq
  rw [h1, h2, h3, h4]
  rw [bne_self_eq_false, if_neg Bool.false_ne_true]
  rw [neqAll_self_ne_nil p.name hne, if_neg Bool.false_ne_true]
  rw [dictBeq_self p.nvertices hnvnd]
  simp only [Bool.not_true]
  rw [if_neg Bool.false_ne_true]
  have hvox : ((p.voxels.zip p.voxels).any (fun q => voxNeqAny q.1 q.2)) = false := by
    refine List.any_eq_false.mpr ?_
    intro q hq
    obtain ⟨he, _⟩ := mem_zip_self _ _ hq
    rw [he, voxNeqAny_self]
    exact Bool.false_ne_true
  rw [hvox, if_neg Bool.false_ne_true]
  rw [hgeo, if_neg Bool.false_ne_true]
  refine List.all_eq_true.mpr ?_
  intro q hq
  obtain ⟨he, hm⟩ := mem_zip_self _ _ hq
  rw [he]
  have hm2 : q.2 ∈ p.vertices := he ▸ hm
  exact vertRowBeq_self q.2 (hvertnd q.2 hm2) (hrows q.2 hm2)

theorem foldlM_dset_check (nv : List (String × Int)) :
    ∀ (row acc : List (String × List Int)),
      (∀ e ∈ row, dmem nv e.1 = true) →
      (dkeys (acc ++ row)).Nodup →
      row.foldlM (fun d e =>
        if !(dmem nv e.1) then
          (Except.error "Number of vertices for surface structure not defined" :
            Except String (List (String × List Int)))
        else Except.ok (dset d e.1 e.2)) acc = .ok (acc ++ row) := by
  intro row
  induction row with
  | nil =>
      intro acc _ _
      simp only [List.foldlM_nil, List.append_nil]
      rfl
  | cons e t ih =>
      intro acc hmem hnd
      have hd : dmem nv e.1 = true := hmem e (by simp)
      have hnotin : e.1 ∉ dkeys acc := by
        intro hm
        simp only [dkeys, List.map_append, List.map_cons, List.nodup_append] at hnd
        exact hnd.2.2 hm (by simp)
      have hdm : dmem acc e.1 = false := by
        rcases hdm2 : dmem acc e.1 with _ | _
        · rfl
        · exact absurd ((dmem_iff_mem_dkeys acc e.1).mp hdm2) hnotin
      have hcond : (!(dmem nv e.1)) = false := by rw [hd]; rfl
      rw [List.foldlM_cons]
      try dsimp only
      rw [hcond, if_neg Bool.false_ne_true]
      rw [dset_not_mem acc e.1 e.2 hdm]
      rw [show ((e.1, e.2) : String × List Int) = e from rfl]
      rw [show acc ++ e :: t = (acc ++ [e]) ++ t from by simp]
      exact ih (acc ++ [e]) (fun x hx => hmem x (by simp [hx]))
        (by rw [show (acc ++ [e]) ++ t = acc ++ e :: t from by simp]; exact hnd)

theorem parcelsFold_aux (nv : List (String × Int)) :
    ∀ (l : List (String × List Vox × List (String × List Int)))
      (acc : List String × List (List Vox) × List (List (String × List Int))),
      (∀ q ∈ l, (∀ e ∈ q.2.2, dmem nv e.1 = true) ∧ (dkeys q.2.2).Nodup) →
      ((l.map (fun q => ({ name := q.1
                           voxel_indices_ijk := some q.2.1
                           vertices := q.2.2 } : ParcelE))).foldlM
        (fun (acc : List String × List (List Vox) × List (List (String × List Int))) parcel =>
          let voxels : List Vox := match parcel.voxel_indices_ijk with
            | none => [] | some l => l
          (match parcel.vertices.foldlM (fun d e =>
              if !(dmem nv e.1) then
                Except.error "Number of vertices for surface structure not defined"
              else Except.ok (dset d e.1 e.2)) ([] : List (String × List Int)) with
          | .error e => .error e
          | .ok verts => .ok (acc.1 ++ [parcel.name], acc.2.1 ++ [voxels], acc.2.2 ++ [verts]) :
            Except String (List String × List (List Vox) ×
              List (List (String × List Int))))) acc)
      = .ok (acc.1 ++ l.map (fun q => q.1), acc.2.1 ++ l.map (fun q => q.2.1),
             acc.2.2 ++ l.map (fun q => q.2.2)) := by
  intro l
  induction l with
  | nil =>
      intro acc _
      obtain ⟨a1, a2, a3⟩ := acc
      simp only [List.map_nil, List.foldlM_nil, List.append_nil]
      rfl
  | cons q t ih =>
      intro acc hq
      obtain ⟨hqmem, hqnd⟩ := hq q (by simp)
      have hinner := foldlM_dset_check nv q.2.2 [] hqmem (by simpa using hqnd)
      rw [List.map_cons, List.foldlM_cons]
      dsimp only
      rw [hinner]
      dsimp only
      simp only [List.nil_append]
      have hih := ih (acc.1 ++ [q.1], acc.2.1 ++ [q.2.1], acc.2.2 ++ [q.2.2])
        (fun x hx => hq x (by simp [hx]))
      exact hih.trans (by simp)

theorem parcels_roundtrip_aux (p : Parcels) (dim : Nat) (hv : p.Valid)
    (hne : p.name ≠ [])
    (hkeys : ∀ row ∈ p.vertices, ∀ e ∈ row, dmem p.nvertices e.1 = true)
    (hrows : ∀ row ∈ p.vertices, ∀ e ∈ row, e.2 ≠ []) :
    ∃ r, Parcels.from_mapping (p.to_mapping dim) = .ok r ∧ parcelsBeq r p = true := by
  obtain ⟨hvl, hvtl, hnvnd, hvertnd, haff, hshp⟩ := hv
  have hzl : (p.voxels.zip p.vertices).length = p.name.length := by
    rw [List.length_zip, hvl, hvtl, Nat.min_self]
  have hsurf : (p.to_mapping dim).surfaces = p.nvertices.map (fun e =>
      ({ brain_structure := e.1
         surface_number_of_vertices := e.2 } : SurfaceE)) := rfl
  have hnvf : ((p.nvertices.map (fun e =>
      ({ brain_structure := e.1
         surface_number_of_vertices := e.2 } : SurfaceE))).foldl
      (fun d s => dset d s.brain_structure s.surface_number_of_vertices) []) = p.nvertices := by
    rw [List.foldl_map]
    exact foldl_dset_rebuild p.nvertices [] (by simpa using hnvnd)
  have hpars : (p.to_mapping dim).parcels =
      (p.name.zip (p.voxels.zip p.vertices)).map (fun q =>
        ({ name := q.1
           voxel_indices_ijk := some q.2.1
           vertices := q.2.2 } : ParcelE)) := rfl
  have hqmem : ∀ q ∈ p.name.zip (p.voxels.zip p.vertices), q.2.2 ∈ p.vertices := by
    intro q hqm
    exact (List.of_mem_zip (List.of_mem_zip hqm).2).2
  have hfold := parcelsFold_aux p.nvertices (p.name.zip (p.voxels.zip p.vertices))
    ([], [], []) (fun q hq =>
      ⟨hkeys q.2.2 (hqmem q hq), hvertnd q.2.2 (hqmem q hq)⟩)
  have hmfst : (p.name.zip (p.voxels.zip p.vertices)).map (fun q => q.1) = p.name :=
    List.map_fst_zip _ _ (le_of_eq hzl.symm)
  have hmvox : (p.name.zip (p.voxels.zip p.vertices)).map (fun q => q.2.1) = p.voxels := by
    have h2 : List.map (fun q : String × List Vox × List (String × List Int) => q.2.1)
        (p.name.zip (p.voxels.zip p.vertices)) =
        List.map Prod.fst (List.map Prod.snd (p.name.zip (p.voxels.zip p.vertices))) := by
      rw [List.map_map]
      rfl
    rw [h2, List.map_snd_zip _ _ (le_of_eq hzl), List.map_fst_zip _ _ (by omega)]
  have hmvert : (p.name.zip (p.voxels.zip p.vertices)).map (fun q => q.2.2) = p.vertices := by
    have h2 : List.map (fun q : String × List Vox × List (String × List Int) => q.2.2)
        (p.name.zip (p.voxels.zip p.vertices)) =
        List.map Prod.snd (List.map Prod.snd (p.name.zip (p.voxels.zip p.vertices))) := by
      rw [List.map_map]
      rfl
    rw [h2, List.map_snd_zip _ _ (le_of_eq hzl), List.map_snd_zip _ _ (by omega)]
  rw [hmfst, hmvox, hmvert] at hfold
  simp only [List.nil_append] at hfold
  rcases haffc : p.affine with _ | a
  · refine ⟨{ name := p.name, voxels := p.voxels, vertices := p.vertices,
              affine := none, volume_shape := none, nvertices := p.nvertices }, ?_, ?_⟩
    · unfold Parcels.from_mapping
      try dsimp only
      rw [hpars, hsurf, hnvf, hfold]
      try dsimp only
      have hvolc : (p.to_mapping dim).volume = none := by
        show (if p.affine.isSome then
          some ({ volume_dimensions := p.volume_shape
                  matrix := p.affine } : VolumeE) else none) = none
        rw [haffc]
        rfl
      rw [hvolc]
      try dsimp only
      unfold Parcels.init
      rw [checkAffine_ok none (by rfl), checkShape_ok none (by rfl)]
      try dsimp only
      rw [if_pos ⟨hvl, hvtl⟩]
    · exact parcelsBeq_of_parts _ p rfl hne rfl hnvnd rfl rfl hvertnd hrows
        (by rw [haffc])
  · have haffa : a.length = 16 := by
      rw [haffc] at haff
      simpa using haff
    refine ⟨{ name := p.name, voxels := p.voxels, vertices := p.vertices,
              affine := some a, volume_shape := p.volume_shape,
              nvertices := p.nvertices }, ?_, ?_⟩
    · unfold Parcels.from_mapping
      try dsimp only
      rw [hpars, hsurf, hnvf, hfold]
      try dsimp only
      have hvolc : (p.to_mapping dim).volume =
          some ({ volume_dimensions := p.volume_shape
                  matrix := some a } : VolumeE) := by
        show (if p.affine.isSome then
          some ({ volume_dimensions := p.volume_shape
                  matrix := p.affine } : VolumeE) else none) =
          some ({ volume_dimensions := p.volume_shape
                  matrix := some a } : VolumeE)
        rw [haffc]
        rfl
      rw [hvolc]
      try dsimp only
      unfold Parcels.init
      rw [checkAffine_ok (some a) (by simpa using haffa),
        checkShape_ok p.volume_shape hshp]
      try dsimp only
      rw [if_pos ⟨hvl, hvtl⟩]
    · refine parcelsBeq_of_parts _ p rfl hne rfl hnvnd rfl rfl hvertnd hrows ?_
      rw [haffc]
      show (decide (tol < maxAbsDiff a a) || (p.volume_shape != p.volume_shape)) = false
      rw [maxAbsDiff_self, bne_self_eq_false,
        decide_eq_false (by have := tol_pos; intro hc; exact absurd (lt_trans this hc) (lt_irrefl 0))]
      rfl

/-! ## Claim C1 (amended) -/

/-- C1 (amended): `to_mapping` followed by `from_mapping` succeeds and
reproduces an axis equal, by the variant's own equality, to the original —
for `Series`, `Scalar` and `Label` on every valid axis, but for
`BrainModel` only when every volumetric element carries the sentinel
vertex `-1` (the writer drops surface-less vertex data and the reader
rebuilds it as `-1`, and `__eq__` compares vertices at volumetric
positions), and for `Parcels` only when the axis is nonempty, every
vertex-row structure has a declared vertex count, and every vertex array
is nonempty (the inverted `(a != b).all()` comparisons make the empty
cases compare unequal to themselves). -/
theorem roundtrip_amended :
    (∀ (s : Series) (dim : Nat), s.Valid →
      ∃ r, Series.from_mapping (s.to_mapping dim) = .ok r ∧ seriesBeq r s = true) ∧
    (∀ (sc : Scalar) (dim : Nat), sc.Valid →
      ∃ r, Scalar.from_mapping (sc.to_mapping dim) = .ok r ∧ scalarBeq r sc = true) ∧
    (∀ (lb : Label) (dim : Nat), lb.Valid →
      ∃ r, Label.from_mapping (lb.to_mapping dim) = .ok r ∧ labelBeq r lb = true) ∧
    (∀ (bm : BrainModel) (dim : Nat), bm.Valid →
      (∀ q ∈ bm.isSurfList.zip bm.vertex, q.1 = false → q.2 = (-1 : Int)) →
      ∃ r, BrainModel.from_mapping (bm.to_mapping dim) = .ok r ∧
        brainModelBeq r bm = true) ∧
    (∀ (p : Parcels) (dim : Nat), p.Valid → p.name ≠ [] →
      (∀ row ∈ p.vertices, ∀ e ∈ row, dmem p.nvertices e.1 = true) →
      (∀ row ∈ p.vertices, ∀ e ∈ row, e.2 ≠ []) →
      ∃ r, Parcels.from_mapping (p.to_mapping dim) = .ok r ∧ parcelsBeq r p = true) :=
  ⟨series_roundtrip_aux, scalar_roundtrip_aux, label_roundtrip_aux,
   brainModel_roundtrip_aux, parcels_roundtrip_aux⟩

/-- C1 witness: the amended round-trip applied to one concrete valid axis
of each variant. -/
theorem roundtrip_amended_witness :
    (∃ r, Series.from_mapping (seriesWit.to_mapping 0) = .ok r ∧
      seriesBeq r seriesWit = true) ∧
    (∃ r, Scalar.from_mapping (scalarX.to_mapping 0) = .ok r ∧
      scalarBeq r scalarX = true) ∧
    (∃ r, Label.from_mapping (labelWit.to_mapping 0) = .ok r ∧
      labelBeq r labelWit = true) ∧
    (∃ r, BrainModel.from_mapping (bmVolRebuilt.to_mapping 0) = .ok r ∧
      brainModelBeq r bmVolRebuilt = true) ∧
    (∃ r, Parcels.from_mapping (parcelsWit.to_mapping 0) = .ok r ∧
      parcelsBeq r parcelsWit = true) :=
  ⟨roundtrip_amended.1 seriesWit 0 (by decide),
   roundtrip_amended.2.1 scalarX 0 (by decide),
   roundtrip_amended.2.2.1 labelWit 0 (by decide),
   roundtrip_amended.2.2.2.1 bmVolRebuilt 0 (by decide) (by decide),
   roundtrip_amended.2.2.2.2 parcelsWit 0 (by decide) (by decide) (by decide) (by decide)⟩

/-! ## Claim C3 (amended) -/

/-- C3 (amended): for valid axes, `BrainModel.__eq__` returns true exactly
when the axes have the same length, the same surface/volume classification
for every element, equal voxel indices and equal vertex indices on the
VOLUMETRIC elements only (surface vertex indices are never compared),
equal names and `nvertices`, and affines that are either both absent or
both present, within absolute tolerance 1e-8 and with equal volume
shapes. -/
theorem brainmodel_eq_amended (a b : BrainModel) (ha : a.Valid) (hb : b.Valid) :
    brainModelBeq a b = true ↔ BrainModel.EqSpecAmended a b := by
  obtain ⟨-, havx, havt, -, -, hand, -, -, -, -, -⟩ := ha
  obtain ⟨-, hbvx, hbvt, -, -, hbnd, -, -, -, -, -⟩ := hb
  have hsl : a.isSurfList.length = a.name.length := List.length_map _ _
  constructor
  · intro h
    unfold brainModelBeq at h
    split at h
    · exact Bool.noConfusion h
    · split at h
      · exact Bool.noConfusion h
      · simp only [Bool.and_eq_true] at h
        obtain ⟨⟨⟨⟨haff, hnv⟩, hname⟩, hvox⟩, hvert⟩ := h
        have hnameeq : a.name = b.name := by simpa using hname
        have hlk : ∀ k, dlookup a.nvertices k = dlookup b.nvertices k :=
          lookup_eq_of_dictBeq _ _ hnv
        have hsurf : a.isSurfList = b.isSurfList := by
          unfold BrainModel.isSurfList
          rw [hnameeq]
          exact List.map_congr_left (fun n _ => dmem_eq_of_lookup_eq _ _ _ (hlk n))
        have hlen : a.name.length = b.name.length := by rw [hnameeq]
        have hvoxeq : maskNot a.isSurfList a.voxel = maskNot b.isSurfList b.voxel := by
          simpa using hvox
        have hverteq : maskNot a.isSurfList a.vertex = maskNot b.isSurfList b.vertex := by
          simpa using hvert
        rw [← hsurf] at hvoxeq hverteq
        have hvoxext := (maskNot_ext ((-1, -1, -1) : Vox) a.isSurfList a.voxel b.voxel
          (by omega) (by omega)).mp hvoxeq
        have hvertext := (maskNot_ext ((-1 : Int)) a.isSurfList a.vertex b.vertex
          (by omega) (by omega)).mp hverteq
        refine ⟨hlen, hsurf, fun i hi hm => hvoxext i (by omega) hm,
          fun i hi hm => hvertext i (by omega) hm, hnameeq, hlk, ?_⟩
        rw [Bool.or_eq_true] at haff
        rcases haff with hboth | hm
        · simp only [Bool.and_eq_true, Option.isNone_iff_eq_none] at hboth
          exact Or.inl hboth
        · rcases haf : a.affine with _ | x
          · rcases hbf : b.affine with _ | y
            · exact Or.inl ⟨rfl, rfl⟩
            · rw [haf, hbf] at hm
              exact Bool.noConfusion hm
          · rcases hbf : b.affine with _ | y
            · rw [haf, hbf] at hm
              exact Bool.noConfusion hm
            · rw [haf, hbf] at hm
              simp only [Bool.and_eq_true, decide_eq_true_eq, beq_iff_eq] at hm
              exact Or.inr ⟨x, y, rfl, rfl, hm.1, hm.2⟩
  · intro h
    obtain ⟨hlen, hsurf, hvox, hvert, hname, hlk, haff⟩ := h
    unfold brainModelBeq
    have hc1 : (a.name.length != b.name.length) = false := by simp [hlen]
    rw [hc1, if_neg Bool.false_ne_true]
    have hc2 : Bool.xor a.affine.isNone b.affine.isNone = false := by
      rcases haff with ⟨h1, h2⟩ | ⟨x, y, h1, h2, -, -⟩ <;> simp [h1, h2]
    rw [hc2, if_neg Bool.false_ne_true]
    simp only [Bool.and_eq_true]
    refine ⟨⟨⟨⟨?_, ?_⟩, ?_⟩, ?_⟩, ?_⟩
    · rcases haff with ⟨h1, h2⟩ | ⟨x, y, h1, h2, hlt, hshape⟩
      · simp [h1, h2]
      · rw [h1, h2]
        simp [hlt, hshape]
    · exact dictBeq_of_lookup_eq _ _ hand hbnd hlk
    · simpa using hname
    · rw [← hsurf]
      have := (maskNot_ext ((-1, -1, -1) : Vox) a.isSurfList a.voxel b.voxel
        (by omega) (by omega)).mpr (fun i hi hm => hvox i (by omega) hm)
      simpa using this
    · rw [← hsurf]
      have := (maskNot_ext ((-1 : Int)) a.isSurfList a.vertex b.vertex
        (by omega) (by omega)).mpr (fun i hi hm => hvert i (by omega) hm)
      simpa using this

/-- Witness for the amended C3 theorem: the two valid pure-surface axes
that differ only in a surface vertex index are equal both by the code
and by the amended wording. -/
theorem brainmodel_eq_amended_witness : BrainModel.EqSpecAmended surfV0 surfV1 :=
  (brainmodel_eq_amended surfV0 surfV1 (by decide) (by decide)).mp (by decide)

/-! ## Claim C2 (amended) -/

/-- C2 (amended): in header assembly, for every ordered sequence of axes,
a later axis reuses an earlier mapping descriptor exactly when its axis
compares Python-equal (identical object OR value-equal by `==`) to an
earlier axis — not only when it is the identical object — registering its
dimension on the descriptor of the FIRST such earlier dimension, while a
dimension with no Python-equal predecessor opens the next fresh
descriptor; every descriptor carries exactly the dimensions assigned to
it, in order, and the number of descriptors is the number of fresh
dimensions. -/
theorem to_header_amended (axes : List Inst) (d : Inst) :
    (to_header axes).2.length = axes.length ∧
    (to_header axes).1.length = nFresh axes d axes.length ∧
    (∀ i < axes.length,
      match (axes.take i).findIdx? (fun a => pyEq a (axes.getD i d)) with
      | some j => (to_header axes).2.getD i 0 = (to_header axes).2.getD j 0
      | none => (to_header axes).2.getD i 0 = nFresh axes d i) ∧
    (∀ s < (to_header axes).1.length,
      ((to_header axes).1.getD s default).applies_to_matrix_dimension =
        (List.range axes.length).filter (fun i => (to_header axes).2.getD i 0 == s)) := by
  have hbase : HeaderInv d [] [] [] := by
    refine ⟨rfl, rfl, ?_, ?_, ?_⟩ <;> intro i hi <;> simp at hi
  have h := toHeaderAux_inv d axes [] [] [] hbase
  rw [List.nil_append] at h
  obtain ⟨h1, h2, h3, h4, h5⟩ := h
  exact ⟨h1, h2, h4, h5⟩

/-- Witness for the amended C2 theorem, on two value-equal but distinct
Scalar instances followed by a Series axis: dimension 1 shares dimension
0's descriptor and the Series dimension opens the next fresh slot. -/
theorem to_header_amended_witness :
    (to_header cAxes).2.getD 1 0 = (to_header cAxes).2.getD 0 0 ∧
    (to_header cAxes).2.getD 2 0 = nFresh cAxes (0, Axis.scalar scalarX) 2 ∧
    (1 : Nat) < cAxes.length ∧ (2 : Nat) < cAxes.length := by
  have h := to_header_amended cAxes (0, Axis.scalar scalarX)
  refine ⟨?_, ?_, by decide, by decide⟩
  · exact h.2.2.1 1 (by decide)
  · exact h.2.2.1 2 (by decide)

end Cifti
